import Mathlib

/-!
# GAML search driver (`gaml.cc`): a shallow embedding and its properties

The development follows `Optimize` and `AssemblySettings` of `src/gaml.cc`,
and the start-up code around them: `LoadConfig`, `PrepareReadSetFromConfig`,
`GetAdvice`, `GetLongestRead` and the seeding of the walk set in `main`.

* Walks are `vector<int>`, walk sets `vector<vector<int>>`; they become
  `List Int` and `List (List Int)`.
* `int` values are mathematical integers; none of the properties below
  depends on wrap-around.
* `double` scores are values of an arbitrary type `S`; the arithmetic the
  driver performs on them (`-`, `/`, `exp`, `log`, conversion from `int`) is
  a record of operations `ScoreOps S`, and the comparisons `>` and `<` are
  those of a linear order on `S`.
* The move operators (`moves.h`), the probability calculator
  (`prob_calculator.h`), `rand()` and the uniform sampler are collaborators
  that are not part of `gaml.cc`: what they return is input data of the
  model (`Attempt`).
* Maps `unordered_map<string, string>` are functions from keys to optional
  values; where the source iterates over a map, the model takes the list of
  its entries in iteration order.
-/

set_option autoImplicit false

namespace GAML

/-! ## Walk sets -/

/-- A walk: node identifiers, with negative entries as gap markers. -/
abbrev Walk := List Int

/-- A walk set, `vector<vector<int>>` in the source. -/
abbrev Paths := List (List Int)

/-- The expression `x ^ 1` of the source on an `int`. -/
def twin (x : Int) : Int := Int.xor x 1

/-- The table `locs` built by the first pair of nested loops of the cleanup:
`locs[x]` receives `i` once for every entry `e` of walk `i` with `e = x`
and once for every entry with `e ^ 1 = x`, in loop order. -/
def locs (paths : Paths) (x : Int) : List Nat :=
  (List.range paths.length).flatMap fun i =>
    (paths.getD i []).flatMap fun e =>
      (if e = x then [i] else []) ++ (if twin e = x then [i] else [])

/-- Body of the second loop of the cleanup for index `i`: walks with more
than one entry are skipped; otherwise the inner loop asks whether `locs` of
the first entry holds an index different from `i`.  Reading `paths[i][0]` of
an empty walk is undefined in the source; the model skips such a walk. -/
def loneRepeated (paths : Paths) (i : Nat) : Bool :=
  let p := paths.getD i []
  if p.length > 1 then false
  else
    match p.head? with
    | none => false
    | some n => (locs paths n).any fun k => k != i

/-- The variable `clean` after the second loop: `none` stands for `-1`,
otherwise the last index for which the inner loop fired. -/
def findClean (paths : Paths) : Option Nat :=
  (List.range paths.length).foldl
    (fun clean i => if loneRepeated paths i then some i else clean) none

/-- The `while (true)` cleanup loop before the main loop (lines 120-144),
with a bound on the number of rounds.  The result carries the number of
rounds that erased a walk; `none` means the bound was reached. -/
def cleanLoop : Nat → Paths → Option (Nat × Paths)
  | 0, _ => none
  | fuel + 1, paths =>
    match findClean paths with
    | none => some (0, paths)
    | some clean =>
      (cleanLoop fuel (paths.eraseIdx clean)).map fun kr => (kr.1 + 1, kr.2)

/-- The cleanup loop inside an iteration (lines 244-271): as `cleanLoop`,
and `local_p` is decremented when `was_local` holds and the erased index is
below it. -/
def cleanLoopLocal (was_local : Bool) : Nat → Int → Paths → Option (Nat × Int × Paths)
  | 0, _, _ => none
  | fuel + 1, local_p, new_paths =>
    match findClean new_paths with
    | none => some (0, local_p, new_paths)
    | some clean =>
      let local_p1 := if was_local && decide ((clean : Int) < local_p) then local_p - 1 else local_p
      (cleanLoopLocal was_local fuel local_p1 (new_paths.eraseIdx clean)).map
        fun kr => (kr.1 + 1, kr.2.1, kr.2.2)

/-- The initial cleanup as a function of the walk set: the loop is given one
round more than there are walks. -/
def cleanPaths (paths : Paths) : Paths :=
  match cleanLoop (paths.length + 1) paths with
  | some kr => kr.2
  | none => paths

/-- The per-iteration cleanup as a function: the adjusted `local_p` and the
cleaned candidate. -/
def cleanPathsLocal (was_local : Bool) (local_p : Int) (new_paths : Paths) : Int × Paths :=
  match cleanLoopLocal was_local (new_paths.length + 1) local_p new_paths with
  | some kr => kr.2
  | none => (local_p, new_paths)

/-- A walk set has no lone repeated node: no walk with a single entry `n`
has `n` or `n ^ 1` among the entries of another walk of the set. -/
def NoLoneRepeated (paths : Paths) : Prop :=
  ∀ (i j : Nat) (n : Int) (w : Walk),
    paths.get? i = some [n] → paths.get? j = some w → j ≠ i → n ∉ w ∧ twin n ∉ w

/-! ## Scores and settings -/

/-- The `double` operations `Optimize` applies to scores and temperatures,
together with the conversions it needs: `ofInt` is the conversion of an `int`
to `double`, `ofScientific m e` the decimal literal `m · 10^(-e)`. -/
structure ScoreOps (S : Type) where
  sub : S → S → S
  div : S → S → S
  exp : S → S
  log : S → S
  ofInt : Int → S
  ofScientific : Nat → Nat → S

/-- A configuration map, `unordered_map<string, string>`: the value stored
under a key, if the key is present. -/
abbrev Config := String → Option String

/-- `ExtractInt`; `StringToInt` is declared in `utility.h`. -/
def ExtractInt (StringToInt : String → Int) (key : String) (cfg : Config) (d : Int) : Int :=
  match cfg key with
  | some v => StringToInt v
  | none => d

/-- `ExtractDouble`; `StringToDouble` is declared in `utility.h`. -/
def ExtractDouble {S : Type} (StringToDouble : String → S) (key : String) (cfg : Config)
    (d : S) : S :=
  match cfg key with
  | some v => StringToDouble v
  | none => d

/-- `ExtractString`. -/
def ExtractString (key : String) (cfg : Config) (d : String) : String :=
  match cfg key with
  | some v => v
  | none => d

/-- The fields of `struct AssemblySettings`. -/
structure AssemblySettings (S : Type) where
  threshold : Int
  output_prefix : String
  max_iterations : Int
  do_postprocess : Bool
  extendadvp : Int
  extendp : Int
  breakp : Int
  fixp : Int
  localp : Int
  fixlenp : Int
  t0 : S

/-- The constructor `AssemblySettings(configs)` (lines 67-87), without the two
global path strings it also sets. -/
def AssemblySettings.ofConfig {S : Type} (ops : ScoreOps S) (StringToInt : String → Int)
    (StringToDouble : String → S) (configs : Config) : AssemblySettings S :=
  let threshold := ExtractInt StringToInt "long_contig_threshold" configs 500
  let output_prefix := ExtractString "output_prefix" configs "output"
  let max_iterations := ExtractInt StringToInt "max_iterations" configs 50000
  let pp : Bool × Int :=
    if (configs "do_proprocess").isSome then (true, 1) else (false, max_iterations)
  { threshold := threshold
    output_prefix := output_prefix
    max_iterations := pp.2
    do_postprocess := pp.1
    extendadvp := ExtractInt StringToInt "join_by_advice_p" configs 25
    extendp := ExtractInt StringToInt "extend_p" configs 5
    breakp := ExtractInt StringToInt "disconnect_p" configs 60
    fixp := ExtractInt StringToInt "interchange_p" configs 1
    localp := ExtractInt StringToInt "local_p" configs 60
    fixlenp := ExtractInt StringToInt "fixlen_p" configs 1
    t0 := ExtractDouble StringToDouble "t0" configs (ops.ofScientific 8 3) }

/-! ## One pass of the main loop -/

/-- What `Optimize` reads of the graph: `nodes[i]` is `gr.nodes[i]->s.length()`. -/
structure Graph where
  nodes : List Nat

/-- The test `gr.nodes[e]->s.length() > threshold`: the left side is a
`size_t`, so the `int` threshold is converted to a 64-bit unsigned value.
An index outside `gr.nodes` is undefined in the source; the model reads
length 0 there. -/
def isBig (gr : Graph) (threshold : Int) (e : Int) : Bool :=
  decide (threshold % 2 ^ 64 < ((gr.nodes.getD e.toNat 0 : Nat) : Int))

/-- The keys given the value 0 by the first loop of the "Rep stats" block. -/
def bigEvenNodes (gr : Graph) (threshold : Int) : List Int :=
  ((List.range gr.nodes.length).filter fun i => i % 2 == 0 && isBig gr threshold i).map
    fun i => (i : Int)

/-- The value `counts[i]` after the second loop of the block, for a key `i`
set by the first loop: the number of entries `e` of `paths` with `e >= 0`,
a long sequence and `(e/2)*2 = i`. -/
def repCount (gr : Graph) (threshold : Int) (paths : Paths) (i : Int) : Nat :=
  (paths.flatMap id).countP fun e =>
    decide (0 ≤ e) && isBig gr threshold e && decide (Int.tdiv e 2 * 2 = i)

/-- The "Rep stats" block (lines 216-241): every key whose count is 0 is
appended to `new_paths` as a single-entry walk.  The counts are taken over
`paths`, as in the source.  The source visits the keys in the iteration order
of an `unordered_map`, which is unspecified; the model visits them in
increasing order. -/
def repStats (gr : Graph) (threshold : Int) (paths new_paths : Paths) : Paths :=
  new_paths ++
    ((bigEvenNodes gr threshold).filter fun i => repCount gr threshold paths i == 0).map
      fun i => [i]

/-- The move operators `Optimize` can call. -/
inductive Move where
  | ExtendPaths
  | FixSomeBigReps
  | LocalChange
  | ExtendPathsAdv
  | FixGapLength
  | BreakPath
  | FixBigReps
  deriving DecidableEq, Repr

/-- The local `extendadvp`: the setting, or 0 when both advice vectors are
empty (`adviceCount` is `advice_pacbio.size() + advice_paired.size()`). -/
def effExtendAdvP {S : Type} (settings : AssemblySettings S) (adviceCount : Nat) : Int :=
  if adviceCount = 0 then 0 else settings.extendadvp

/-- The modulus of the draw,
`extendp + breakp + fixp + localp + extendadvp + fixlenp`. -/
def weightSum {S : Type} (settings : AssemblySettings S) (adviceCount : Nat) : Int :=
  settings.extendp + settings.breakp + settings.fixp + settings.localp +
    effExtendAdvP settings adviceCount + settings.fixlenp

/-- The draw `r = rand() % (...)` for the value `rnd` returned by `rand()`.
For a zero sum the source divides by zero. -/
def drawR {S : Type} (settings : AssemblySettings S) (adviceCount : Nat) (rnd : Nat) : Int :=
  Int.tmod (rnd : Int) (weightSum settings adviceCount)

/-- The `if / else if` chain of lines 173-213 when `do_postprocess` is unset:
the move that is called for the draw `r`. -/
def pickMove {S : Type} (settings : AssemblySettings S) (adviceCount : Nat) (r : Int) : Move :=
  let extendadvp := effExtendAdvP settings adviceCount
  let extendp := settings.extendp
  let fixp := settings.fixp
  let localp := settings.localp
  let fixlenp := settings.fixlenp
  if r < extendp then Move.ExtendPaths
  else if r < extendp + fixp then Move.FixSomeBigReps
  else if r < extendp + fixp + localp then Move.LocalChange
  else if r < extendp + fixp + localp + extendadvp then Move.ExtendPathsAdv
  else if r < extendp + fixp + localp + extendadvp + fixlenp then Move.FixGapLength
  else Move.BreakPath

/-- The locals of `Optimize` that live across passes of the main loop. -/
structure State (S : Type) where
  paths : Paths
  cur_prob : S
  best_paths : Paths
  best_prob : S
  itnum : Int
  T : S

/-- What the collaborators hand back during one pass of the main loop: the
value of `rand()`, the return value of the move and `new_paths` as the move
left it, the out-parameters of `LocalChange`, the score `CalcProb` returns
for the candidate, and the sample of the uniform distribution. -/
structure Attempt (S : Type) where
  rnd : Nat
  ok : Bool
  moved : Paths
  local_p : Int
  local_s : Int
  local_t : Int
  new_prob : S
  samp : S

/-- The flag `accept` after lines 286-311. -/
def acceptFlag {S : Type} [LinearOrder S] (ops : ScoreOps S) (do_postprocess was_break : Bool)
    (cur_prob new_prob T samp : S) : Bool :=
  if decide (new_prob > cur_prob) || do_postprocess then true
  else if was_break then
    let prob := ops.exp (ops.div (ops.sub new_prob cur_prob) T)
    decide (samp < prob)
  else false

/-- Lines 273-320 for a candidate `new_paths` with score `new_prob`:
`itnum++`, the new temperature, the acceptance rule and the update of the
best walk set (`force_best` is never set, so the second test is
`new_prob > best_prob`). -/
def scoreAndAccept {S : Type} [LinearOrder S] (ops : ScoreOps S) (settings : AssemblySettings S)
    (st : State S) (was_break : Bool) (new_paths : Paths) (new_prob samp : S) : State S :=
  let itnum := st.itnum + 1
  let T := ops.div settings.t0 (ops.log (ops.ofInt (itnum + 1)))
  let accept := acceptFlag ops settings.do_postprocess was_break st.cur_prob new_prob T samp
  let force_best := false
  let best := decide (new_prob > st.best_prob) || force_best
  { paths := if accept then new_paths else st.paths
    cur_prob := if accept then new_prob else st.cur_prob
    best_paths := if best then new_paths else st.best_paths
    best_prob := if best then new_prob else st.best_prob
    itnum := itnum
    T := T }

/-- The candidate that is scored: the walk set left by the move, after the
"Rep stats" block and the cleanup loop. -/
def candidate {S : Type} (gr : Graph) (settings : AssemblySettings S) (st : State S)
    (was_local : Bool) (a : Attempt S) : Paths :=
  (cleanPathsLocal was_local a.local_p (repStats gr settings.threshold st.paths a.moved)).2

/-- Lines 215-320 after a move that did not `continue`. -/
def finishPass {S : Type} [LinearOrder S] (ops : ScoreOps S) (gr : Graph)
    (settings : AssemblySettings S) (st : State S) (was_local was_break : Bool)
    (a : Attempt S) : State S :=
  scoreAndAccept ops settings st was_break (candidate gr settings st was_local a) a.new_prob
    a.samp

/-- The move that a pass calls: `FixBigReps` when `do_postprocess` is set,
otherwise the move picked by the draw. -/
def chosenMove {S : Type} (settings : AssemblySettings S) (adviceCount : Nat) (rnd : Nat) :
    Move :=
  if settings.do_postprocess then Move.FixBigReps
  else pickMove settings adviceCount (drawR settings adviceCount rnd)

/-- One pass of the body of `while (itnum <= settings.max_iterations)`
(lines 151-320).  The return value of `FixBigReps` is not inspected; a
branch that executes `continue` leaves the state as it is.  `was_local` is
set in the `LocalChange` branch when `local_p != -1`, `was_break` in the
`BreakPath` branch. -/
def attempt {S : Type} [LinearOrder S] (ops : ScoreOps S) (gr : Graph)
    (settings : AssemblySettings S) (adviceCount : Nat) (st : State S) (a : Attempt S) :
    State S :=
  match chosenMove settings adviceCount a.rnd with
  | Move.FixBigReps => finishPass ops gr settings st false false a
  | Move.ExtendPaths => if !a.ok then st else finishPass ops gr settings st false false a
  | Move.FixSomeBigReps => if !a.ok then st else finishPass ops gr settings st false false a
  | Move.LocalChange =>
    if !a.ok then st
    else finishPass ops gr settings st (decide (a.local_p ≠ -1)) false a
  | Move.ExtendPathsAdv => if !a.ok then st else finishPass ops gr settings st false false a
  | Move.FixGapLength => if !a.ok then st else finishPass ops gr settings st false false a
  | Move.BreakPath => if !a.ok then st else finishPass ops gr settings st false true a

/-- Whether a pass reaches the scoring of its candidate. -/
def isScored {S : Type} (settings : AssemblySettings S) (adviceCount : Nat) (a : Attempt S) :
    Bool :=
  decide (chosenMove settings adviceCount a.rnd = Move.FixBigReps) || a.ok

/-- The value of `was_local` when the candidate of a pass is scored. -/
def wasLocal {S : Type} (settings : AssemblySettings S) (adviceCount : Nat) (a : Attempt S) :
    Bool :=
  decide (chosenMove settings adviceCount a.rnd = Move.LocalChange) && decide (a.local_p ≠ -1)

/-- The value of `was_break` when the candidate of a pass is scored. -/
def wasBreak {S : Type} (settings : AssemblySettings S) (adviceCount : Nat) (a : Attempt S) :
    Bool :=
  decide (chosenMove settings adviceCount a.rnd = Move.BreakPath)

/-- The locals of `Optimize` when the main loop is reached (lines 104-144):
`init_prob` is the score `CalcProb` returns for the walk set passed in. -/
def optimizeInit {S : Type} (ops : ScoreOps S) (paths : Paths) (init_prob : S) : State S :=
  { paths := cleanPaths paths
    cur_prob := init_prob
    best_paths := paths
    best_prob := init_prob
    itnum := 0
    T := ops.ofInt 5 }

/-- The main loop, driven by the answers of the collaborators for the
successive passes: it stops when the test `itnum <= max_iterations` fails,
and the state after the last listed pass is returned when the answers run
out first. -/
def mainLoop {S : Type} [LinearOrder S] (ops : ScoreOps S) (gr : Graph)
    (settings : AssemblySettings S) (adviceCount : Nat) : List (Attempt S) → State S → State S
  | [], st => st
  | a :: rest, st =>
    if st.itnum ≤ settings.max_iterations then
      mainLoop ops gr settings adviceCount rest (attempt ops gr settings adviceCount st a)
    else st

/-- The weight of a move in the draw: the setting named after it, with the
advice weight counted as 0 when there is no advice library; `FixBigReps` is
not part of the draw. -/
def moveWeight {S : Type} (settings : AssemblySettings S) (adviceCount : Nat) : Move → Int
  | Move.ExtendPaths => settings.extendp
  | Move.FixSomeBigReps => settings.fixp
  | Move.LocalChange => settings.localp
  | Move.ExtendPathsAdv => if adviceCount = 0 then 0 else settings.extendadvp
  | Move.FixGapLength => settings.fixlenp
  | Move.BreakPath => settings.breakp
  | Move.FixBigReps => 0

/-- The start of the cumulative interval of a move: the sum of the weights of
the moves before it in the order Extend, FixSomeBigReps, LocalChange,
ExtendAdv, FixGapLength, BreakPath. -/
def moveStart {S : Type} (settings : AssemblySettings S) (adviceCount : Nat) : Move → Int
  | Move.ExtendPaths => 0
  | Move.FixSomeBigReps => moveWeight settings adviceCount Move.ExtendPaths
  | Move.LocalChange =>
    moveWeight settings adviceCount Move.ExtendPaths +
      moveWeight settings adviceCount Move.FixSomeBigReps
  | Move.ExtendPathsAdv =>
    moveWeight settings adviceCount Move.ExtendPaths +
      moveWeight settings adviceCount Move.FixSomeBigReps +
      moveWeight settings adviceCount Move.LocalChange
  | Move.FixGapLength =>
    moveWeight settings adviceCount Move.ExtendPaths +
      moveWeight settings adviceCount Move.FixSomeBigReps +
      moveWeight settings adviceCount Move.LocalChange +
      moveWeight settings adviceCount Move.ExtendPathsAdv
  | Move.BreakPath =>
    moveWeight settings adviceCount Move.ExtendPaths +
      moveWeight settings adviceCount Move.FixSomeBigReps +
      moveWeight settings adviceCount Move.LocalChange +
      moveWeight settings adviceCount Move.ExtendPathsAdv +
      moveWeight settings adviceCount Move.FixGapLength
  | Move.FixBigReps => 0

/-- The walk sets scored by the passes of the main loop, each with the score
it received, in the order of scoring. -/
def scoredTrace {S : Type} [LinearOrder S] (ops : ScoreOps S) (gr : Graph)
    (settings : AssemblySettings S) (adviceCount : Nat) :
    List (Attempt S) → State S → List (Paths × S)
  | [], _ => []
  | a :: rest, st =>
    if st.itnum ≤ settings.max_iterations then
      (if isScored settings adviceCount a then
          [(candidate gr settings st (wasLocal settings adviceCount a) a, a.new_prob)]
        else []) ++
        scoredTrace ops gr settings adviceCount rest (attempt ops gr settings adviceCount st a)
    else []

/-- The earliest entry of `first :: rest` whose score is at least every score
of that list. -/
def earliestBest {S : Type} [LinearOrder S] (first : Paths × S) (rest : List (Paths × S)) :
    Paths × S :=
  ((first :: rest).find? fun x => (first :: rest).all fun y => decide (y.2 ≤ x.2)).getD first

/-- The state of `Optimize` after the listed passes of the main loop, for the
walk set passed in and its score. -/
def optimizeState {S : Type} [LinearOrder S] (ops : ScoreOps S) (gr : Graph)
    (settings : AssemblySettings S) (adviceCount : Nat) (paths : Paths) (init_prob : S)
    (as : List (Attempt S)) : State S :=
  mainLoop ops gr settings adviceCount as (optimizeInit ops paths init_prob)

/-- The candidates scored during the listed passes, with their scores. -/
def optimizeTrace {S : Type} [LinearOrder S] (ops : ScoreOps S) (gr : Graph)
    (settings : AssemblySettings S) (adviceCount : Nat) (paths : Paths) (init_prob : S)
    (as : List (Attempt S)) : List (Paths × S) :=
  scoredTrace ops gr settings adviceCount as (optimizeInit ops paths init_prob)

/-- The entry `b` is the earliest entry of the list with the largest score:
the entries before it score strictly less, the entries after it at most as
much. -/
def IsEarliestMax {S : Type} [LinearOrder S] (l : List (Paths × S)) (b : Paths × S) : Prop :=
  ∃ l1 l2, l = l1 ++ b :: l2 ∧ (∀ y ∈ l1, y.2 < b.2) ∧ (∀ y ∈ l2, y.2 ≤ b.2)

/-- A sample arithmetic for evaluating the model on examples: fixed-point
numbers with three decimals (the integer `n` stands for `n/1000`), where
`exp` and `log` are replaced by the rational bounds `1/(1-x)` (for `x < 0`),
`1+x` and `x-1`. -/
def sampleOps : ScoreOps Int where
  sub := fun a b => a - b
  div := fun a b => Int.tdiv (a * 1000) b
  exp := fun x => if x < 0 then Int.tdiv (1000 * 1000) (1000 - x) else 1000 + x
  log := fun x => x - 1000
  ofInt := fun n => 1000 * n
  ofScientific := fun m e => Int.tdiv (1000 * (m : Int)) (10 ^ e)

/-- Sample settings: the defaults of the constructor (an empty configuration
map), with the decimal parsers replaced by constants. -/
def sampleSettings : AssemblySettings Int :=
  AssemblySettings.ofConfig sampleOps (fun _ => 0) (fun _ => 0) (fun _ => none)

/-- Sample settings for the post-process mode: the configuration map holds
the single key `do_proprocess`. -/
def samplePostSettings : AssemblySettings Int :=
  AssemblySettings.ofConfig sampleOps (fun _ => 0) (fun _ => 0)
    (fun k => if k = "do_proprocess" then some "" else none)

/-- Sample graph: two twin pairs of nodes, all sequences of length 1000. -/
def sampleGraph : Graph := ⟨[1000, 1000, 1000, 1000]⟩

/-- Sample state at the start of the main loop: the single walk `0, 2` with
score `-5.000`. -/
def sampleStart : State Int := optimizeInit sampleOps [[0, 2]] (-5000)

/-- Sample pass: the draw 126 picks `BreakPath` under the default weights
without advice library, the move splits the walk, the candidate scores
`-6.000` and the uniform sample is 0. -/
def sampleBreak : Attempt Int :=
  { rnd := 126, ok := true, moved := [[0], [2]], local_p := 0, local_s := 0, local_t := 0,
    new_prob := -6000, samp := 0 }

/-- The setting `x` is read from `key`: it is the parsed value stored under
`key` when the key is present, and the default `d` when it is absent. -/
def IsSettingOf {α : Type} (cfg : Config) (key : String) (parse : String → α) (d x : α) :
    Prop :=
  (∀ v, cfg key = some v → x = parse v) ∧ (cfg key = none → x = d)

/-- Sample configuration map: `do_proprocess` with an empty value and
`max_iterations` with the value `"700"`. -/
def samplePostConfig : Config :=
  fun k => if k = "do_proprocess" then some ""
    else if k = "max_iterations" then some "700" else none

/-- Sample parser of integers: it knows the decimal strings used in the
samples. -/
def sampleStringToInt (s : String) : Int :=
  if s = "700" then 700 else if s = "7" then 7 else 0

/-- The seeding of `starting_paths` in `main` when no starting assembly is
configured (lines 1001-1006): one single-entry walk for every even index `i`
with `gr.nodes[i]->s.length() > settings.threshold`, in increasing order. -/
def seedPaths (gr : Graph) (threshold : Int) : Paths :=
  ((List.range gr.nodes.length).filter fun (i : Nat) =>
      i % 2 == 0 && isBig gr threshold (i : Int)).map
    fun (i : Nat) => [(i : Int)]

/-- The node `n` is covered by the walk set in one of its two orientations:
`n` or its twin is an entry of some walk. -/
def Covers (paths : Paths) (n : Int) : Prop :=
  ∃ w ∈ paths, n ∈ w ∨ twin n ∈ w

/-- Sample graph with a twin pair whose sequences have exactly the default
threshold length 500. -/
def boundaryGraph : Graph := ⟨[1000, 1000, 500, 500]⟩

/-- Sample state at the start of the main loop on `boundaryGraph`: the single
walk `0`. -/
def boundaryStart : State Int := optimizeInit sampleOps [[0]] (-5000)

/-- Sample pass whose move returns the single walk `0`. -/
def sampleKeep : Attempt Int := { sampleBreak with moved := [[0]] }

/-! ## Witness tables -/

/-- The two witness tables of the graph that `Optimize` writes,
`gr.reach_big_` and `gr.reach_limit_`: the walk stored for a pair of nodes,
if the table has an entry for the pair. -/
structure Caches where
  reach_big : Int → Int → Option (List Int)
  reach_limit : Int → Int → Option (List Int)

/-- The read `new_paths[p][i]`.  An index out of range is undefined in the
source; the model reads 0 there. -/
def entryAt (new_paths : Paths) (p i : Int) : Int :=
  (new_paths.getD p.toNat []).getD i.toNat 0

/-- The vector `pp` filled by the loop of lines 289-292: the entries of walk
`local_p` at the indices `local_s + 1, ..., local_t - 1`. -/
def middleOf (new_paths : Paths) (local_p local_s local_t : Int) : List Int :=
  (List.range (local_t - (local_s + 1)).toNat).map fun (k : Nat) =>
    entryAt new_paths local_p (local_s + 1 + (k : Int))

/-- The assignment `table[s][t] = pp`. -/
def setWitness (table : Int → Int → Option (List Int)) (s t : Int) (pp : List Int) :
    Int → Int → Option (List Int) :=
  fun x y => if x = s ∧ y = t then some pp else table x y

/-- The "local save" of lines 288-301: each table that has an entry for
`(s, t)` gets `pp` stored there. -/
def localSave (new_paths : Paths) (local_p local_s local_t : Int) (c : Caches) : Caches :=
  let pp := middleOf new_paths local_p local_s local_t
  let s := entryAt new_paths local_p local_s
  let t := entryAt new_paths local_p local_t
  { reach_big := if (c.reach_big s t).isSome then setWitness c.reach_big s t pp else c.reach_big
    reach_limit :=
      if (c.reach_limit s t).isSome then setWitness c.reach_limit s t pp else c.reach_limit }

/-- The value of `local_p` when the candidate of a pass is scored: the
out-parameter of the move as adjusted by the cleanup loop. -/
def adjustedLocalP {S : Type} (gr : Graph) (settings : AssemblySettings S) (adviceCount : Nat)
    (st : State S) (a : Attempt S) : Int :=
  (cleanPathsLocal (wasLocal settings adviceCount a) a.local_p
    (repStats gr settings.threshold st.paths a.moved)).1

/-- The witness tables after one pass of the main loop, where `c` holds the
tables as the move left them: they are written only inside the branch
`new_prob > cur_prob || do_postprocess` and only when `was_local` is set
(lines 286-302). -/
def passCaches {S : Type} [LinearOrder S] (gr : Graph) (settings : AssemblySettings S)
    (adviceCount : Nat) (st : State S) (a : Attempt S) (c : Caches) : Caches :=
  if isScored settings adviceCount a then
    if decide (a.new_prob > st.cur_prob) || settings.do_postprocess then
      if wasLocal settings adviceCount a then
        localSave (candidate gr settings st (wasLocal settings adviceCount a) a)
          (adjustedLocalP gr settings adviceCount st a) a.local_s a.local_t c
      else c
    else c
  else c

/-- The entries of a walk strictly between the positions `s` and `t`. -/
def between (w : Walk) (s t : Nat) : List Int :=
  (w.drop (s + 1)).take (t - (s + 1))

/-- Sample graph with a short twin pair (2, 3) between two long ones. -/
def witnessGraph : Graph := ⟨[1000, 1000, 100, 100, 1000, 1000]⟩

/-- Sample state on `witnessGraph`: the single walk `0, 4` with score
`-5.000`. -/
def witnessStart : State Int := optimizeInit sampleOps [[0, 4]] (-5000)

/-- Sample pass: the draw 10 picks `LocalChange` under the default weights,
the move reroutes walk 0 between its positions 0 and 2 through node 2, and
the candidate scores `-4.000`. -/
def sampleLocal : Attempt Int :=
  { rnd := 10, ok := true, moved := [[0, 2, 4]], local_p := 0, local_s := 0, local_t := 2,
    new_prob := -4000, samp := 0 }

/-- Sample witness tables: `reach_big` holds the walk `3` for the pair
`(0, 4)`, `reach_limit` holds nothing. -/
def sampleCaches : Caches :=
  { reach_big := fun x y => if x = 0 ∧ y = 4 then some [3] else none
    reach_limit := fun _ _ => none }

/-! ## Read libraries -/

/-- The arguments of the constructor call
`SingleReadConfig(penalty_constant, step, min_prob, min_prob_start, weight, advice)`. -/
structure SingleReadConfig (S : Type) where
  penalty_constant : S
  step : S
  min_prob : S
  min_prob_start : S
  weight : S
  advice : Bool

/-- The arguments of the constructor call `PairedReadConfig(penalty_constant,
step, insert_mean, insert_std, min_prob, min_prob_start, weight, advice)`. -/
structure PairedReadConfig (S : Type) where
  penalty_constant : S
  step : S
  insert_mean : S
  insert_std : S
  min_prob : S
  min_prob_start : S
  weight : S
  advice : Bool

/-- The arguments of `new ReadSet(cache_prefix, filename, match_prob,
mismatch_prob)`. -/
structure ReadSet (S : Type) where
  cache_prefix : String
  filename : String
  match_prob : S
  mismatch_prob : S

/-- The arguments of `new PacbioReadSet(cache_prefix, filename, match_prob,
mismatch_prob)`. -/
structure PacbioReadSet (S : Type) where
  cache_prefix : String
  filename : String
  match_prob : S
  mismatch_prob : S

/-- `GetLongestRead` (lines 911-933).  The reads of a read set are loaded by
code outside `gaml.cc`: `readLens rs` lists `rs->GetReadLen(i)` for
`i = 0, ..., rs->GetNumberOfReads() - 1`, likewise `pacbioLens`; `toInt` is
the cast `(int)` of a `double`. -/
def GetLongestRead {S : Type} (readLens : ReadSet S → List Int)
    (pacbioLens : PacbioReadSet S → List Int) (toInt : S → Int)
    (single_reads : List (SingleReadConfig S × ReadSet S))
    (paired_reads : List (PairedReadConfig S × (ReadSet S × ReadSet S)))
    (pacbio_reads : List (SingleReadConfig S × PacbioReadSet S)) : Int :=
  let longest_read0 : Int := 0
  let longest_read1 :=
    single_reads.foldl (fun longest_read e => (readLens e.2).foldl max longest_read)
      longest_read0
  let longest_read2 :=
    pacbio_reads.foldl (fun longest_read e => (pacbioLens e.2).foldl max longest_read)
      longest_read1
  paired_reads.foldl (fun longest_read e => max longest_read (toInt e.1.insert_mean))
    longest_read2

/-- The argument `2*longest_read` that `Optimize` passes to
`CalcReachabilityLimit` (line 98). -/
def reachLimitBound (longest_read : Int) : Int := 2 * longest_read

/-- The lengths of all reads of all libraries: the reads of the single read
sets, of both mates of the paired ones, and of the long read sets. -/
def allReadLens {S : Type} (readLens : ReadSet S → List Int)
    (pacbioLens : PacbioReadSet S → List Int)
    (single_reads : List (SingleReadConfig S × ReadSet S))
    (paired_reads : List (PairedReadConfig S × (ReadSet S × ReadSet S)))
    (pacbio_reads : List (SingleReadConfig S × PacbioReadSet S)) : List Int :=
  single_reads.flatMap (fun e => readLens e.2) ++
    paired_reads.flatMap (fun e => readLens e.2.1 ++ readLens e.2.2) ++
    pacbio_reads.flatMap (fun e => pacbioLens e.2)

/-- The values `GetLongestRead` takes the maximum of: the lengths of the
reads of the single and of the long read sets, and the integer part of the
insert mean of every paired library. -/
def longestReadValues {S : Type} (readLens : ReadSet S → List Int)
    (pacbioLens : PacbioReadSet S → List Int) (toInt : S → Int)
    (single_reads : List (SingleReadConfig S × ReadSet S))
    (paired_reads : List (PairedReadConfig S × (ReadSet S × ReadSet S)))
    (pacbio_reads : List (SingleReadConfig S × PacbioReadSet S)) : List Int :=
  single_reads.flatMap (fun e => readLens e.2) ++
    pacbio_reads.flatMap (fun e => pacbioLens e.2) ++
    paired_reads.map (fun e => toInt e.1.insert_mean)

/-- Sample paired library: insert mean `300.000`, deviation `30.000`. -/
def samplePaired : PairedReadConfig Int × (ReadSet Int × ReadSet Int) :=
  ({ penalty_constant := 0, step := 250000, insert_mean := 300000, insert_std := 30000,
     min_prob := -700, min_prob_start := -10000, weight := 1000, advice := false },
   ({ cache_prefix := "lib1", filename := "a_1.fq", match_prob := 960, mismatch_prob := 10 },
    { cache_prefix := "lib2", filename := "a_2.fq", match_prob := 960, mismatch_prob := 10 }))

/-- Sample read lengths: every read set holds two reads, of lengths 100 and
90. -/
def sampleReadLens : ReadSet Int → List Int := fun _ => [100, 90]

/-- The cast `(int)` for the sample fixed-point arithmetic. -/
def sampleToInt (x : Int) : Int := Int.tdiv x 1000

/-! ## Configuration file -/

/-- The loop of `ParseConfigLine` on the characters of the line: the text
before the first `'='` and the text after it, or `none` when there is no
`'='`. -/
def splitAtEq : List Char → Option (List Char × List Char)
  | [] => none
  | c :: cs =>
    if c = '=' then some ([], cs)
    else (splitAtEq cs).map fun kv => (c :: kv.1, kv.2)

/-- `ParseConfigLine`: `none` is the return value `false`, otherwise the pair
`(key, value)` it assigns. -/
def ParseConfigLine (line : String) : Option (String × String) :=
  (splitAtEq line.data).map fun kv => (String.mk kv.1, String.mk kv.2)

/-- What `LoadConfig` has built after some lines: the current section name
and the two maps. -/
structure ConfigState where
  current_read_set : String
  configs : Config
  read_set_configs : String → Option Config

/-- The assignment `cfg[key] = value`. -/
def setKey (cfg : Config) (key value : String) : Config :=
  fun k => if k = key then some value else cfg k

/-- The assignment `read_set_configs[name][key] = value`; the inner map is
created empty when `name` has none yet. -/
def setSectionKey (sections : String → Option Config) (name key value : String) :
    String → Option Config :=
  fun n => if n = name then some (setKey ((sections n).getD fun _ => none) key value)
    else sections n

/-- The body of the `while (getline(fi, l))` loop of `LoadConfig` for one
line; `none` is `return false`.  For a line that consists of `'['` alone the
count `l.length() - 2` wraps around and `substr` returns the empty rest of
the line, as the model does. -/
def configLine (st : ConfigState) (l : String) : Option ConfigState :=
  match l.data with
  | [] => some st
  | c :: cs =>
    if c = '[' then
      some { st with current_read_set := String.mk (cs.take (l.length - 2)) }
    else if 'a' ≤ c ∧ c ≤ 'z' then
      match ParseConfigLine l with
      | none => none
      | some kv =>
        if st.current_read_set = "" then
          some { st with configs := setKey st.configs kv.1 kv.2 }
        else
          some { st with
            read_set_configs := setSectionKey st.read_set_configs st.current_read_set kv.1 kv.2 }
    else some st

/-- The loop of `LoadConfig` over the lines of the file. -/
def loadLines (st : ConfigState) : List String → Option ConfigState
  | [] => some st
  | l :: rest =>
    match configLine st l with
    | none => none
    | some st1 => loadLines st1 rest

/-- `LoadConfig` for a file that can be opened, given as the list of its
lines, called with empty maps as in `main`; `none` is the return value
`false`. -/
def LoadConfig (lines : List String) : Option ConfigState :=
  loadLines { current_read_set := "", configs := fun _ => none,
              read_set_configs := fun _ => none } lines

/-- The first checks of `main` (lines 944-951) for a readable file: the exit
code when `main` returns there, `none` when it goes on. -/
def mainConfigExit (lines : List String) : Option Nat :=
  match LoadConfig lines with
  | none => some 1
  | some st =>
    if (st.configs "graph").isNone && (st.configs "starting_assembly").isNone then some 1
    else none

/-- The line begins with a lowercase letter. -/
def beginsLower (l : String) : Bool :=
  match l.data with
  | [] => false
  | c :: _ => decide ('a' ≤ c ∧ c ≤ 'z')

/-- The text of the line before its first `'='`. -/
def keyText (l : String) : String :=
  String.mk (l.data.takeWhile fun c => c != '=')

/-- The text of the line after its first `'='`. -/
def valueText (l : String) : String :=
  String.mk ((l.data.dropWhile fun c => c != '=').drop 1)

/-- The section name given by a header line, a line that begins with `'['`:
the text between the first and the last character. -/
def headerName (l : String) : Option String :=
  match l.data with
  | [] => none
  | c :: cs => if c = '[' then some (String.mk (cs.take (l.length - 2))) else none

/-- The name given by the most recent header line among `lines`, or `start`
when there is none. -/
def lastHeaderName (start : String) (lines : List String) : String :=
  lines.foldl (fun cur l => (headerName l).getD cur) start

/-- Sample state of `LoadConfig` after the header `[a]`: section `a` is
current and both maps are empty. -/
def sampleSectionState : ConfigState :=
  { current_read_set := "a", configs := fun _ => none, read_set_configs := fun _ => none }

/-! ## Preparation of the read sets -/

/-- Two further `double` operations used when the read sets are prepared:
the product and the unary minus. -/
structure LibOps (S : Type) where
  mul : S → S → S
  neg : S → S

/-- The three vectors filled by `PrepareReadSetFromConfig`. -/
structure Libraries (S : Type) where
  single_reads : List (SingleReadConfig S × ReadSet S)
  paired_reads : List (PairedReadConfig S × (ReadSet S × ReadSet S))
  pacbio_reads : List (SingleReadConfig S × PacbioReadSet S)

/-- The body of the loop of `PrepareReadSetFromConfig` (lines 788-871) for
one entry `e` of `read_set_configs`: the section name and its map.  Every
`continue` leaves the three vectors as they are. -/
def prepareSection {S : Type} (ops : ScoreOps S) (lib : LibOps S)
    (StringToDouble : String → S) (libs : Libraries S) (e : String × Config) : Libraries S :=
  let cache_prefix := match e.2 "cache_prefix" with
    | some v => v
    | none => e.1
  match e.2 "type" with
  | none => libs
  | some type =>
    let weight := ExtractDouble StringToDouble "weight" e.2 (ops.ofInt 1)
    let advice := (e.2 "advice").isSome
    if type = "single" ∨ type = "pacbio" then
      match e.2 "filename" with
      | none => libs
      | some filename =>
        let mismatch_prob := ExtractDouble StringToDouble "mismatch_prob" e.2 (ops.ofScientific 1 2)
        let match_prob := ops.sub (ops.ofScientific 10 1) (lib.mul (ops.ofInt 4) mismatch_prob)
        let min_prob :=
          ExtractDouble StringToDouble "min_prob_per_base" e.2 (lib.neg (ops.ofScientific 7 1))
        let min_prob_start := ExtractDouble StringToDouble "min_prob_start" e.2 (ops.ofInt (-10))
        let penalty_constant := ExtractDouble StringToDouble "penalty_constant" e.2 (ops.ofInt 0)
        let step := ExtractDouble StringToDouble "penalty_step" e.2 (ops.ofInt 50)
        let cfg : SingleReadConfig S :=
          { penalty_constant := penalty_constant, step := step, min_prob := min_prob,
            min_prob_start := min_prob_start, weight := weight, advice := advice }
        if type = "single" then
          { libs with
            single_reads := libs.single_reads ++
              [(cfg, { cache_prefix := cache_prefix, filename := filename,
                       match_prob := match_prob, mismatch_prob := mismatch_prob })] }
        else
          { libs with
            pacbio_reads := libs.pacbio_reads ++
              [(cfg, { cache_prefix := cache_prefix, filename := filename,
                       match_prob := match_prob, mismatch_prob := mismatch_prob })] }
    else if type = "paired" then
      match e.2 "filename1" with
      | none => libs
      | some filename1 =>
        match e.2 "filename2" with
        | none => libs
        | some filename2 =>
          match e.2 "insert_mean" with
          | none => libs
          | some insert_mean_text =>
            match e.2 "insert_std" with
            | none => libs
            | some insert_std_text =>
              let insert_mean := StringToDouble insert_mean_text
              let insert_std := StringToDouble insert_std_text
              let mismatch_prob :=
                ExtractDouble StringToDouble "mismatch_prob" e.2 (ops.ofScientific 1 2)
              let match_prob :=
                ops.sub (ops.ofScientific 10 1) (lib.mul (ops.ofInt 4) mismatch_prob)
              let min_prob :=
                ExtractDouble StringToDouble "min_prob_pre_base" e.2
                  (lib.neg (ops.ofScientific 7 1))
              let min_prob_start :=
                ExtractDouble StringToDouble "min_prob_start" e.2 (ops.ofInt (-10))
              let penalty_constant :=
                ExtractDouble StringToDouble "penalty_constant" e.2 (ops.ofInt 0)
              let step :=
                ops.sub insert_mean (ExtractDouble StringToDouble "penalty_step" e.2 (ops.ofInt 50))
              let cfg : PairedReadConfig S :=
                { penalty_constant := penalty_constant, step := step,
                  insert_mean := insert_mean, insert_std := insert_std, min_prob := min_prob,
                  min_prob_start := min_prob_start, weight := weight, advice := advice }
              { libs with
                paired_reads := libs.paired_reads ++
                  [(cfg,
                    ({ cache_prefix := cache_prefix ++ "1", filename := filename1,
                       match_prob := match_prob, mismatch_prob := mismatch_prob },
                     { cache_prefix := cache_prefix ++ "2", filename := filename2,
                       match_prob := match_prob, mismatch_prob := mismatch_prob }))] }
    else libs

/-- `PrepareReadSetFromConfig`: the loop over the entries of
`read_set_configs`, listed in the order in which the map is iterated,
starting from the vectors `libs` passed in. -/
def PrepareReadSetFromConfig {S : Type} (ops : ScoreOps S) (lib : LibOps S)
    (StringToDouble : String → S) (sections : List (String × Config)) (libs : Libraries S) :
    Libraries S :=
  sections.foldl (prepareSection ops lib StringToDouble) libs

/-- The empty vectors `main` passes to `PrepareReadSetFromConfig`. -/
def Libraries.empty {S : Type} : Libraries S :=
  { single_reads := [], paired_reads := [], pacbio_reads := [] }

/-- `GetAdvice`: the second components of the entries whose configuration
has the flag `advice`, in order; `advice` is the member access
`e.first.advice` of the template. -/
def GetAdvice {T TT : Type} (advice : T → Bool) (input : List (T × TT)) : List TT :=
  input.foldl (fun output e => if advice e.1 then output ++ [e.2] else output) []

/-- The two advice vectors `main` builds and hands to `Optimize`
(lines 1012-1015): from `paired_reads` and from `pacbio_reads`. -/
def adviceSets {S : Type} (libs : Libraries S) :
    List (ReadSet S × ReadSet S) × List (PacbioReadSet S) :=
  (GetAdvice (fun c => c.advice) libs.paired_reads,
    GetAdvice (fun c => c.advice) libs.pacbio_reads)

/-- The section is loaded as a single read set: its type is `single` and it
has `filename`. -/
def validSingle (cfg : Config) : Bool :=
  decide (cfg "type" = some "single") && (cfg "filename").isSome

/-- The section is loaded as a long read set: its type is `pacbio` and it has
`filename`. -/
def validPacbio (cfg : Config) : Bool :=
  decide (cfg "type" = some "pacbio") && (cfg "filename").isSome

/-- The section is loaded as a paired library: its type is `paired` and it
has `filename1`, `filename2`, `insert_mean` and `insert_std`. -/
def validPaired (cfg : Config) : Bool :=
  decide (cfg "type" = some "paired") && (cfg "filename1").isSome &&
    (cfg "filename2").isSome && (cfg "insert_mean").isSome && (cfg "insert_std").isSome

/-- A configuration map given by a list of its entries. -/
def configOfList (l : List (String × String)) : Config :=
  fun k => l.lookup k

/-- The product and unary minus of the sample fixed-point arithmetic. -/
def sampleLibOps : LibOps Int where
  mul := fun a b => Int.tdiv (a * b) 1000
  neg := fun a => -a

/-- Sample parser of decimals into the fixed-point arithmetic: it knows the
strings used in the samples. -/
def sampleStringToDouble (s : String) : Int :=
  if s = "-0.5" then -500 else if s = "300" then 300000 else if s = "30" then 30000 else 0

/-- Sample section of type `single` with the keys `advice` and
`min_prob_per_base`. -/
def sampleSingleSection : String × Config :=
  ("reads", configOfList [("type", "single"), ("filename", "r.fq"), ("advice", "1"),
    ("min_prob_per_base", "-0.5")])

/-- Sample section of type `paired` with the keys `advice` and
`min_prob_per_base`. -/
def samplePairedSection : String × Config :=
  ("pairs", configOfList [("type", "paired"), ("filename1", "a_1.fq"),
    ("filename2", "a_2.fq"), ("insert_mean", "300"), ("insert_std", "30"), ("advice", "1"),
    ("min_prob_per_base", "-0.5")])

/-- Sample section without the key `type`. -/
def sampleUntypedSection : String × Config :=
  ("other", configOfList [("filename", "x.fq")])

/-- The vectors `a` with the entries of `b` pushed to their ends. -/
def Libraries.append {S : Type} (a b : Libraries S) : Libraries S :=
  { single_reads := a.single_reads ++ b.single_reads
    paired_reads := a.paired_reads ++ b.paired_reads
    pacbio_reads := a.pacbio_reads ++ b.pacbio_reads }

/-- The libraries one section contributes: what the loop body pushes when it
starts from empty vectors. -/
def sectionLibs {S : Type} (ops : ScoreOps S) (lib : LibOps S) (StringToDouble : String → S)
    (e : String × Config) : Libraries S :=
  prepareSection ops lib StringToDouble Libraries.empty e

/-- Sample section of type `paired` that holds `penalty_step` with the value
`"30"`. -/
def samplePairedStepSection : String × Config :=
  ("pairs", configOfList [("type", "paired"), ("filename1", "a_1.fq"),
    ("filename2", "a_2.fq"), ("insert_mean", "300"), ("insert_std", "30"),
    ("penalty_step", "30")])

/-- Sample section of type `single` that holds `penalty_step` with the value
`"30"`. -/
def sampleSingleStepSection : String × Config :=
  ("reads", configOfList [("type", "single"), ("filename", "r.fq"), ("penalty_step", "30")])

/-- The current score is the score of the current walk set, for a
calculator that is a function `calcProb` of the walk set. -/
def Coherent {S : Type} (calcProb : Paths → S) (st : State S) : Prop :=
  st.cur_prob = calcProb st.paths

/-- Sample calculator: the structural penalty alone, `50.000` for every walk
beyond the first. -/
def sampleCalcProb (paths : Paths) : Int :=
  -50000 * ((paths.length : Int) - 1)

/-! ## Clipping of the starting walks -/

/-- The body of the inner loop of `ClipPaths` for index `i`, on the pair
`(b, e)`: a negative entry is skipped; an entry whose sequence is longer
than 500 sets `e` to `i`, and `b` as well when `b` is still `-1`.  An index
outside `gr.nodes` is undefined in the source; the model reads length 0
there. -/
def clipStep (gr : Graph) (p : Walk) (be : Int × Int) (i : Nat) : Int × Int :=
  if p.getD i 0 < 0 then be
  else if 500 < gr.nodes.getD (p.getD i 0).toNat 0 then
    ((if be.1 = -1 then (i : Int) else be.1), (i : Int))
  else be

/-- The pair `(b, e)` after the inner loop of `ClipPaths` over the walk `p`. -/
def clipBounds (gr : Graph) (p : Walk) : Int × Int :=
  (List.range p.length).foldl (clipStep gr p) (-1, -1)

/-- What `ClipPaths` pushes for the walk `p`: nothing when `b` is `-1`,
otherwise the entries at the indices `b, ..., e`. -/
def clipWalk (gr : Graph) (p : Walk) : Option Walk :=
  if (clipBounds gr p).1 = -1 then none
  else
    some ((p.drop (clipBounds gr p).1.toNat).take
      ((clipBounds gr p).2.toNat + 1 - (clipBounds gr p).1.toNat))

/-- `ClipPaths` (lines 699-714): the walk set assigned to `paths` at the
end. -/
def ClipPaths (gr : Graph) (paths : Paths) : Paths :=
  paths.foldl
    (fun out p =>
      match clipWalk gr p with
      | none => out
      | some w => out ++ [w])
    []

/-- The entry is a node, not a gap marker, whose sequence is longer than
500. -/
def isLong500 (gr : Graph) (x : Int) : Bool :=
  decide (0 ≤ x) && decide (500 < gr.nodes.getD x.toNat 0)

/-- Sample graph for clipping: nodes 0, 1, 4 and 5 are longer than 500, nodes
2 and 3 are not. -/
def clipGraph : Graph := ⟨[1000, 1000, 100, 100, 800, 800]⟩

/-! ## Acceptance at the special values of `double` -/

/-- The values of a `double` as far as the acceptance test needs them: the
finite values, taken as rationals, with `fin 0` the positive zero `+0.0`;
the negative zero `-0.0`; the two infinities; and NaN.  Rounding is not
modelled. -/
inductive Dbl where
  | fin (q : ℚ)
  | nzero
  | pinf
  | ninf
  | nan

/-- The sign bit of a `double` (for NaN it plays no role). -/
def Dbl.signBit : Dbl → Bool
  | Dbl.fin q => decide (q < 0)
  | Dbl.nzero => true
  | Dbl.pinf => false
  | Dbl.ninf => true
  | Dbl.nan => false

/-- Whether a `double` is one of the two zeros. -/
def Dbl.isZero : Dbl → Bool
  | Dbl.fin q => decide (q = 0)
  | Dbl.nzero => true
  | _ => false

/-- Whether a `double` is one of the two infinities. -/
def Dbl.isInf : Dbl → Bool
  | Dbl.pinf => true
  | Dbl.ninf => true
  | _ => false

/-- Whether a `double` is NaN. -/
def Dbl.isNaN : Dbl → Bool
  | Dbl.nan => true
  | _ => false

/-- The zero with the given sign bit. -/
def Dbl.zero (neg : Bool) : Dbl := if neg then Dbl.nzero else Dbl.fin 0

/-- The infinity with the given sign bit. -/
def Dbl.inf (neg : Bool) : Dbl := if neg then Dbl.ninf else Dbl.pinf

/-- The difference `a - b` of two `double`s under rounding to nearest: NaN
whenever an operand is NaN and for the difference of two infinities of one
sign; an infinity absorbs a finite operand; on finite values the exact
difference, a zero difference being `+0.0` except for `-0.0 - +0.0`, which
is `-0.0`. -/
def Dbl.sub : Dbl → Dbl → Dbl
  | Dbl.nan, _ => Dbl.nan
  | _, Dbl.nan => Dbl.nan
  | Dbl.pinf, Dbl.pinf => Dbl.nan
  | Dbl.ninf, Dbl.ninf => Dbl.nan
  | Dbl.pinf, _ => Dbl.pinf
  | Dbl.ninf, _ => Dbl.ninf
  | _, Dbl.pinf => Dbl.ninf
  | _, Dbl.ninf => Dbl.pinf
  | Dbl.fin a, Dbl.fin b => Dbl.fin (a - b)
  | Dbl.fin a, Dbl.nzero => Dbl.fin a
  | Dbl.nzero, Dbl.fin b => if b = 0 then Dbl.nzero else Dbl.fin (-b)
  | Dbl.nzero, Dbl.nzero => Dbl.fin 0

/-- The quotient `a / b` of two `double`s: NaN whenever an operand is NaN and
for `inf / inf` and `0 / 0`; otherwise the sign of the result is the
exclusive or of the sign bits, an infinite dividend or a zero divisor gives
an infinity, an infinite divisor or a zero dividend gives a zero, and two
non-zero finite values give the exact quotient. -/
def Dbl.div (a b : Dbl) : Dbl :=
  if a.isNaN || b.isNaN then Dbl.nan
  else if a.isInf then (if b.isInf then Dbl.nan else Dbl.inf (xor a.signBit b.signBit))
  else if b.isInf then Dbl.zero (xor a.signBit b.signBit)
  else if b.isZero then (if a.isZero then Dbl.nan else Dbl.inf (xor a.signBit b.signBit))
  else if a.isZero then Dbl.zero (xor a.signBit b.signBit)
  else
    match a, b with
    | Dbl.fin x, Dbl.fin y => Dbl.fin (x / y)
    | _, _ => Dbl.nan

/-- The comparison `a < b` of two `double`s: false whenever an operand is
NaN; the two zeros compare equal. -/
def Dbl.lt : Dbl → Dbl → Bool
  | Dbl.nan, _ => false
  | _, Dbl.nan => false
  | Dbl.pinf, _ => false
  | _, Dbl.ninf => false
  | Dbl.ninf, _ => true
  | _, Dbl.pinf => true
  | Dbl.fin a, Dbl.fin b => decide (a < b)
  | Dbl.fin a, Dbl.nzero => decide (a < 0)
  | Dbl.nzero, Dbl.fin b => decide (0 < b)
  | Dbl.nzero, Dbl.nzero => false

/-- The operations of `Optimize` on `Dbl`; `exp` and `log` are the functions
of the C library, taken as parameters. -/
def dblOps (exp log : Dbl → Dbl) : ScoreOps Dbl where
  sub := Dbl.sub
  div := Dbl.div
  exp := exp
  log := log
  ofInt := fun n => Dbl.fin (n : ℚ)
  ofScientific := fun m e => Dbl.fin ((m : ℚ) / 10 ^ e)

/-- The flag `accept` after lines 286-311, with the comparison of two
`double`s as a parameter: `lt a b` is `a < b`, so that `new_prob > cur_prob`
is `lt cur_prob new_prob`. -/
def acceptFlagWith {S : Type} (lt : S → S → Bool) (ops : ScoreOps S)
    (do_postprocess was_break : Bool) (cur_prob new_prob T samp : S) : Bool :=
  if lt cur_prob new_prob || do_postprocess then true
  else if was_break then
    let prob := ops.exp (ops.div (ops.sub new_prob cur_prob) T)
    lt samp prob
  else false

/-- The temperature `settings.t0 / log(itnum + 1)` of line 274, for the value
of `itnum` after the increment of line 273. -/
def temperatureAt {S : Type} (ops : ScoreOps S) (t0 : S) (itnum : Int) : S :=
  ops.div t0 (ops.log (ops.ofInt (itnum + 1)))

/-- Sample `exp` on `Dbl`: the special values as the C library returns them
(`exp(-inf) = +0`, `exp(+inf) = +inf`, `exp(NaN) = NaN`, `exp(-0) = 1`), and
a positive rational bound on the finite values. -/
def sampleExpD : Dbl → Dbl
  | Dbl.fin q => Dbl.fin (if q < 0 then 1 / (1 - q) else 1 + q)
  | Dbl.nzero => Dbl.fin 1
  | Dbl.pinf => Dbl.pinf
  | Dbl.ninf => Dbl.fin 0
  | Dbl.nan => Dbl.nan

/-- Sample `log` on `Dbl`: the rational bound `x - 1` on the positive finite
values, `-inf` at the zeros, NaN on the negative values. -/
def sampleLogD : Dbl → Dbl
  | Dbl.fin q => if 0 < q then Dbl.fin (q - 1) else if q = 0 then Dbl.ninf else Dbl.nan
  | Dbl.nzero => Dbl.ninf
  | Dbl.pinf => Dbl.pinf
  | Dbl.ninf => Dbl.nan
  | Dbl.nan => Dbl.nan

theorem twin_twin (x : Int) : twin (twin x) = x := by
  unfold twin
  cases x with
  | ofNat m =>
    show Int.ofNat ((m ^^^ 1) ^^^ 1) = Int.ofNat m
    rw [Nat.xor_assoc, Nat.xor_self, Nat.xor_zero]
  | negSucc m =>
    show Int.negSucc ((m ^^^ 1) ^^^ 1) = Int.negSucc m
    rw [Nat.xor_assoc, Nat.xor_self, Nat.xor_zero]

theorem twin_eq_iff (a b : Int) : twin a = b ↔ a = twin b := by
  constructor
  · intro h; rw [← h, twin_twin]
  · intro h; rw [h, twin_twin]

theorem mem_locs (paths : Paths) (x : Int) (k : Nat) :
    k ∈ locs paths x ↔
      k < paths.length ∧ ∃ e ∈ paths.getD k [], e = x ∨ twin e = x := by
  unfold locs
  simp only [List.mem_flatMap, List.mem_range, List.mem_append]
  constructor
  · rintro ⟨i, hi, e, he, h⟩
    rcases h with h | h
    · by_cases hx : e = x
      · simp [hx] at h; subst h; exact ⟨hi, e, he, Or.inl hx⟩
      · simp [hx] at h
    · by_cases hx : twin e = x
      · simp [hx] at h; subst h; exact ⟨hi, e, he, Or.inr hx⟩
      · simp [hx] at h
  · rintro ⟨hk, e, he, h⟩
    refine ⟨k, hk, e, he, ?_⟩
    rcases h with h | h
    · left; simp [h]
    · right; simp [h]


theorem foldl_clean_none (P : Nat → Bool) (l : List Nat) (init : Option Nat) :
    l.foldl (fun clean i => if P i then some i else clean) init = none ↔
      init = none ∧ ∀ i ∈ l, P i = false := by
  induction l generalizing init with
  | nil => simp
  | cons a t ih =>
    rw [List.foldl_cons, ih]
    by_cases ha : P a = true
    · simp [ha]
    · simp only [Bool.not_eq_true] at ha
      simp [ha]

theorem foldl_clean_some (P : Nat → Bool) (l : List Nat) (init : Option Nat) (c : Nat)
    (h : l.foldl (fun clean i => if P i then some i else clean) init = some c) :
    (c ∈ l ∧ P c = true) ∨ init = some c := by
  induction l generalizing init with
  | nil => right; simpa using h
  | cons a t ih =>
    rw [List.foldl_cons] at h
    rcases ih _ h with h1 | h1
    · left; exact ⟨List.mem_cons_of_mem _ h1.1, h1.2⟩
    · by_cases ha : P a = true
      · simp only [ha, if_true, Option.some.injEq] at h1
        subst h1
        left; exact ⟨List.mem_cons_self _ _, ha⟩
      · simp only [ha] at h1
        right; simpa using h1

theorem findClean_none {paths : Paths} (h : findClean paths = none) :
    ∀ i, i < paths.length → loneRepeated paths i = false := by
  unfold findClean at h
  rw [foldl_clean_none] at h
  intro i hi
  exact h.2 i (List.mem_range.mpr hi)

theorem findClean_some {paths : Paths} {c : Nat} (h : findClean paths = some c) :
    c < paths.length ∧ loneRepeated paths c = true := by
  unfold findClean at h
  rcases foldl_clean_some _ _ _ _ h with h1 | h1
  · exact ⟨List.mem_range.mp h1.1, h1.2⟩
  · cases h1

/-- What the inner loop finds: the walk is a single entry and some other
walk holds that entry or its twin. -/
theorem loneRepeated_iff (paths : Paths) (i : Nat) :
    loneRepeated paths i = true ↔
      ∃ n, paths.getD i [] = [n] ∧
        ∃ k, k ≠ i ∧ k < paths.length ∧ ∃ e ∈ paths.getD k [], e = n ∨ twin e = n := by
  unfold loneRepeated
  rcases hp : paths.getD i [] with _ | ⟨a, _ | ⟨b, t⟩⟩
  · simp
  · simp only [List.length_singleton, gt_iff_lt, lt_self_iff_false, if_false, List.head?_cons,
      List.any_eq_true, bne_iff_ne, ne_eq, List.cons.injEq, and_true, exists_eq_left']
    constructor
    · rintro ⟨k, hk, hne⟩
      rw [mem_locs] at hk
      exact ⟨k, hne, hk.1, hk.2⟩
    · rintro ⟨k, hne, hk1, hk2⟩
      exact ⟨k, (mem_locs _ _ _).mpr ⟨hk1, hk2⟩, hne⟩
  · simp


theorem getD_of_get? {paths : Paths} {i : Nat} {w : Walk} (h : paths.get? i = some w) :
    paths.getD i [] = w := by
  simp [List.getD_eq_getElem?_getD, ← List.get?_eq_getElem?, h]

theorem noLoneRepeated_of_findClean {r : Paths} (h : findClean r = none) :
    NoLoneRepeated r := by
  intro i j n w hi hj hne
  have hil : i < r.length := by
    rcases Nat.lt_or_ge i r.length with h1 | h1
    · exact h1
    · rw [List.get?_eq_none.mpr h1] at hi; cases hi
  have hjl : j < r.length := by
    rcases Nat.lt_or_ge j r.length with h1 | h1
    · exact h1
    · rw [List.get?_eq_none.mpr h1] at hj; cases hj
  have hfalse := findClean_none h i hil
  have hnot : ¬ loneRepeated r i = true := by simp [hfalse]
  rw [loneRepeated_iff] at hnot
  constructor
  · intro hmem
    apply hnot
    exact ⟨n, getD_of_get? hi, j, hne, hjl, n, by rw [getD_of_get? hj]; exact hmem, Or.inl rfl⟩
  · intro hmem
    apply hnot
    exact ⟨n, getD_of_get? hi, j, hne, hjl, twin n, by rw [getD_of_get? hj]; exact hmem,
      Or.inr (twin_twin n)⟩

/-- A walk flagged by the cleanup is never the only walk. -/
theorem two_le_length_of_findClean {paths : Paths} {c : Nat} (h : findClean paths = some c) :
    2 ≤ paths.length := by
  obtain ⟨hc, hl⟩ := findClean_some h
  rw [loneRepeated_iff] at hl
  obtain ⟨n, -, k, hk, hkl, -⟩ := hl
  omega

theorem cleanLoop_spec (fuel : Nat) (paths : Paths) (h : paths.length < fuel) :
    ∃ k r, cleanLoop fuel paths = some (k, r) ∧ r.length + k = paths.length ∧
      (paths ≠ [] → k + 1 ≤ paths.length) ∧ findClean r = none ∧ r.Sublist paths := by
  induction fuel generalizing paths with
  | zero => omega
  | succ f ih =>
    unfold cleanLoop
    rcases hc : findClean paths with _ | c
    · refine ⟨0, paths, rfl, rfl, ?_, hc, List.Sublist.refl _⟩
      intro hne
      have : 0 < paths.length := List.length_pos.mpr hne
      omega
    · obtain ⟨hcl, -⟩ := findClean_some hc
      have h2 := two_le_length_of_findClean hc
      have hlen : (paths.eraseIdx c).length = paths.length - 1 := by
        rw [List.length_eraseIdx, if_pos hcl]
      obtain ⟨k, r, hr, hlk, hk1, hfc, hsub⟩ := ih (paths.eraseIdx c) (by omega)
      refine ⟨k + 1, r, ?_, by omega, ?_, hfc, hsub.trans (List.eraseIdx_sublist _ _)⟩
      · simp [hr]
      · intro _
        have hne : paths.eraseIdx c ≠ [] := by
          intro h0
          rw [h0] at hlen
          simp at hlen
          omega
        have := hk1 hne
        omega

theorem cleanLoop_mono (fuel d : Nat) (paths : Paths) (x : Nat × Paths)
    (h : cleanLoop fuel paths = some x) : cleanLoop (fuel + d) paths = some x := by
  induction fuel generalizing paths x with
  | zero => simp [cleanLoop] at h
  | succ f ih =>
    rw [Nat.add_right_comm]
    unfold cleanLoop at h ⊢
    rcases hc : findClean paths with _ | c
    · simpa [hc] using h
    · simp only [hc] at h ⊢
      rcases hr : cleanLoop f (paths.eraseIdx c) with _ | y
      · simp [hr] at h
      · rw [ih _ _ hr]
        simpa [hr] using h

/-- The per-iteration loop erases the same walks as the initial one; it only
tracks `local_p` in addition. -/
theorem cleanLoopLocal_paths (was_local : Bool) (fuel : Nat) (local_p : Int) (paths : Paths) :
    (cleanLoopLocal was_local fuel local_p paths).map (fun kr => (kr.1, kr.2.2)) =
      cleanLoop fuel paths := by
  induction fuel generalizing paths local_p with
  | zero => rfl
  | succ f ih =>
    unfold cleanLoopLocal cleanLoop
    rcases hc : findClean paths with _ | c
    · rfl
    · simp only
      rw [← ih (if was_local && decide ((c : Int) < local_p) then local_p - 1 else local_p)]
      simp [Option.map_map, Function.comp_def]


theorem cleanLoopLocal_mono (was_local : Bool) (fuel d : Nat) (local_p : Int) (paths : Paths)
    (x : Nat × Int × Paths) (h : cleanLoopLocal was_local fuel local_p paths = some x) :
    cleanLoopLocal was_local (fuel + d) local_p paths = some x := by
  induction fuel generalizing paths local_p x with
  | zero => simp [cleanLoopLocal] at h
  | succ f ih =>
    rw [Nat.add_right_comm]
    unfold cleanLoopLocal at h ⊢
    rcases hc : findClean paths with _ | c
    · simpa [hc] using h
    · simp only [hc] at h ⊢
      generalize (if was_local && decide ((c : Int) < local_p) then local_p - 1 else local_p) = lp1
        at h ⊢
      rcases hr : cleanLoopLocal was_local f lp1 (paths.eraseIdx c) with _ | y
      · rw [hr] at h; cases h
      · rw [ih _ _ _ hr]
        rw [hr] at h
        exact h

theorem cleanPaths_findClean (paths : Paths) : findClean (cleanPaths paths) = none := by
  obtain ⟨k, r, hr, -, -, hfc, -⟩ := cleanLoop_spec (paths.length + 1) paths (Nat.lt_succ_self _)
  simp [cleanPaths, hr, hfc]

theorem cleanPaths_sublist (paths : Paths) : (cleanPaths paths).Sublist paths := by
  obtain ⟨k, r, hr, -, -, -, hsub⟩ := cleanLoop_spec (paths.length + 1) paths (Nat.lt_succ_self _)
  simp [cleanPaths, hr, hsub]

theorem cleanPathsLocal_snd (was_local : Bool) (local_p : Int) (paths : Paths) :
    (cleanPathsLocal was_local local_p paths).2 = cleanPaths paths := by
  have h := cleanLoopLocal_paths was_local (paths.length + 1) local_p paths
  unfold cleanPathsLocal cleanPaths
  rw [← h]
  rcases cleanLoopLocal was_local (paths.length + 1) local_p paths with _ | y
  · rfl
  · rfl

theorem cleanPaths_noLoneRepeated (paths : Paths) : NoLoneRepeated (cleanPaths paths) :=
  noLoneRepeated_of_findClean (cleanPaths_findClean paths)

theorem candidate_noLoneRepeated {S : Type} (gr : Graph) (settings : AssemblySettings S)
    (st : State S) (was_local : Bool) (a : Attempt S) :
    NoLoneRepeated (candidate gr settings st was_local a) := by
  unfold candidate
  rw [cleanPathsLocal_snd]
  exact cleanPaths_noLoneRepeated _

/-! ## The lone-repeated-node cleanup -/

/-- C1. For a walk set whose walks are all non-empty, both copies of the
cleanup loop (the one before the main loop and the one inside an iteration,
which also tracks `local_p`) stop with the same result `r` after the same
number `k` of erasing rounds, whatever bound above the number of walks is
put on the rounds.  The number `k` is at most the number of walks; when the
walk set is not empty, `k + 1`, which counts the final round that finds
nothing to erase, is at most the number of walks as well.  The result `r`
has no single-entry walk whose entry or its twin occurs in another walk of
`r`. -/
theorem cleanup_terminates_and_cleans (paths : Paths) (_hne : ∀ w ∈ paths, w ≠ [])
    (was_local : Bool) (local_p : Int) :
    ∃ (k : Nat) (r : Paths) (lp : Int),
      (∀ fuel, paths.length < fuel → cleanLoop fuel paths = some (k, r)) ∧
      (∀ fuel, paths.length < fuel →
        cleanLoopLocal was_local fuel local_p paths = some (k, lp, r)) ∧
      k ≤ paths.length ∧ (paths ≠ [] → k + 1 ≤ paths.length) ∧ NoLoneRepeated r := by
  obtain ⟨k, r, hr, hlen, hk1, hfc, -⟩ :=
    cleanLoop_spec (paths.length + 1) paths (Nat.lt_succ_self _)
  have hloc := cleanLoopLocal_paths was_local (paths.length + 1) local_p paths
  rw [hr] at hloc
  rcases hl : cleanLoopLocal was_local (paths.length + 1) local_p paths with _ | ⟨k2, lp, r2⟩
  · rw [hl] at hloc; cases hloc
  · rw [hl] at hloc
    simp only [Option.map_some', Option.some.injEq, Prod.mk.injEq] at hloc
    obtain ⟨rfl, rfl⟩ := hloc
    refine ⟨k2, r2, lp, ?_, ?_, by omega, hk1, noLoneRepeated_of_findClean hfc⟩
    · intro fuel hf
      obtain ⟨d, rfl⟩ : ∃ d, fuel = paths.length + 1 + d := ⟨fuel - (paths.length + 1), by omega⟩
      exact cleanLoop_mono _ d _ _ hr
    · intro fuel hf
      obtain ⟨d, rfl⟩ : ∃ d, fuel = paths.length + 1 + d := ⟨fuel - (paths.length + 1), by omega⟩
      exact cleanLoopLocal_mono _ _ d _ _ _ hl

/-- Witness for C1: the walk set `[[2], [2, 4], [3]]` with `local_p = 2`. -/
theorem cleanup_terminates_and_cleans_witness :
    (∀ w ∈ ([[2], [2, 4], [3]] : Paths), w ≠ []) ∧
    ∃ (k : Nat) (r : Paths) (lp : Int),
      (∀ fuel, ([[2], [2, 4], [3]] : Paths).length < fuel →
        cleanLoop fuel [[2], [2, 4], [3]] = some (k, r)) ∧
      (∀ fuel, ([[2], [2, 4], [3]] : Paths).length < fuel →
        cleanLoopLocal true fuel 2 [[2], [2, 4], [3]] = some (k, lp, r)) ∧
      k ≤ ([[2], [2, 4], [3]] : Paths).length ∧
      (([[2], [2, 4], [3]] : Paths) ≠ [] → k + 1 ≤ ([[2], [2, 4], [3]] : Paths).length) ∧
      NoLoneRepeated r :=
  ⟨by decide, cleanup_terminates_and_cleans [[2], [2, 4], [3]] (by decide) true 2⟩

/-- The current walk set is free of lone repeated nodes when the main loop
starts and after every pass. -/
theorem mainLoop_paths_noLoneRepeated {S : Type} [LinearOrder S] (ops : ScoreOps S) (gr : Graph)
    (settings : AssemblySettings S) (adviceCount : Nat) (as : List (Attempt S)) (st : State S)
    (h : NoLoneRepeated st.paths) :
    NoLoneRepeated (mainLoop ops gr settings adviceCount as st).paths := by
  induction as generalizing st with
  | nil => exact h
  | cons a rest ih =>
    unfold mainLoop
    split
    · apply ih
      unfold attempt
      split <;> (try split) <;>
        first
        | exact h
        | (unfold finishPass scoreAndAccept
           simp only
           split
           · exact candidate_noLoneRepeated _ _ _ _ _
           · exact h)
    · exact h

/-- C2, evaluated at the initial walk set `[[0], [0, 2]]` on the sample graph:
when the main loop starts the current walk set is the cleaned `[[0, 2]]`,
while `best_paths` is still the copy taken before the cleanup, in which the
single-entry walk `[0]` repeats a node of `[0, 2]`; a pass whose candidate
scores no better than the start leaves that `best_paths` in place. -/
theorem best_paths_keeps_lone_repeated :
    (optimizeInit sampleOps [[0], [0, 2]] (-5000)).paths = [[0, 2]] ∧
    (optimizeInit sampleOps [[0], [0, 2]] (-5000)).best_paths = [[0], [0, 2]] ∧
    ¬ NoLoneRepeated (optimizeInit sampleOps [[0], [0, 2]] (-5000)).best_paths ∧
    (mainLoop sampleOps sampleGraph sampleSettings 0 [sampleBreak]
      (optimizeInit sampleOps [[0], [0, 2]] (-5000))).best_paths = [[0], [0, 2]] := by
  refine ⟨by decide, by decide, ?_, by decide⟩
  intro h
  have h1 := (h 0 1 0 [0, 2] rfl rfl (by decide)).1
  exact h1 (by decide)

/-! ## One pass: selection and acceptance -/

theorem attempt_eq {S : Type} [LinearOrder S] (ops : ScoreOps S) (gr : Graph)
    (settings : AssemblySettings S) (adviceCount : Nat) (st : State S) (a : Attempt S) :
    attempt ops gr settings adviceCount st a =
      if isScored settings adviceCount a then
        finishPass ops gr settings st (wasLocal settings adviceCount a)
          (wasBreak settings adviceCount a) a
      else st := by
  unfold attempt isScored wasLocal wasBreak
  cases h : chosenMove settings adviceCount a.rnd <;> cases hok : a.ok <;> simp

/-- C3. For a pass whose candidate is scored, with `T` the temperature set in
that pass: if `new_prob > cur_prob` or `do_postprocess` is set, `cur_prob`
becomes `new_prob` and `paths` becomes the candidate; otherwise, after a
`BreakPath`, the same happens when the sample is below
`exp((new_prob - cur_prob) / T)` and nothing changes when it is not; and
otherwise, after any other move, `cur_prob` and `paths` are unchanged. -/
theorem acceptance_rule {S : Type} [LinearOrder S] (ops : ScoreOps S) (gr : Graph)
    (settings : AssemblySettings S) (adviceCount : Nat) (st : State S) (a : Attempt S)
    (hscored : isScored settings adviceCount a = true) :
    ((a.new_prob > st.cur_prob ∨ settings.do_postprocess = true) →
      (attempt ops gr settings adviceCount st a).cur_prob = a.new_prob ∧
      (attempt ops gr settings adviceCount st a).paths =
        candidate gr settings st (wasLocal settings adviceCount a) a) ∧
    (¬ (a.new_prob > st.cur_prob ∨ settings.do_postprocess = true) →
      chosenMove settings adviceCount a.rnd = Move.BreakPath →
      (a.samp < ops.exp (ops.div (ops.sub a.new_prob st.cur_prob)
          (ops.div settings.t0 (ops.log (ops.ofInt (st.itnum + 1 + 1))))) →
        (attempt ops gr settings adviceCount st a).cur_prob = a.new_prob ∧
        (attempt ops gr settings adviceCount st a).paths =
          candidate gr settings st (wasLocal settings adviceCount a) a) ∧
      (¬ a.samp < ops.exp (ops.div (ops.sub a.new_prob st.cur_prob)
          (ops.div settings.t0 (ops.log (ops.ofInt (st.itnum + 1 + 1))))) →
        (attempt ops gr settings adviceCount st a).cur_prob = st.cur_prob ∧
        (attempt ops gr settings adviceCount st a).paths = st.paths)) ∧
    (¬ (a.new_prob > st.cur_prob ∨ settings.do_postprocess = true) →
      chosenMove settings adviceCount a.rnd ≠ Move.BreakPath →
      (attempt ops gr settings adviceCount st a).cur_prob = st.cur_prob ∧
      (attempt ops gr settings adviceCount st a).paths = st.paths) := by
  rw [attempt_eq, if_pos hscored]
  unfold finishPass scoreAndAccept acceptFlag wasBreak
  refine ⟨?_, ?_, ?_⟩
  · intro h
    have hc : (decide (a.new_prob > st.cur_prob) || settings.do_postprocess) = true := by
      rcases h with h | h
      · simp [h]
      · simp [h]
    simp [hc]
  · intro h hm
    have hc : (decide (a.new_prob > st.cur_prob) || settings.do_postprocess) = false := by
      simp only [not_or] at h
      simp [h.1, h.2]
    refine ⟨?_, ?_⟩
    · intro hs
      simp [hc, hm, hs]
    · intro hs
      simp [hc, hm, hs]
  · intro h hm
    have hc : (decide (a.new_prob > st.cur_prob) || settings.do_postprocess) = false := by
      simp only [not_or] at h
      simp [h.1, h.2]
    simp [hc, hm]


/-- Witness for C3: the sample `BreakPath` pass does not improve the score,
its sample 0 is below the annealing bound, and the candidate is accepted. -/
theorem acceptance_rule_witness :
    isScored sampleSettings 0 sampleBreak = true ∧
    chosenMove sampleSettings 0 sampleBreak.rnd = Move.BreakPath ∧
    ¬ (sampleBreak.new_prob > sampleStart.cur_prob ∨ sampleSettings.do_postprocess = true) ∧
    (attempt sampleOps sampleGraph sampleSettings 0 sampleStart sampleBreak).cur_prob = -6000 ∧
    (attempt sampleOps sampleGraph sampleSettings 0 sampleStart sampleBreak).paths =
      candidate sampleGraph sampleSettings sampleStart
        (wasLocal sampleSettings 0 sampleBreak) sampleBreak :=
  ⟨by decide, by decide, by decide,
    ((acceptance_rule sampleOps sampleGraph sampleSettings 0 sampleStart sampleBreak
      (by decide)).2.1 (by decide) (by decide)).1 (by decide)⟩

theorem pickMove_iff {S : Type} (settings : AssemblySettings S) (adviceCount : Nat) (r : Int)
    (m : Move) (h2 : 0 ≤ settings.fixp) (h3 : 0 ≤ settings.localp)
    (h4 : 0 ≤ settings.extendadvp) (h5 : 0 ≤ settings.fixlenp)
    (hr0 : 0 ≤ r) (hr : r < weightSum settings adviceCount) :
    pickMove settings adviceCount r = m ↔
      moveStart settings adviceCount m ≤ r ∧
        r < moveStart settings adviceCount m + moveWeight settings adviceCount m := by
  unfold pickMove
  unfold weightSum at hr
  simp only [moveStart, moveWeight, effExtendAdvP] at *
  cases m <;> simp only [moveStart, moveWeight] <;> split_ifs <;>
    simp only [reduceCtorEq, false_iff, true_iff, not_and, not_lt] <;> omega

/-- C4. With `do_postprocess` unset, non-negative weights and a positive sum
`S` of the weights (the advice weight counted as 0 without advice library):
the draw `r = rand() % S` lies in `[0, S)` and the move called is
`pickMove r`; for every `r` in `[0, S)` the move picked is the one whose
cumulative interval, laid out in the order Extend, FixSomeBigReps,
LocalChange, ExtendAdv, FixGapLength, BreakPath, contains `r`; every move is
picked for exactly its weight many values of `r` in `[0, S)`; and without
advice library `ExtendAdv` is not picked. -/
theorem move_selection {S : Type} (settings : AssemblySettings S) (adviceCount : Nat)
    (hpp : settings.do_postprocess = false)
    (h1 : 0 ≤ settings.extendp) (h2 : 0 ≤ settings.fixp) (h3 : 0 ≤ settings.localp)
    (h4 : 0 ≤ settings.extendadvp) (h5 : 0 ≤ settings.fixlenp) (h6 : 0 ≤ settings.breakp)
    (hS : 0 < weightSum settings adviceCount) :
    (∀ rnd : Nat,
      0 ≤ drawR settings adviceCount rnd ∧
      drawR settings adviceCount rnd < weightSum settings adviceCount ∧
      chosenMove settings adviceCount rnd =
        pickMove settings adviceCount (drawR settings adviceCount rnd)) ∧
    (∀ (r : Int) (m : Move), 0 ≤ r → r < weightSum settings adviceCount →
      (pickMove settings adviceCount r = m ↔
        moveStart settings adviceCount m ≤ r ∧
          r < moveStart settings adviceCount m + moveWeight settings adviceCount m)) ∧
    (∀ m : Move,
      (Finset.filter (fun r => pickMove settings adviceCount r = m)
        (Finset.Ico 0 (weightSum settings adviceCount))).card =
          (moveWeight settings adviceCount m).toNat) ∧
    (adviceCount = 0 → ∀ r : Int, 0 ≤ r → r < weightSum settings adviceCount →
      pickMove settings adviceCount r ≠ Move.ExtendPathsAdv) := by
  refine ⟨?_, ?_, ?_, ?_⟩
  · intro rnd
    refine ⟨Int.tmod_nonneg _ (Int.ofNat_nonneg rnd), Int.tmod_lt_of_pos _ hS, ?_⟩
    simp [chosenMove, hpp]
  · intro r m hr0 hr
    exact pickMove_iff settings adviceCount r m h2 h3 h4 h5 hr0 hr
  · intro m
    have hset : Finset.filter (fun r => pickMove settings adviceCount r = m)
        (Finset.Ico 0 (weightSum settings adviceCount)) =
        Finset.Ico (moveStart settings adviceCount m)
          (moveStart settings adviceCount m + moveWeight settings adviceCount m) := by
      ext r
      simp only [Finset.mem_filter, Finset.mem_Ico]
      constructor
      · rintro ⟨⟨a, b⟩, c⟩
        exact (pickMove_iff settings adviceCount r m h2 h3 h4 h5 a b).mp c
      · rintro ⟨a, b⟩
        have hr0 : 0 ≤ r := by
          have : 0 ≤ moveStart settings adviceCount m := by
            cases m <;> simp only [moveStart, moveWeight] <;> (try split_ifs) <;> omega
          omega
        have hrS : r < weightSum settings adviceCount := by
          unfold weightSum effExtendAdvP
          cases m <;> simp only [moveStart, moveWeight] at a b <;> (try split_ifs at *) <;>
            omega
        exact ⟨⟨hr0, hrS⟩, (pickMove_iff settings adviceCount r m h2 h3 h4 h5 hr0 hrS).mpr ⟨a, b⟩⟩
    rw [hset, Int.card_Ico]
    congr 1
    omega
  · intro hadv r hr0 hr hpick
    have := (pickMove_iff settings adviceCount r _ h2 h3 h4 h5 hr0 hr).mp hpick
    simp only [moveStart, moveWeight, hadv, if_true] at this
    omega


/-- Witness for C4: the default weights without advice library; `BreakPath`
is picked for 60 of the 127 values of the draw. -/
theorem move_selection_witness :
    0 < weightSum sampleSettings 0 ∧
    (Finset.filter (fun r => pickMove sampleSettings 0 r = Move.BreakPath)
      (Finset.Ico 0 (weightSum sampleSettings 0))).card =
        (moveWeight sampleSettings 0 Move.BreakPath).toNat ∧
    (moveWeight sampleSettings 0 Move.BreakPath).toNat = 60 ∧
    weightSum sampleSettings 0 = 127 :=
  ⟨by decide,
    (move_selection sampleSettings 0 (by decide) (by decide) (by decide) (by decide)
      (by decide) (by decide) (by decide) (by decide)).2.2.1 Move.BreakPath,
    by decide, by decide⟩

/-! ## Invariants of the scores -/

theorem scoreAndAccept_best_ge_cur {S : Type} [LinearOrder S] (ops : ScoreOps S)
    (settings : AssemblySettings S) (st : State S) (was_break : Bool) (new_paths : Paths)
    (new_prob samp : S) (h : st.cur_prob ≤ st.best_prob) :
    (scoreAndAccept ops settings st was_break new_paths new_prob samp).cur_prob ≤
      (scoreAndAccept ops settings st was_break new_paths new_prob samp).best_prob := by
  unfold scoreAndAccept
  simp only [Bool.or_false, decide_eq_true_eq]
  by_cases hb : new_prob > st.best_prob
  · simp only [hb, if_true]
    split
    · exact le_refl _
    · exact le_trans h (le_of_lt hb)
  · simp only [hb, if_false]
    split
    · exact not_lt.mp hb
    · exact h

theorem attempt_best_ge_cur {S : Type} [LinearOrder S] (ops : ScoreOps S) (gr : Graph)
    (settings : AssemblySettings S) (adviceCount : Nat) (st : State S) (a : Attempt S)
    (h : st.cur_prob ≤ st.best_prob) :
    (attempt ops gr settings adviceCount st a).cur_prob ≤
      (attempt ops gr settings adviceCount st a).best_prob := by
  rw [attempt_eq]
  split
  · exact scoreAndAccept_best_ge_cur _ _ _ _ _ _ _ h
  · exact h

theorem mainLoop_best_ge_cur {S : Type} [LinearOrder S] (ops : ScoreOps S) (gr : Graph)
    (settings : AssemblySettings S) (adviceCount : Nat) (as : List (Attempt S)) (st : State S)
    (h : st.cur_prob ≤ st.best_prob) :
    (mainLoop ops gr settings adviceCount as st).cur_prob ≤
      (mainLoop ops gr settings adviceCount as st).best_prob := by
  induction as generalizing st with
  | nil => exact h
  | cons a rest ih =>
    unfold mainLoop
    split
    · exact ih _ (attempt_best_ge_cur ops gr settings adviceCount st a h)
    · exact h

/-- C5. For every graph, settings, initial walk set and score, and every
sequence of answers of the collaborators (draws, move results, candidate
scores, samples), `best_prob ≥ cur_prob` holds in the state reached after
the listed passes of the main loop; the empty sequence is the start of the
loop. -/
theorem best_prob_ge_cur_prob {S : Type} [LinearOrder S] (ops : ScoreOps S) (gr : Graph)
    (settings : AssemblySettings S) (adviceCount : Nat) (paths : Paths) (init_prob : S)
    (as : List (Attempt S)) :
    (mainLoop ops gr settings adviceCount as (optimizeInit ops paths init_prob)).best_prob ≥
      (mainLoop ops gr settings adviceCount as (optimizeInit ops paths init_prob)).cur_prob :=
  mainLoop_best_ge_cur ops gr settings adviceCount as _ (le_refl _)

/-- C6, as stated, fails: the sample `BreakPath` pass is accepted by the
annealing test and lowers `cur_prob` from `-5.000` to `-6.000`; and in
post-process mode a candidate with the lower score is accepted as well. -/
theorem cur_prob_can_decrease :
    sampleStart.cur_prob = -5000 ∧
    (attempt sampleOps sampleGraph sampleSettings 0 sampleStart sampleBreak).cur_prob = -6000 ∧
    ¬ ((attempt sampleOps sampleGraph sampleSettings 0 sampleStart sampleBreak).cur_prob ≥
        sampleStart.cur_prob) ∧
    ¬ ((attempt sampleOps sampleGraph samplePostSettings 0 sampleStart sampleBreak).cur_prob ≥
        sampleStart.cur_prob) := by
  decide

/-- C6, amended. Over every pass `best_prob` does not decrease; and
`cur_prob` does not decrease over a pass in which `do_postprocess` is unset
and either the move is not `BreakPath`, or the candidate improves on
`cur_prob`, or the sample is not below `exp((new_prob - cur_prob) / T)`. -/
theorem prob_monotone {S : Type} [LinearOrder S] (ops : ScoreOps S) (gr : Graph)
    (settings : AssemblySettings S) (adviceCount : Nat) (st : State S) (a : Attempt S) :
    (attempt ops gr settings adviceCount st a).best_prob ≥ st.best_prob ∧
    (settings.do_postprocess = false →
      (chosenMove settings adviceCount a.rnd ≠ Move.BreakPath ∨ a.new_prob > st.cur_prob ∨
        ¬ a.samp < ops.exp (ops.div (ops.sub a.new_prob st.cur_prob)
            (ops.div settings.t0 (ops.log (ops.ofInt (st.itnum + 1 + 1)))))) →
      (attempt ops gr settings adviceCount st a).cur_prob ≥ st.cur_prob) := by
  rw [attempt_eq]
  refine ⟨?_, ?_⟩
  · split
    · unfold finishPass scoreAndAccept
      simp only [Bool.or_false, decide_eq_true_eq]
      split
      · rename_i hb; exact le_of_lt hb
      · exact le_refl _
    · exact le_refl _
  · intro hpp hcase
    split
    · unfold finishPass scoreAndAccept acceptFlag wasBreak
      simp only [hpp, Bool.or_false, decide_eq_true_eq]
      by_cases hn : a.new_prob > st.cur_prob
      · simp only [hn, if_true]
        exact le_of_lt hn
      · simp only [hn, if_false]
        rcases hcase with hm | hm | hm
        · simp [hm]
        · exact absurd hm hn
        · by_cases hbr : chosenMove settings adviceCount a.rnd = Move.BreakPath
          · simp [hbr, hm]
          · simp [hbr]
    · exact le_refl _

/-- Witness for the amended C6: a `FixSomeBigReps` pass (draw 5) under the
default weights whose candidate scores lower leaves `cur_prob` as it was. -/
theorem prob_monotone_witness :
    sampleSettings.do_postprocess = false ∧
    chosenMove sampleSettings 0 5 ≠ Move.BreakPath ∧
    (attempt sampleOps sampleGraph sampleSettings 0 sampleStart
      { sampleBreak with rnd := 5 }).cur_prob ≥ sampleStart.cur_prob :=
  ⟨by decide, by decide,
    (prob_monotone sampleOps sampleGraph sampleSettings 0 sampleStart
      { sampleBreak with rnd := 5 }).2 (by decide) (Or.inl (by decide))⟩


/-! ## Tracking of the best walk set -/

theorem isEarliestMax_snoc {S : Type} [LinearOrder S] (l : List (Paths × S)) (b x : Paths × S)
    (h : IsEarliestMax l b) :
    IsEarliestMax (l ++ [x]) (if x.2 > b.2 then x else b) := by
  obtain ⟨l1, l2, hl, h1, h2⟩ := h
  by_cases hx : x.2 > b.2
  · rw [if_pos hx]
    refine ⟨l, [], rfl, ?_, by simp⟩
    intro y hy
    rw [hl] at hy
    rcases List.mem_append.mp hy with hy | hy
    · exact lt_trans (h1 y hy) hx
    · rcases List.mem_cons.mp hy with hy | hy
      · rw [hy]; exact hx
      · exact lt_of_le_of_lt (h2 y hy) hx
  · rw [if_neg hx]
    refine ⟨l1, l2 ++ [x], by simp [hl], h1, ?_⟩
    intro y hy
    rcases List.mem_append.mp hy with hy | hy
    · exact h2 y hy
    · simp only [List.mem_singleton] at hy
      rw [hy]; exact not_lt.mp hx

theorem earliestBest_of_isEarliestMax {S : Type} [LinearOrder S] (first : Paths × S)
    (rest : List (Paths × S)) (b : Paths × S) (h : IsEarliestMax (first :: rest) b) :
    earliestBest first rest = b := by
  obtain ⟨l1, l2, hl, h1, h2⟩ := h
  unfold earliestBest
  have hb : b ∈ first :: rest := by rw [hl]; simp
  have hall : ∀ y ∈ first :: rest, y.2 ≤ b.2 := by
    intro y hy
    rw [hl] at hy
    rcases List.mem_append.mp hy with hy | hy
    · exact le_of_lt (h1 y hy)
    · rcases List.mem_cons.mp hy with hy | hy
      · rw [hy]
      · exact h2 y hy
  have hfind : ∀ (l : List (Paths × S)) (l3 : List (Paths × S)), (∀ y ∈ l3, y.2 < b.2) →
      (l3 ++ b :: l2).find? (fun x => l.all fun y => decide (y.2 ≤ x.2)) = some b ∨
      ¬ (∀ y ∈ l, y.2 ≤ b.2) ∨ b ∉ l := by
    intro l l3 h3
    by_cases hl1 : ∀ y ∈ l, y.2 ≤ b.2
    · by_cases hl2 : b ∈ l
      · left
        induction l3 with
        | nil =>
          simp only [List.nil_append, List.find?_cons]
          have : (l.all fun y => decide (y.2 ≤ b.2)) = true := by
            simp only [List.all_eq_true, decide_eq_true_eq]
            exact hl1
          rw [this]
        | cons c t ih =>
          simp only [List.cons_append, List.find?_cons]
          have hc : (l.all fun y => decide (y.2 ≤ c.2)) = false := by
            rw [Bool.eq_false_iff]
            intro hcon
            simp only [List.all_eq_true, decide_eq_true_eq] at hcon
            have := hcon b hl2
            have := h3 c (List.mem_cons_self _ _)
            exact absurd (lt_of_le_of_lt ‹b.2 ≤ c.2› this) (lt_irrefl _)
          rw [hc]
          exact ih (fun y hy => h3 y (List.mem_cons_of_mem _ hy))
      · right; right; exact hl2
    · right; left; exact hl1
  rcases hfind (first :: rest) l1 h1 with h | h | h
  · rw [← hl] at h
    rw [h]
    rfl
  · exact absurd hall h
  · exact absurd hb h


theorem attempt_best {S : Type} [LinearOrder S] (ops : ScoreOps S) (gr : Graph)
    (settings : AssemblySettings S) (adviceCount : Nat) (st : State S) (a : Attempt S)
    (hscored : isScored settings adviceCount a = true) :
    ((attempt ops gr settings adviceCount st a).best_paths,
      (attempt ops gr settings adviceCount st a).best_prob) =
      if a.new_prob > st.best_prob then
        (candidate gr settings st (wasLocal settings adviceCount a) a, a.new_prob)
      else (st.best_paths, st.best_prob) := by
  rw [attempt_eq, if_pos hscored]
  unfold finishPass scoreAndAccept
  simp only [Bool.or_false, decide_eq_true_eq]
  split <;> rfl

theorem attempt_unscored {S : Type} [LinearOrder S] (ops : ScoreOps S) (gr : Graph)
    (settings : AssemblySettings S) (adviceCount : Nat) (st : State S) (a : Attempt S)
    (hscored : ¬ isScored settings adviceCount a = true) :
    attempt ops gr settings adviceCount st a = st := by
  rw [attempt_eq, if_neg hscored]

theorem mainLoop_best_track {S : Type} [LinearOrder S] (ops : ScoreOps S) (gr : Graph)
    (settings : AssemblySettings S) (adviceCount : Nat) (as : List (Attempt S)) (st : State S)
    (first : Paths × S) (rest : List (Paths × S))
    (h : IsEarliestMax (first :: rest) (st.best_paths, st.best_prob)) :
    IsEarliestMax (first :: (rest ++ scoredTrace ops gr settings adviceCount as st))
      ((mainLoop ops gr settings adviceCount as st).best_paths,
        (mainLoop ops gr settings adviceCount as st).best_prob) := by
  induction as generalizing st rest with
  | nil => simpa [scoredTrace, mainLoop] using h
  | cons a t ih =>
    unfold mainLoop scoredTrace
    by_cases hc : st.itnum ≤ settings.max_iterations
    · rw [if_pos hc, if_pos hc]
      by_cases hs : isScored settings adviceCount a = true
      · rw [if_pos hs, ← List.append_assoc]
        apply ih
        rw [attempt_best ops gr settings adviceCount st a hs]
        have := isEarliestMax_snoc (first :: rest) (st.best_paths, st.best_prob)
          (candidate gr settings st (wasLocal settings adviceCount a) a, a.new_prob) h
        simpa using this
      · rw [if_neg hs, attempt_unscored ops gr settings adviceCount st a hs]
        simpa using ih st rest h
    · rw [if_neg hc, if_neg hc]
      simpa using h

/-- C7. After any listed passes of the main loop, the pair
(`best_paths`, `best_prob`) is the earliest entry with the largest score in
the list made of the initial walk set with its score followed by the scored
candidates with theirs: it is an entry of that list, no entry scores more,
and it equals `earliestBest`.  In a pass that scores its candidate, the
candidate replaces the best pair when `new_prob > best_prob` and the best
pair is unchanged otherwise, whatever the acceptance test decides; a pass
that does not score leaves it unchanged. -/
theorem best_tracking {S : Type} [LinearOrder S] (ops : ScoreOps S) (gr : Graph)
    (settings : AssemblySettings S) (adviceCount : Nat) (paths : Paths) (init_prob : S)
    (as : List (Attempt S)) :
    ((optimizeState ops gr settings adviceCount paths init_prob as).best_paths,
        (optimizeState ops gr settings adviceCount paths init_prob as).best_prob) =
      earliestBest (paths, init_prob)
        (optimizeTrace ops gr settings adviceCount paths init_prob as) ∧
    ((optimizeState ops gr settings adviceCount paths init_prob as).best_paths,
        (optimizeState ops gr settings adviceCount paths init_prob as).best_prob) ∈
      (paths, init_prob) :: optimizeTrace ops gr settings adviceCount paths init_prob as ∧
    (∀ y ∈ (paths, init_prob) :: optimizeTrace ops gr settings adviceCount paths init_prob as,
      y.2 ≤ (optimizeState ops gr settings adviceCount paths init_prob as).best_prob) ∧
    (∀ (st : State S) (a : Attempt S),
      (isScored settings adviceCount a = true → a.new_prob > st.best_prob →
        (attempt ops gr settings adviceCount st a).best_paths =
            candidate gr settings st (wasLocal settings adviceCount a) a ∧
          (attempt ops gr settings adviceCount st a).best_prob = a.new_prob) ∧
      (isScored settings adviceCount a = true → ¬ a.new_prob > st.best_prob →
        (attempt ops gr settings adviceCount st a).best_paths = st.best_paths ∧
          (attempt ops gr settings adviceCount st a).best_prob = st.best_prob) ∧
      (isScored settings adviceCount a = false →
        (attempt ops gr settings adviceCount st a).best_paths = st.best_paths ∧
          (attempt ops gr settings adviceCount st a).best_prob = st.best_prob)) := by
  have hinit : IsEarliestMax ((paths, init_prob) :: ([] : List (Paths × S)))
      ((optimizeInit ops paths init_prob).best_paths,
        (optimizeInit ops paths init_prob).best_prob) :=
    ⟨[], [], rfl, by simp, by simp⟩
  have hrun := mainLoop_best_track ops gr settings adviceCount as
    (optimizeInit ops paths init_prob) (paths, init_prob) [] hinit
  rw [List.nil_append] at hrun
  refine ⟨?_, ?_, ?_, ?_⟩
  · exact (earliestBest_of_isEarliestMax _ _ _ hrun).symm
  · obtain ⟨l1, l2, hl, -, -⟩ := hrun
    unfold optimizeState optimizeTrace
    rw [hl]
    simp
  · obtain ⟨l1, l2, hl, h1, h2⟩ := hrun
    unfold optimizeState optimizeTrace
    intro y hy
    rw [hl] at hy
    rcases List.mem_append.mp hy with hy | hy
    · exact le_of_lt (h1 y hy)
    · rcases List.mem_cons.mp hy with hy | hy
      · rw [hy]
      · exact h2 y hy
  · intro st a
    refine ⟨?_, ?_, ?_⟩
    · intro hs hn
      have := attempt_best ops gr settings adviceCount st a hs
      rw [if_pos hn] at this
      exact ⟨congrArg Prod.fst this, congrArg Prod.snd this⟩
    · intro hs hn
      have := attempt_best ops gr settings adviceCount st a hs
      rw [if_neg hn] at this
      exact ⟨congrArg Prod.fst this, congrArg Prod.snd this⟩
    · intro hs
      rw [attempt_unscored ops gr settings adviceCount st a (by simp [hs])]
      exact ⟨rfl, rfl⟩

/-- Witness for C7: a `FixSomeBigReps` pass (draw 5) whose candidate scores
`-4.000` against a best score of `-5.000` replaces the best pair. -/
theorem best_tracking_witness :
    isScored sampleSettings 0 { sampleBreak with rnd := 5, new_prob := -4000 } = true ∧
    ({ sampleBreak with rnd := 5, new_prob := -4000 } : Attempt Int).new_prob >
      sampleStart.best_prob ∧
    (attempt sampleOps sampleGraph sampleSettings 0 sampleStart
      { sampleBreak with rnd := 5, new_prob := -4000 }).best_paths =
        candidate sampleGraph sampleSettings sampleStart
          (wasLocal sampleSettings 0 { sampleBreak with rnd := 5, new_prob := -4000 })
          { sampleBreak with rnd := 5, new_prob := -4000 } ∧
    (attempt sampleOps sampleGraph sampleSettings 0 sampleStart
      { sampleBreak with rnd := 5, new_prob := -4000 }).best_prob = -4000 :=
  ⟨by decide, by decide,
    ((best_tracking sampleOps sampleGraph sampleSettings 0 [[0, 2]] (-5000) []).2.2.2
      sampleStart { sampleBreak with rnd := 5, new_prob := -4000 }).1 (by decide) (by decide)⟩


/-! ## Failed moves and the post-process mode -/

theorem mainLoop_stop {S : Type} [LinearOrder S] (ops : ScoreOps S) (gr : Graph)
    (settings : AssemblySettings S) (adviceCount : Nat) (as : List (Attempt S)) (st : State S)
    (h : ¬ st.itnum ≤ settings.max_iterations) :
    mainLoop ops gr settings adviceCount as st = st := by
  cases as with
  | nil => rfl
  | cons a t => unfold mainLoop; rw [if_neg h]

theorem pickMove_ne_fixBigReps {S : Type} (settings : AssemblySettings S) (adviceCount : Nat)
    (r : Int) : pickMove settings adviceCount r ≠ Move.FixBigReps := by
  unfold pickMove
  simp only
  split_ifs <;> simp

/-- C8, as stated, fails: in post-process mode the return value of
`FixBigReps` is not inspected, so a pass whose move returns `false` is still
scored: from the sample start `itnum` goes from 0 to 1, the candidate
returned by the move is accepted, `cur_prob` goes from `-5.000` to `-6.000`
and `paths` becomes the candidate. -/
theorem postprocess_failed_move_is_scored :
    samplePostSettings.do_postprocess = true ∧
    ({ sampleBreak with ok := false } : Attempt Int).ok = false ∧
    sampleStart.itnum = 0 ∧ sampleStart.cur_prob = -5000 ∧ sampleStart.paths = [[0, 2]] ∧
    isScored samplePostSettings 0 { sampleBreak with ok := false } = true ∧
    (attempt sampleOps sampleGraph samplePostSettings 0 sampleStart
      { sampleBreak with ok := false }).itnum = 1 ∧
    (attempt sampleOps sampleGraph samplePostSettings 0 sampleStart
      { sampleBreak with ok := false }).cur_prob = -6000 ∧
    (attempt sampleOps sampleGraph samplePostSettings 0 sampleStart
      { sampleBreak with ok := false }).paths = [[0], [2]] := by
  decide

/-- C8, amended. With `do_postprocess` unset, a pass whose selected move
returns `false` leaves every local of `Optimize` that lives across passes
(`paths`, `cur_prob`, `best_paths`, `best_prob`, `itnum`, `T`) as it was,
nothing is scored, and the loop goes on with the next draw from the same
state. -/
theorem failed_move_discarded {S : Type} [LinearOrder S] (ops : ScoreOps S) (gr : Graph)
    (settings : AssemblySettings S) (adviceCount : Nat) (st : State S) (a : Attempt S)
    (rest : List (Attempt S))
    (hpp : settings.do_postprocess = false) (hok : a.ok = false) :
    attempt ops gr settings adviceCount st a = st ∧
    isScored settings adviceCount a = false ∧
    mainLoop ops gr settings adviceCount (a :: rest) st =
      mainLoop ops gr settings adviceCount rest st ∧
    scoredTrace ops gr settings adviceCount (a :: rest) st =
      scoredTrace ops gr settings adviceCount rest st := by
  have hm : chosenMove settings adviceCount a.rnd ≠ Move.FixBigReps := by
    unfold chosenMove
    rw [hpp]
    exact pickMove_ne_fixBigReps _ _ _
  have hs : isScored settings adviceCount a = false := by
    unfold isScored
    simp [hm, hok]
  have hatt : attempt ops gr settings adviceCount st a = st :=
    attempt_unscored ops gr settings adviceCount st a (by simp [hs])
  refine ⟨hatt, hs, ?_, ?_⟩
  · by_cases hc : st.itnum ≤ settings.max_iterations
    · rw [mainLoop, if_pos hc, hatt]
    · rw [mainLoop, if_neg hc, mainLoop_stop ops gr settings adviceCount rest st hc]
  · by_cases hc : st.itnum ≤ settings.max_iterations
    · rw [scoredTrace, if_pos hc, hatt, hs]
      simp
    · rw [scoredTrace, if_neg hc]
      cases rest with
      | nil => rfl
      | cons b t => rw [scoredTrace, if_neg hc]

/-- Witness for C8: the sample `BreakPath` pass with a move that fails. -/
theorem failed_move_discarded_witness :
    sampleSettings.do_postprocess = false ∧
    ({ sampleBreak with ok := false } : Attempt Int).ok = false ∧
    attempt sampleOps sampleGraph sampleSettings 0 sampleStart { sampleBreak with ok := false } =
      sampleStart :=
  ⟨by decide, by decide,
    (failed_move_discarded sampleOps sampleGraph sampleSettings 0 sampleStart
      { sampleBreak with ok := false } [] (by decide) (by decide)).1⟩

theorem finishPass_itnum {S : Type} [LinearOrder S] (ops : ScoreOps S) (gr : Graph)
    (settings : AssemblySettings S) (st : State S) (was_local was_break : Bool)
    (a : Attempt S) :
    (finishPass ops gr settings st was_local was_break a).itnum = st.itnum + 1 := rfl

theorem attempt_postprocess {S : Type} [LinearOrder S] (ops : ScoreOps S) (gr : Graph)
    (settings : AssemblySettings S) (adviceCount : Nat) (st : State S) (a : Attempt S)
    (hpp : settings.do_postprocess = true) :
    isScored settings adviceCount a = true ∧
    (attempt ops gr settings adviceCount st a).itnum = st.itnum + 1 := by
  have hm : chosenMove settings adviceCount a.rnd = Move.FixBigReps := by
    unfold chosenMove
    rw [if_pos hpp]
  have hs : isScored settings adviceCount a = true := by
    unfold isScored
    simp [hm]
  refine ⟨hs, ?_⟩
  rw [attempt_eq, if_pos hs]
  rfl

/-- C9, what the code does: for settings built from a configuration map that
holds the key `do_proprocess`, the main loop runs two passes, not one, from
the start state, whatever `max_iterations` was configured: the first two
listed passes are both executed and both score a candidate, `itnum` is then
2, and no further pass is run. -/
theorem postprocess_runs_two_passes {S : Type} [LinearOrder S] (ops : ScoreOps S) (gr : Graph)
    (StringToInt : String → Int) (StringToDouble : String → S) (configs : Config)
    (adviceCount : Nat) (paths : Paths) (init_prob : S) (a1 a2 : Attempt S)
    (rest : List (Attempt S)) (hkey : (configs "do_proprocess").isSome = true) :
    mainLoop ops gr (AssemblySettings.ofConfig ops StringToInt StringToDouble configs)
        adviceCount (a1 :: a2 :: rest) (optimizeInit ops paths init_prob) =
      attempt ops gr (AssemblySettings.ofConfig ops StringToInt StringToDouble configs)
        adviceCount
        (attempt ops gr (AssemblySettings.ofConfig ops StringToInt StringToDouble configs)
          adviceCount (optimizeInit ops paths init_prob) a1) a2 ∧
    (mainLoop ops gr (AssemblySettings.ofConfig ops StringToInt StringToDouble configs)
        adviceCount (a1 :: a2 :: rest) (optimizeInit ops paths init_prob)).itnum = 2 ∧
    (scoredTrace ops gr (AssemblySettings.ofConfig ops StringToInt StringToDouble configs)
        adviceCount (a1 :: a2 :: rest) (optimizeInit ops paths init_prob)).length = 2 := by
  have hpp : (AssemblySettings.ofConfig ops StringToInt StringToDouble configs).do_postprocess
      = true := by
    simp [AssemblySettings.ofConfig, hkey]
  have hmax : (AssemblySettings.ofConfig ops StringToInt StringToDouble configs).max_iterations
      = 1 := by
    simp [AssemblySettings.ofConfig, hkey]
  generalize AssemblySettings.ofConfig ops StringToInt StringToDouble configs = settings
    at hpp hmax ⊢
  have h0 : (optimizeInit ops paths init_prob).itnum = 0 := rfl
  obtain ⟨hs1, hi1⟩ := attempt_postprocess ops gr settings adviceCount
    (optimizeInit ops paths init_prob) a1 hpp
  obtain ⟨hs2, hi2⟩ := attempt_postprocess ops gr settings adviceCount
    (attempt ops gr settings adviceCount (optimizeInit ops paths init_prob) a1) a2 hpp
  rw [h0] at hi1
  rw [hi1] at hi2
  have hc0 : (optimizeInit ops paths init_prob).itnum ≤ settings.max_iterations := by
    rw [h0, hmax]; decide
  have hc1 : (attempt ops gr settings adviceCount (optimizeInit ops paths init_prob) a1).itnum
      ≤ settings.max_iterations := by
    rw [hi1, hmax]; decide
  have hc2 : ¬ (attempt ops gr settings adviceCount
      (attempt ops gr settings adviceCount (optimizeInit ops paths init_prob) a1) a2).itnum
      ≤ settings.max_iterations := by
    rw [hi2, hmax]; decide
  have hloop : mainLoop ops gr settings adviceCount (a1 :: a2 :: rest)
      (optimizeInit ops paths init_prob) =
      attempt ops gr settings adviceCount
        (attempt ops gr settings adviceCount (optimizeInit ops paths init_prob) a1) a2 := by
    rw [mainLoop, if_pos hc0, mainLoop, if_pos hc1, mainLoop_stop _ _ _ _ _ _ hc2]
  refine ⟨hloop, ?_, ?_⟩
  · rw [hloop, hi2]; rfl
  · rw [scoredTrace, if_pos hc0, if_pos hs1, scoredTrace, if_pos hc1, if_pos hs2]
    cases rest with
    | nil => simp [scoredTrace]
    | cons b t => simp [scoredTrace, hc2]

/-- C9 at a concrete input: post-process settings, the start state of the
sample walk set and three listed passes; two of them run and `itnum` ends
at 2. -/
theorem postprocess_runs_two_passes_witness :
    ((fun k => if k = "do_proprocess" then some "" else none : Config) "do_proprocess").isSome
      = true ∧
    (mainLoop sampleOps sampleGraph samplePostSettings 0
      [sampleBreak, sampleBreak, sampleBreak] (optimizeInit sampleOps [[0, 2]] (-5000))).itnum
      = 2 :=
  ⟨by decide,
    (postprocess_runs_two_passes sampleOps sampleGraph (fun _ => 0) (fun _ => 0)
      (fun k => if k = "do_proprocess" then some "" else none) 0 [[0, 2]] (-5000)
      sampleBreak sampleBreak [sampleBreak] (by decide)).2.1⟩

/-! ## Settings -/

/-- C10. For every configuration map: if it holds the key `do_proprocess`
(with any value), `do_postprocess` is true and `max_iterations` is 1,
whatever is stored under `max_iterations`; if it does not, `do_postprocess`
is false and `max_iterations` is the parsed value stored under
`max_iterations`, or 50000 when that key is absent. -/
theorem settings_postprocess_flag {S : Type} (ops : ScoreOps S) (StringToInt : String → Int)
    (StringToDouble : String → S) (configs : Config) :
    ((configs "do_proprocess").isSome = true →
      (AssemblySettings.ofConfig ops StringToInt StringToDouble configs).do_postprocess = true ∧
      (AssemblySettings.ofConfig ops StringToInt StringToDouble configs).max_iterations = 1) ∧
    (configs "do_proprocess" = none →
      (AssemblySettings.ofConfig ops StringToInt StringToDouble configs).do_postprocess = false ∧
      (∀ v, configs "max_iterations" = some v →
        (AssemblySettings.ofConfig ops StringToInt StringToDouble configs).max_iterations =
          StringToInt v) ∧
      (configs "max_iterations" = none →
        (AssemblySettings.ofConfig ops StringToInt StringToDouble configs).max_iterations =
          50000)) := by
  refine ⟨?_, ?_⟩
  · intro h
    simp [AssemblySettings.ofConfig, h]
  · intro h
    refine ⟨?_, ?_, ?_⟩
    · simp [AssemblySettings.ofConfig, h]
    · intro v hv
      simp [AssemblySettings.ofConfig, h, ExtractInt, hv]
    · intro hv
      simp [AssemblySettings.ofConfig, h, ExtractInt, hv]

/-- Witness for C10: a map holding `do_proprocess` with an empty value and
`max_iterations` with the value `"700"`, parsed as 700. -/
theorem settings_postprocess_flag_witness :
    ((fun k => if k = "do_proprocess" then some ""
        else if k = "max_iterations" then some "700" else none : Config)
      "do_proprocess").isSome = true ∧
    (AssemblySettings.ofConfig sampleOps (fun _ => 700) (fun _ => 0)
      (fun k => if k = "do_proprocess" then some ""
        else if k = "max_iterations" then some "700" else none)).do_postprocess = true ∧
    (AssemblySettings.ofConfig sampleOps (fun _ => 700) (fun _ => 0)
      (fun k => if k = "do_proprocess" then some ""
        else if k = "max_iterations" then some "700" else none)).max_iterations = 1 :=
  ⟨by decide,
    (settings_postprocess_flag sampleOps (fun _ => 700) (fun _ => 0)
      (fun k => if k = "do_proprocess" then some ""
        else if k = "max_iterations" then some "700" else none)).1 (by decide)⟩

/-! ## Defaults of the settings -/

/-- C11, as stated, fails: in a map that holds `max_iterations` with the
value `"700"` (parsed as 700) together with `do_proprocess`, the setting
`max_iterations` is 1 and not the parsed value; and a map holding only
`do_proprocess`, hence none of the nine tuning keys, gives 1 and not
50000. -/
theorem settings_max_iterations_overridden :
    samplePostConfig "max_iterations" = some "700" ∧
    sampleStringToInt "700" = 700 ∧
    (AssemblySettings.ofConfig sampleOps sampleStringToInt (fun _ => 0)
      samplePostConfig).max_iterations = 1 ∧
    samplePostSettings.max_iterations = 1 := by
  decide

/-- C11, amended. For every configuration map each of the settings
`threshold`, `extendp`, `breakp`, `fixp`, `localp`, `extendadvp`, `fixlenp`
and `t0` is read from its own key (`long_contig_threshold`, `extend_p`,
`disconnect_p`, `interchange_p`, `local_p`, `join_by_advice_p`, `fixlen_p`,
`t0`) with the defaults 500, 5, 60, 1, 60, 25, 1 and 0.008; the setting
`max_iterations` is read from `max_iterations` with default 50000 when the
key `do_proprocess` is absent, and is 1 when that key is present. -/
theorem settings_defaults {S : Type} (ops : ScoreOps S) (StringToInt : String → Int)
    (StringToDouble : String → S) (configs : Config) :
    IsSettingOf configs "long_contig_threshold" StringToInt 500
      (AssemblySettings.ofConfig ops StringToInt StringToDouble configs).threshold ∧
    IsSettingOf configs "extend_p" StringToInt 5
      (AssemblySettings.ofConfig ops StringToInt StringToDouble configs).extendp ∧
    IsSettingOf configs "disconnect_p" StringToInt 60
      (AssemblySettings.ofConfig ops StringToInt StringToDouble configs).breakp ∧
    IsSettingOf configs "interchange_p" StringToInt 1
      (AssemblySettings.ofConfig ops StringToInt StringToDouble configs).fixp ∧
    IsSettingOf configs "local_p" StringToInt 60
      (AssemblySettings.ofConfig ops StringToInt StringToDouble configs).localp ∧
    IsSettingOf configs "join_by_advice_p" StringToInt 25
      (AssemblySettings.ofConfig ops StringToInt StringToDouble configs).extendadvp ∧
    IsSettingOf configs "fixlen_p" StringToInt 1
      (AssemblySettings.ofConfig ops StringToInt StringToDouble configs).fixlenp ∧
    IsSettingOf configs "t0" StringToDouble (ops.ofScientific 8 3)
      (AssemblySettings.ofConfig ops StringToInt StringToDouble configs).t0 ∧
    (configs "do_proprocess" = none →
      IsSettingOf configs "max_iterations" StringToInt 50000
        (AssemblySettings.ofConfig ops StringToInt StringToDouble configs).max_iterations) ∧
    ((configs "do_proprocess").isSome = true →
      (AssemblySettings.ofConfig ops StringToInt StringToDouble configs).max_iterations = 1) := by
  refine ⟨?_, ?_, ?_, ?_, ?_, ?_, ?_, ?_, ?_, ?_⟩
  · exact ⟨fun v hv => by simp [AssemblySettings.ofConfig, ExtractInt, hv],
      fun hv => by simp [AssemblySettings.ofConfig, ExtractInt, hv]⟩
  · exact ⟨fun v hv => by simp [AssemblySettings.ofConfig, ExtractInt, hv],
      fun hv => by simp [AssemblySettings.ofConfig, ExtractInt, hv]⟩
  · exact ⟨fun v hv => by simp [AssemblySettings.ofConfig, ExtractInt, hv],
      fun hv => by simp [AssemblySettings.ofConfig, ExtractInt, hv]⟩
  · exact ⟨fun v hv => by simp [AssemblySettings.ofConfig, ExtractInt, hv],
      fun hv => by simp [AssemblySettings.ofConfig, ExtractInt, hv]⟩
  · exact ⟨fun v hv => by simp [AssemblySettings.ofConfig, ExtractInt, hv],
      fun hv => by simp [AssemblySettings.ofConfig, ExtractInt, hv]⟩
  · exact ⟨fun v hv => by simp [AssemblySettings.ofConfig, ExtractInt, hv],
      fun hv => by simp [AssemblySettings.ofConfig, ExtractInt, hv]⟩
  · exact ⟨fun v hv => by simp [AssemblySettings.ofConfig, ExtractInt, hv],
      fun hv => by simp [AssemblySettings.ofConfig, ExtractInt, hv]⟩
  · exact ⟨fun v hv => by simp [AssemblySettings.ofConfig, ExtractDouble, hv],
      fun hv => by simp [AssemblySettings.ofConfig, ExtractDouble, hv]⟩
  · intro h
    exact ⟨fun v hv => by simp [AssemblySettings.ofConfig, ExtractInt, hv, h],
      fun hv => by simp [AssemblySettings.ofConfig, ExtractInt, hv, h]⟩
  · intro h
    simp [AssemblySettings.ofConfig, h]

/-- Witness for the amended C11: the empty map gives the defaults, among
them `max_iterations = 50000` and `t0 = 0.008`; a map with `extend_p`
stored as `"7"` gives `extendp = 7`. -/
theorem settings_defaults_witness :
    ((fun _ => none : Config) "do_proprocess" = none) ∧
    sampleSettings.max_iterations = 50000 ∧
    sampleSettings.t0 = sampleOps.ofScientific 8 3 ∧
    (AssemblySettings.ofConfig sampleOps sampleStringToInt (fun _ => 0)
      (fun k => if k = "extend_p" then some "7" else none)).extendp = 7 :=
  ⟨rfl,
    ((settings_defaults sampleOps (fun _ => 0) (fun _ => 0) (fun _ => none)).2.2.2.2.2.2.2.2.1
      rfl).2 rfl,
    (settings_defaults sampleOps (fun _ => 0) (fun _ => 0) (fun _ => none)).2.2.2.2.2.2.2.1.2
      rfl,
    ((settings_defaults sampleOps sampleStringToInt (fun _ => 0)
      (fun k => if k = "extend_p" then some "7" else none)).2.1.1 "7" (by decide)).trans
      (by decide)⟩

/-! ## Long nodes: insertion and seeding -/

theorem xor_one_of_even (m : Nat) (h : m % 2 = 0) : m ^^^ 1 = m + 1 := by
  have hm : m = Nat.bit false (m / 2) := by
    rw [Nat.bit_val]; simp; omega
  have h1 : (1 : Nat) = Nat.bit true 0 := by simp [Nat.bit_val]
  rw [hm, h1, Nat.xor_bit]
  simp [Nat.bit_val]

theorem twin_even (i : Nat) (h : i % 2 = 0) : twin (i : Int) = (i : Int) + 1 := by
  unfold twin
  show ((i ^^^ 1 : Nat) : Int) = (i : Int) + 1
  rw [xor_one_of_even i h]
  push_cast
  rfl

theorem twin_injective {a b : Int} (h : twin a = twin b) : a = b := by
  rw [← twin_twin a, h, twin_twin]

theorem isBig_iff (gr : Graph) (threshold : Int) (i : Nat) (h0 : 0 ≤ threshold)
    (h1 : threshold < 2 ^ 64) :
    isBig gr threshold (i : Int) = true ↔ threshold < ((gr.nodes.getD i 0 : Nat) : Int) := by
  unfold isBig
  rw [Int.emod_eq_of_lt h0 h1]
  simp

theorem mem_bigEvenNodes (gr : Graph) (threshold : Int) (x : Int) :
    x ∈ bigEvenNodes gr threshold ↔
      ∃ i : Nat, i < gr.nodes.length ∧ i % 2 = 0 ∧ isBig gr threshold (i : Int) = true ∧
        x = (i : Int) := by
  unfold bigEvenNodes
  simp only [List.mem_map, List.mem_filter, Bool.and_eq_true, beq_iff_eq, List.bind_eq_flatMap,
    List.mem_flatMap, List.mem_range, List.pure_def, List.mem_singleton, id]
  constructor
  · rintro ⟨y, ⟨⟨i, hi, rfl⟩, he, hb⟩, rfl⟩
    exact ⟨i, hi, by omega, hb, rfl⟩
  · rintro ⟨i, hi, he, hb, rfl⟩
    exact ⟨(i : Int), ⟨⟨i, hi, rfl⟩, by omega, hb⟩, rfl⟩

theorem repCount_zero (gr : Graph) (threshold : Int) (paths : Paths) (i : Nat)
    (he : i % 2 = 0) (h : ¬ Covers paths (i : Int)) :
    repCount gr threshold paths (i : Int) = 0 := by
  unfold repCount
  rw [List.countP_eq_zero]
  intro e hmem hp
  simp only [List.mem_flatMap, id] at hmem
  obtain ⟨w, hw, hew⟩ := hmem
  simp only [Bool.and_eq_true, decide_eq_true_eq] at hp
  obtain ⟨⟨h0, -⟩, hdiv⟩ := hp
  rw [Int.tdiv_eq_ediv h0 (by norm_num)] at hdiv
  have hcase : e = (i : Int) ∨ e = (i : Int) + 1 := by omega
  apply h
  rcases hcase with hc | hc
  · exact ⟨w, hw, Or.inl (hc ▸ hew)⟩
  · refine ⟨w, hw, Or.inr ?_⟩
    rw [twin_even i he, ← hc]
    exact hew

theorem singleton_mem_repStats (gr : Graph) (threshold : Int) (paths new_paths : Paths)
    (i : Nat) (hi : i < gr.nodes.length) (he : i % 2 = 0)
    (hb : isBig gr threshold (i : Int) = true) (h : ¬ Covers paths (i : Int)) :
    [(i : Int)] ∈ repStats gr threshold paths new_paths := by
  unfold repStats
  apply List.mem_append_right
  simp only [List.mem_map, List.mem_filter, beq_iff_eq]
  exact ⟨(i : Int), ⟨(mem_bigEvenNodes gr threshold _).mpr ⟨i, hi, he, hb, rfl⟩,
    repCount_zero gr threshold paths i he h⟩, rfl⟩

theorem mem_repStats (gr : Graph) (threshold : Int) (paths new_paths : Paths) (w : Walk)
    (h : w ∈ repStats gr threshold paths new_paths) :
    w ∈ new_paths ∨ ∃ j : Nat, j % 2 = 0 ∧ w = [(j : Int)] := by
  unfold repStats at h
  rcases List.mem_append.mp h with h | h
  · exact Or.inl h
  · right
    simp only [List.mem_map, List.mem_filter] at h
    obtain ⟨x, ⟨hx, -⟩, rfl⟩ := h
    obtain ⟨j, -, hj, -, rfl⟩ := (mem_bigEvenNodes gr threshold x).mp hx
    exact ⟨j, hj, rfl⟩

/-- Erasing a walk flagged by the cleanup keeps every node covered. -/
theorem covers_eraseIdx_of_findClean {paths : Paths} {c : Nat} (hc : findClean paths = some c)
    (n : Int) (h : Covers paths n) : Covers (paths.eraseIdx c) n := by
  obtain ⟨hcl, hl⟩ := findClean_some hc
  rw [loneRepeated_iff] at hl
  obtain ⟨m, hm, k, hkc, hkl, e, hek, hem⟩ := hl
  have hget : ∀ j (hj : j < paths.length), paths.getD j [] = paths[j] := by
    intro j hj
    simp [List.getD_eq_getElem?_getD, List.getElem?_eq_getElem hj]
  have hkmem : paths[k] ∈ paths.eraseIdx c :=
    List.mem_eraseIdx_iff_getElem.mpr ⟨k, hkl, hkc, rfl⟩
  rw [hget k hkl] at hek
  rw [hget c hcl] at hm
  obtain ⟨w, hw, hnw⟩ := h
  obtain ⟨j, hj, rfl⟩ := List.getElem_of_mem hw
  by_cases hjc : j = c
  · subst hjc
    rw [hm] at hnw
    simp only [List.mem_singleton] at hnw
    refine ⟨paths[k], hkmem, ?_⟩
    rcases hnw with hn | hn <;> rcases hem with he | he
    · left; rw [hn, ← he]; exact hek
    · right
      have : e = twin n := by rw [hn]; exact (twin_eq_iff e m).mp he
      rw [← this]; exact hek
    · right; rw [hn, ← he]; exact hek
    · left
      have : e = n := twin_injective (he.trans hn.symm)
      rw [← this]; exact hek
  · exact ⟨paths[j], List.mem_eraseIdx_iff_getElem.mpr ⟨j, hj, hjc, rfl⟩, hnw⟩

theorem cleanLoop_covers (fuel : Nat) (paths : Paths) (k : Nat) (r : Paths)
    (h : cleanLoop fuel paths = some (k, r)) (n : Int) (hn : Covers paths n) : Covers r n := by
  induction fuel generalizing paths k with
  | zero => simp [cleanLoop] at h
  | succ f ih =>
    unfold cleanLoop at h
    rcases hc : findClean paths with _ | c
    · simp only [hc, Option.some.injEq, Prod.mk.injEq] at h
      rw [← h.2]; exact hn
    · simp only [hc] at h
      rcases hr : cleanLoop f (paths.eraseIdx c) with _ | y
      · rw [hr] at h; cases h
      · rw [hr] at h
        simp only [Option.map_some', Option.some.injEq, Prod.mk.injEq] at h
        obtain ⟨k1, r1⟩ := y
        simp only at h
        obtain ⟨-, rfl⟩ := h
        exact ih _ k1 hr (covers_eraseIdx_of_findClean hc n hn)

theorem cleanPaths_covers (paths : Paths) (n : Int) (hn : Covers paths n) :
    Covers (cleanPaths paths) n := by
  obtain ⟨k, r, hr, -, -, -, -⟩ := cleanLoop_spec (paths.length + 1) paths (Nat.lt_succ_self _)
  have := cleanLoop_covers _ _ _ _ hr n hn
  simpa [cleanPaths, hr] using this

/-- C12, as stated, fails: on `boundaryGraph` with threshold 500 node 2 has a
sequence of length 500, which is `≥ threshold`, and is covered neither by
the current walk set nor by the candidate `[[0]]` returned by the move; the
test of the source is `length > threshold`, so nothing is inserted and the
walk set that is scored contains neither node 2 nor its twin. -/
theorem insertion_skips_threshold_length :
    ((boundaryGraph.nodes.getD 2 0 : Nat) : Int) ≥ sampleSettings.threshold ∧
    ¬ Covers sampleKeep.moved 2 ∧
    candidate boundaryGraph sampleSettings boundaryStart false sampleKeep = [[0]] ∧
    ¬ Covers (candidate boundaryGraph sampleSettings boundaryStart false sampleKeep) 2 := by
  refine ⟨by decide, ?_, by decide, ?_⟩
  · unfold Covers; decide
  · unfold Covers; decide

/-- The counts of the "Rep stats" block are taken over the current walk set:
on `sampleGraph` node 2 (length 1000, threshold 500) is an entry of the
current walk set `[[0, 2]]`, the move returns `[[0]]`, and node 2 is not
inserted into the candidate. -/
theorem insertion_counts_current_walks :
    sampleStart.paths = [[0, 2]] ∧
    sampleSettings.threshold < ((sampleGraph.nodes.getD 2 0 : Nat) : Int) ∧
    candidate sampleGraph sampleSettings sampleStart false sampleKeep = [[0]] := by
  decide

/-- C12, amended. For a threshold in `[0, 2^31)` and an even node `i` of the
graph whose sequence is longer than the threshold: if `i` is covered in
neither orientation by the current walk set `paths`, then `i` is covered by
the walk set that is scored; and if in addition the walk set returned by the
move does not cover `i`, the scored walk set contains the single-entry walk
`[i]`. -/
theorem bigContig_insertion {S : Type} (gr : Graph) (settings : AssemblySettings S)
    (st : State S) (was_local : Bool) (a : Attempt S) (i : Nat)
    (hi : i < gr.nodes.length) (he : i % 2 = 0)
    (h0 : 0 ≤ settings.threshold) (h1 : settings.threshold < 2 ^ 31)
    (hlen : settings.threshold < ((gr.nodes.getD i 0 : Nat) : Int))
    (hp : ¬ Covers st.paths (i : Int)) :
    Covers (candidate gr settings st was_local a) (i : Int) ∧
    (¬ Covers a.moved (i : Int) → [(i : Int)] ∈ candidate gr settings st was_local a) := by
  have hb : isBig gr settings.threshold (i : Int) = true :=
    (isBig_iff gr settings.threshold i h0 (by omega)).mpr hlen
  have hin := singleton_mem_repStats gr settings.threshold st.paths a.moved i hi he hb hp
  have hcov : Covers (candidate gr settings st was_local a) (i : Int) := by
    unfold candidate
    rw [cleanPathsLocal_snd]
    apply cleanPaths_covers
    exact ⟨[(i : Int)], hin, Or.inl (List.mem_singleton_self _)⟩
  refine ⟨hcov, ?_⟩
  intro hm
  obtain ⟨w, hw, hiw⟩ := hcov
  have hw2 : w ∈ repStats gr settings.threshold st.paths a.moved := by
    unfold candidate at hw
    rw [cleanPathsLocal_snd] at hw
    exact (cleanPaths_sublist _).subset hw
  rcases mem_repStats gr settings.threshold st.paths a.moved w hw2 with hmv | ⟨j, hj, rfl⟩
  · exact absurd ⟨w, hmv, hiw⟩ hm
  · rcases hiw with h | h
    · simp only [List.mem_singleton] at h
      rw [h]
      exact hw
    · rw [twin_even i he] at h
      simp only [List.mem_singleton] at h
      omega

/-- Witness for the amended C12: the current walk set `[[0]]` on
`sampleGraph` does not cover node 2, whose sequence has length 1000, and the
move returns `[[0]]`; the scored walk set contains the walk `[2]`. -/
theorem bigContig_insertion_witness :
    ¬ Covers boundaryStart.paths ((2 : Nat) : Int) ∧
    ¬ Covers sampleKeep.moved ((2 : Nat) : Int) ∧
    [((2 : Nat) : Int)] ∈ candidate sampleGraph sampleSettings boundaryStart false sampleKeep :=
  ⟨by unfold Covers; decide, by unfold Covers; decide,
    (bigContig_insertion sampleGraph sampleSettings boundaryStart false sampleKeep 2
      (by decide) (by decide) (by decide) (by decide) (by decide)
      (by unfold Covers; decide)).2 (by unfold Covers; decide)⟩

/-- C13, as stated, fails: on `boundaryGraph` with threshold 500 the twin pair
(2, 3) has sequences of length 500, which is `≥ threshold`, but the seeding
tests `length > threshold` and builds only the walk `[0]`. -/
theorem seeding_skips_threshold_length :
    ((boundaryGraph.nodes.getD 2 0 : Nat) : Int) ≥ 500 ∧
    ((boundaryGraph.nodes.getD 3 0 : Nat) : Int) ≥ 500 ∧
    seedPaths boundaryGraph 500 = [[0]] ∧
    [2] ∉ seedPaths boundaryGraph 500 := by
  decide

/-- C13, amended. For a threshold in `[0, 2^31)` the walk set seeded in
`main` consists of the single-entry walks `[i]` for the even indices `i` of
the graph whose sequence is strictly longer than the threshold, each of them
once, and of no other walk. -/
theorem seeding {S : Type} (gr : Graph) (settings : AssemblySettings S)
    (h0 : 0 ≤ settings.threshold) (h1 : settings.threshold < 2 ^ 31) :
    (∀ w : Walk, w ∈ seedPaths gr settings.threshold ↔
      ∃ i : Nat, i < gr.nodes.length ∧ i % 2 = 0 ∧
        settings.threshold < ((gr.nodes.getD i 0 : Nat) : Int) ∧ w = [(i : Int)]) ∧
    (seedPaths gr settings.threshold).Nodup := by
  refine ⟨?_, ?_⟩
  · intro w
    unfold seedPaths
    simp only [List.mem_map, List.mem_filter, List.mem_range, Bool.and_eq_true, beq_iff_eq]
    constructor
    · rintro ⟨i, ⟨hi, he, hb⟩, rfl⟩
      exact ⟨i, hi, he, (isBig_iff gr settings.threshold i h0 (by omega)).mp hb, rfl⟩
    · rintro ⟨i, hi, he, hb, rfl⟩
      exact ⟨i, ⟨hi, he, (isBig_iff gr settings.threshold i h0 (by omega)).mpr hb⟩, rfl⟩
  · unfold seedPaths
    apply List.Nodup.map
    · intro a b hab
      simpa using hab
    · exact (List.nodup_range _).filter _

/-- Witness for the amended C13: the default threshold 500 on
`boundaryGraph`. -/
theorem seeding_witness :
    (0 ≤ sampleSettings.threshold ∧ sampleSettings.threshold < 2 ^ 31) ∧
    ([((0 : Nat) : Int)] ∈ seedPaths boundaryGraph sampleSettings.threshold) ∧
    (seedPaths boundaryGraph sampleSettings.threshold).Nodup :=
  ⟨by decide,
    ((seeding boundaryGraph sampleSettings (by decide) (by decide)).1 _).mpr
      ⟨0, by decide, by decide, by decide, rfl⟩,
    (seeding boundaryGraph sampleSettings (by decide) (by decide)).2⟩

/-! ## Witness tables -/

theorem range_map_getD_eq_drop_take (w : List Int) (a b : Nat) (h : a + b ≤ w.length) :
    (List.range b).map (fun (k : Nat) => w.getD (a + k) 0) = (w.drop a).take b := by
  apply List.ext_getElem
  · simp; omega
  · intro n h1 h2
    simp only [List.length_map, List.length_range] at h1
    simp only [List.getElem_map, List.getElem_range, List.getElem_take, List.getElem_drop]
    rw [List.getD_eq_getElem?_getD, List.getElem?_eq_getElem (by omega)]
    rfl

/-- The vector `pp` consists of the entries strictly between the two
recorded positions when these are positions of the walk. -/
theorem middleOf_eq_between (new_paths : Paths) (p : Int) (s t : Nat)
    (ht : t < (new_paths.getD p.toNat []).length) :
    middleOf new_paths p (s : Int) (t : Int) = between (new_paths.getD p.toNat []) s t := by
  unfold middleOf between entryAt
  have hcount : ((t : Int) - ((s : Int) + 1)).toNat = t - (s + 1) := by omega
  rw [hcount]
  by_cases hst : s + 1 ≤ t
  · rw [← range_map_getD_eq_drop_take _ (s + 1) (t - (s + 1)) (by omega)]
    apply List.map_congr_left
    intro k _
    have : ((s : Int) + 1 + (k : Int)).toNat = s + 1 + k := by omega
    rw [this]
  · have : t - (s + 1) = 0 := by omega
    rw [this]
    simp

theorem wasLocal_not_postprocess {S : Type} (settings : AssemblySettings S) (adviceCount : Nat)
    (a : Attempt S) (h : wasLocal settings adviceCount a = true) :
    settings.do_postprocess = false := by
  unfold wasLocal chosenMove at h
  cases hpp : settings.do_postprocess
  · rfl
  · simp [hpp] at h

/-- C14. With `u`, `v` the entries of the scored candidate at the recorded
positions `local_s`, `local_t` of walk `local_p` (as adjusted by the
cleanup) and `pp` the entries between them: in a scored pass with
`was_local` set and `new_prob > cur_prob`, each of the two tables that has
an entry for `(u, v)` stores `pp` there afterwards, a table without such an
entry still has none, and every entry for another pair is unchanged; `pp` is
the part of the walk strictly between the two positions when they are
positions of the walk.  In every other pass (not scored, not a
`LocalChange` with a record, or no improvement) both tables are unchanged. -/
theorem witness_update {S : Type} [LinearOrder S] (gr : Graph) (settings : AssemblySettings S)
    (adviceCount : Nat) (st : State S) (a : Attempt S) (c : Caches) :
    (isScored settings adviceCount a = true → wasLocal settings adviceCount a = true →
      a.new_prob > st.cur_prob →
      (∀ table : Caches → Int → Int → Option (List Int),
        (table = Caches.reach_big ∨ table = Caches.reach_limit) →
        ((table c
            (entryAt (candidate gr settings st (wasLocal settings adviceCount a) a)
              (adjustedLocalP gr settings adviceCount st a) a.local_s)
            (entryAt (candidate gr settings st (wasLocal settings adviceCount a) a)
              (adjustedLocalP gr settings adviceCount st a) a.local_t)).isSome = true →
          table (passCaches gr settings adviceCount st a c)
            (entryAt (candidate gr settings st (wasLocal settings adviceCount a) a)
              (adjustedLocalP gr settings adviceCount st a) a.local_s)
            (entryAt (candidate gr settings st (wasLocal settings adviceCount a) a)
              (adjustedLocalP gr settings adviceCount st a) a.local_t) =
            some (middleOf (candidate gr settings st (wasLocal settings adviceCount a) a)
              (adjustedLocalP gr settings adviceCount st a) a.local_s a.local_t)) ∧
        (table c
            (entryAt (candidate gr settings st (wasLocal settings adviceCount a) a)
              (adjustedLocalP gr settings adviceCount st a) a.local_s)
            (entryAt (candidate gr settings st (wasLocal settings adviceCount a) a)
              (adjustedLocalP gr settings adviceCount st a) a.local_t) = none →
          table (passCaches gr settings adviceCount st a c)
            (entryAt (candidate gr settings st (wasLocal settings adviceCount a) a)
              (adjustedLocalP gr settings adviceCount st a) a.local_s)
            (entryAt (candidate gr settings st (wasLocal settings adviceCount a) a)
              (adjustedLocalP gr settings adviceCount st a) a.local_t) = none) ∧
        (∀ x y : Int,
          ¬ (x = entryAt (candidate gr settings st (wasLocal settings adviceCount a) a)
                (adjustedLocalP gr settings adviceCount st a) a.local_s ∧
              y = entryAt (candidate gr settings st (wasLocal settings adviceCount a) a)
                (adjustedLocalP gr settings adviceCount st a) a.local_t) →
          table (passCaches gr settings adviceCount st a c) x y = table c x y)) ∧
      (∀ s t : Nat, a.local_s = (s : Int) → a.local_t = (t : Int) →
        t < ((candidate gr settings st (wasLocal settings adviceCount a) a).getD
              (adjustedLocalP gr settings adviceCount st a).toNat []).length →
        middleOf (candidate gr settings st (wasLocal settings adviceCount a) a)
            (adjustedLocalP gr settings adviceCount st a) a.local_s a.local_t =
          between ((candidate gr settings st (wasLocal settings adviceCount a) a).getD
            (adjustedLocalP gr settings adviceCount st a).toNat []) s t)) ∧
    (¬ (isScored settings adviceCount a = true ∧ wasLocal settings adviceCount a = true ∧
        a.new_prob > st.cur_prob) →
      passCaches gr settings adviceCount st a c = c) := by
  refine ⟨?_, ?_⟩
  · intro hs hl hn
    have hcond : (decide (a.new_prob > st.cur_prob) || settings.do_postprocess) = true := by
      simp [hn]
    have hpc : passCaches gr settings adviceCount st a c =
        localSave (candidate gr settings st (wasLocal settings adviceCount a) a)
          (adjustedLocalP gr settings adviceCount st a) a.local_s a.local_t c := by
      unfold passCaches
      rw [if_pos hs, if_pos hcond, if_pos hl]
    rw [hpc]
    refine ⟨?_, ?_⟩
    · intro table htable
      rcases htable with rfl | rfl
      · refine ⟨?_, ?_, ?_⟩
        · intro h
          simp [localSave, h, setWitness]
        · intro h
          simp [localSave, h]
        · intro x y hxy
          unfold localSave
          simp only
          split
          · simp [setWitness, hxy]
          · rfl
      · refine ⟨?_, ?_, ?_⟩
        · intro h
          simp [localSave, h, setWitness]
        · intro h
          simp [localSave, h]
        · intro x y hxy
          unfold localSave
          simp only
          split
          · simp [setWitness, hxy]
          · rfl
    · intro s t hs' ht' hlen
      rw [hs', ht']
      exact middleOf_eq_between _ _ s t hlen
  · intro h
    unfold passCaches
    by_cases hs : isScored settings adviceCount a = true
    · rw [if_pos hs]
      by_cases hl : wasLocal settings adviceCount a = true
      · have hpp := wasLocal_not_postprocess settings adviceCount a hl
        have hn : ¬ a.new_prob > st.cur_prob := fun hn => h ⟨hs, hl, hn⟩
        have hcond : (decide (a.new_prob > st.cur_prob) || settings.do_postprocess) = false := by
          simp [hn, hpp]
        rw [hcond]
        rfl
      · simp [hl]
    · rw [if_neg hs]

/-- Witness for C14: the sample `LocalChange` pass improves the score;
`reach_big`, which has an entry for `(0, 4)`, then stores the walk `2`
there, and `reach_limit`, which has none, still has none. -/
theorem witness_update_witness :
    isScored sampleSettings 0 sampleLocal = true ∧
    wasLocal sampleSettings 0 sampleLocal = true ∧
    sampleLocal.new_prob > witnessStart.cur_prob ∧
    (passCaches witnessGraph sampleSettings 0 witnessStart sampleLocal sampleCaches).reach_big
      (entryAt (candidate witnessGraph sampleSettings witnessStart
          (wasLocal sampleSettings 0 sampleLocal) sampleLocal)
        (adjustedLocalP witnessGraph sampleSettings 0 witnessStart sampleLocal)
        sampleLocal.local_s)
      (entryAt (candidate witnessGraph sampleSettings witnessStart
          (wasLocal sampleSettings 0 sampleLocal) sampleLocal)
        (adjustedLocalP witnessGraph sampleSettings 0 witnessStart sampleLocal)
        sampleLocal.local_t) =
      some (middleOf (candidate witnessGraph sampleSettings witnessStart
          (wasLocal sampleSettings 0 sampleLocal) sampleLocal)
        (adjustedLocalP witnessGraph sampleSettings 0 witnessStart sampleLocal)
        sampleLocal.local_s sampleLocal.local_t) ∧
    middleOf (candidate witnessGraph sampleSettings witnessStart
        (wasLocal sampleSettings 0 sampleLocal) sampleLocal)
      (adjustedLocalP witnessGraph sampleSettings 0 witnessStart sampleLocal)
      sampleLocal.local_s sampleLocal.local_t = [2] ∧
    (passCaches witnessGraph sampleSettings 0 witnessStart sampleLocal sampleCaches).reach_limit
      0 4 = none :=
  ⟨by decide, by decide, by decide,
    (((witness_update witnessGraph sampleSettings 0 witnessStart sampleLocal sampleCaches).1
      (by decide) (by decide) (by decide)).1 Caches.reach_big (Or.inl rfl)).1 (by decide),
    by decide, by decide⟩

/-! ## The longest read -/

theorem foldl_max_flatMap {α : Type} (f : α → List Int) (l : List α) (acc : Int) :
    l.foldl (fun longest e => (f e).foldl max longest) acc = (l.flatMap f).foldl max acc := by
  induction l generalizing acc with
  | nil => rfl
  | cons a t ih => simp only [List.foldl_cons, List.flatMap_cons, List.foldl_append, ih]

theorem foldl_max_map {α : Type} (g : α → Int) (l : List α) (acc : Int) :
    l.foldl (fun longest e => max longest (g e)) acc = (l.map g).foldl max acc := by
  induction l generalizing acc with
  | nil => rfl
  | cons a t ih => simp only [List.foldl_cons, List.map_cons, ih]

theorem foldl_max_ge (l : List Int) (acc : Int) :
    acc ≤ l.foldl max acc ∧ ∀ x ∈ l, x ≤ l.foldl max acc := by
  induction l generalizing acc with
  | nil => simp
  | cons a t ih =>
    simp only [List.foldl_cons, List.mem_cons]
    obtain ⟨h1, h2⟩ := ih (max acc a)
    refine ⟨le_trans (le_max_left _ _) h1, ?_⟩
    rintro x (rfl | hx)
    · exact le_trans (le_max_right _ _) h1
    · exact h2 x hx

theorem foldl_max_mem (l : List Int) (acc : Int) : l.foldl max acc ∈ acc :: l := by
  induction l generalizing acc with
  | nil => simp
  | cons a t ih =>
    simp only [List.foldl_cons]
    have := ih (max acc a)
    rcases List.mem_cons.mp this with h | h
    · rw [h]
      rcases max_choice acc a with hm | hm
      · rw [hm]; simp
      · rw [hm]; simp
    · simp [h]

theorem getLongestRead_eq {S : Type} (readLens : ReadSet S → List Int)
    (pacbioLens : PacbioReadSet S → List Int) (toInt : S → Int)
    (single_reads : List (SingleReadConfig S × ReadSet S))
    (paired_reads : List (PairedReadConfig S × (ReadSet S × ReadSet S)))
    (pacbio_reads : List (SingleReadConfig S × PacbioReadSet S)) :
    GetLongestRead readLens pacbioLens toInt single_reads paired_reads pacbio_reads =
      (longestReadValues readLens pacbioLens toInt single_reads paired_reads
        pacbio_reads).foldl max 0 := by
  unfold GetLongestRead longestReadValues
  simp only [foldl_max_flatMap, foldl_max_map, List.foldl_append]

/-- C15, as stated, fails: for the single paired library `samplePaired`, whose
reads all have length at most 100 and whose insert mean is 300,
`GetLongestRead` returns 300, so the bound passed on is 600 and not twice
the longest read length, 200. -/
theorem longest_read_uses_insert_mean :
    (allReadLens sampleReadLens (fun _ => []) [] [samplePaired] []).foldl max 0 = 100 ∧
    GetLongestRead sampleReadLens (fun _ => []) sampleToInt [] [samplePaired] [] = 300 ∧
    reachLimitBound
      (GetLongestRead sampleReadLens (fun _ => []) sampleToInt [] [samplePaired] []) = 600 ∧
    reachLimitBound
        (GetLongestRead sampleReadLens (fun _ => []) sampleToInt [] [samplePaired] []) ≠
      2 * (allReadLens sampleReadLens (fun _ => []) [] [samplePaired] []).foldl max 0 := by
  decide

/-- C15, amended. `GetLongestRead` returns the largest of 0, the lengths of
the reads of the single and of the long read sets, and the integer parts of
the insert means of the paired libraries (the reads of the paired libraries
are not looked at): it is one of these values and none of them exceeds it;
the bound `Optimize` passes to the graph is twice that value. -/
theorem longest_read {S : Type} (readLens : ReadSet S → List Int)
    (pacbioLens : PacbioReadSet S → List Int) (toInt : S → Int)
    (single_reads : List (SingleReadConfig S × ReadSet S))
    (paired_reads : List (PairedReadConfig S × (ReadSet S × ReadSet S)))
    (pacbio_reads : List (SingleReadConfig S × PacbioReadSet S)) :
    GetLongestRead readLens pacbioLens toInt single_reads paired_reads pacbio_reads ∈
      0 :: longestReadValues readLens pacbioLens toInt single_reads paired_reads pacbio_reads ∧
    (∀ x ∈ 0 :: longestReadValues readLens pacbioLens toInt single_reads paired_reads
        pacbio_reads,
      x ≤ GetLongestRead readLens pacbioLens toInt single_reads paired_reads pacbio_reads) ∧
    reachLimitBound
        (GetLongestRead readLens pacbioLens toInt single_reads paired_reads pacbio_reads) =
      2 * (longestReadValues readLens pacbioLens toInt single_reads paired_reads
        pacbio_reads).foldl max 0 := by
  rw [getLongestRead_eq]
  refine ⟨foldl_max_mem _ _, ?_, rfl⟩
  intro x hx
  rcases List.mem_cons.mp hx with rfl | hx
  · exact (foldl_max_ge _ _).1
  · exact (foldl_max_ge _ _).2 x hx

/-! ## Configuration file -/

theorem splitAtEq_eq_none (l : List Char) : splitAtEq l = none ↔ '=' ∉ l := by
  induction l with
  | nil => simp [splitAtEq]
  | cons c cs ih =>
    unfold splitAtEq
    by_cases hc : c = '='
    · simp [hc]
    · have hc2 : ¬ '=' = c := fun h => hc h.symm
      simp [hc, hc2, ih]

theorem splitAtEq_of_mem (l : List Char) (h : '=' ∈ l) :
    splitAtEq l =
      some (l.takeWhile (fun c => c != '='), (l.dropWhile fun c => c != '=').drop 1) := by
  induction l with
  | nil => simp at h
  | cons c cs ih =>
    unfold splitAtEq
    by_cases hc : c = '='
    · simp [hc]
    · have hmem : '=' ∈ cs := by
        rcases List.mem_cons.mp h with h1 | h1
        · exact absurd h1.symm hc
        · exact h1
      simp [hc, ih hmem]

theorem parseConfigLine_eq_none (l : String) : ParseConfigLine l = none ↔ '=' ∉ l.data := by
  unfold ParseConfigLine
  rw [Option.map_eq_none', splitAtEq_eq_none]

theorem parseConfigLine_of_mem (l : String) (h : '=' ∈ l.data) :
    ParseConfigLine l = some (keyText l, valueText l) := by
  unfold ParseConfigLine keyText valueText
  rw [splitAtEq_of_mem _ h]
  rfl

/-- A line makes the loop return `false` exactly when it begins with a
lowercase letter and holds no `'='`, whatever has been read before. -/
theorem configLine_eq_none (st : ConfigState) (l : String) :
    configLine st l = none ↔ (beginsLower l = true ∧ '=' ∉ l.data) := by
  unfold configLine beginsLower
  rcases hd : l.data with _ | ⟨c, cs⟩
  · simp
  · simp only
    by_cases hb : c = '['
    · subst hb
      simp
    · rw [if_neg hb]
      by_cases hl : 'a' ≤ c ∧ c ≤ 'z'
      · rw [if_pos hl]
        rcases hp : ParseConfigLine l with _ | kv
        · have := (parseConfigLine_eq_none l).mp hp
          rw [hd] at this
          simp [hl, this]
        · have hne : ¬ ('=' ∉ l.data) := by
            intro hcon
            rw [(parseConfigLine_eq_none l).mpr hcon] at hp
            cases hp
          rw [hd] at hne
          simp only
          split <;> exact ⟨fun h => Option.noConfusion h, fun h => absurd h.2 hne⟩
      · rw [if_neg hl]
        simp [hl]

theorem loadLines_eq_none (st : ConfigState) (lines : List String) :
    loadLines st lines = none ↔ ∃ l ∈ lines, beginsLower l = true ∧ '=' ∉ l.data := by
  induction lines generalizing st with
  | nil => simp [loadLines]
  | cons l rest ih =>
    unfold loadLines
    rcases hc : configLine st l with _ | st1
    · have := (configLine_eq_none st l).mp hc
      simp only [List.mem_cons, true_iff]
      exact ⟨l, Or.inl rfl, this⟩
    · have hnot : ¬ (beginsLower l = true ∧ '=' ∉ l.data) := by
        intro hcon
        rw [(configLine_eq_none st l).mpr hcon] at hc
        cases hc
      simp only [ih st1, List.mem_cons]
      constructor
      · rintro ⟨x, hx, hp⟩
        exact ⟨x, Or.inr hx, hp⟩
      · rintro ⟨x, hx | hx, hp⟩
        · exact absurd (hx ▸ hp) hnot
        · exact ⟨x, hx, hp⟩

/-- C18. For the lines of a readable file, `LoadConfig` returns `false`
exactly when some line begins with a lowercase letter and holds no `'='`;
and when it does, `main` returns 1. -/
theorem loadConfig_failure (lines : List String) :
    (LoadConfig lines = none ↔ ∃ l ∈ lines, beginsLower l = true ∧ '=' ∉ l.data) ∧
    (LoadConfig lines = none → mainConfigExit lines = some 1) := by
  refine ⟨loadLines_eq_none _ lines, ?_⟩
  intro h
  unfold mainConfigExit
  rw [h]

/-- Witness for C18: a section header, a line without `'='` that begins with
a lowercase letter, and a key line. -/
theorem loadConfig_failure_witness :
    (∃ l ∈ ["[a]", "x", "k=v"], beginsLower l = true ∧ '=' ∉ l.data) ∧
    LoadConfig ["[a]", "x", "k=v"] = none ∧
    mainConfigExit ["[a]", "x", "k=v"] = some 1 :=
  ⟨⟨"x", by decide, by decide, by decide⟩,
    (loadConfig_failure ["[a]", "x", "k=v"]).1.mpr ⟨"x", by decide, by decide, by decide⟩,
    (loadConfig_failure ["[a]", "x", "k=v"]).2
      ((loadConfig_failure ["[a]", "x", "k=v"]).1.mpr ⟨"x", by decide, by decide, by decide⟩)⟩

theorem configLine_header (st : ConfigState) (l : String) (cs : List Char)
    (hd : l.data = '[' :: cs) :
    configLine st l =
      some { st with current_read_set := String.mk (cs.take (l.length - 2)) } := by
  unfold configLine
  rw [hd]
  simp

theorem configLine_bracketed (st : ConfigState) (name : String) :
    configLine st ("[" ++ name ++ "]") = some { st with current_read_set := name } := by
  have hd : ("[" ++ name ++ "]").data = '[' :: (name.data ++ [']']) := by
    simp [String.data_append]
  have hlen : ("[" ++ name ++ "]").length = name.data.length + 2 := by
    show ("[" ++ name ++ "]").data.length = _
    rw [hd]
    simp
  rw [configLine_header st _ _ hd, hlen]
  simp

theorem configLine_key (st : ConfigState) (l : String) (hb : beginsLower l = true)
    (he : '=' ∈ l.data) :
    configLine st l =
      if st.current_read_set = "" then
        some { st with configs := setKey st.configs (keyText l) (valueText l) }
      else
        some { st with
          read_set_configs :=
            setSectionKey st.read_set_configs st.current_read_set (keyText l) (valueText l) } := by
  unfold beginsLower at hb
  unfold configLine
  rcases hd : l.data with _ | ⟨c, cs⟩
  · rw [hd] at hb; cases hb
  · rw [hd] at hb
    simp only [decide_eq_true_eq] at hb
    have hne : c ≠ '[' := by
      rintro rfl
      exact absurd hb (by decide)
    simp only [if_neg hne, if_pos hb, parseConfigLine_of_mem l he]

theorem loadLines_current (st st1 : ConfigState) (lines : List String)
    (h : loadLines st lines = some st1) :
    st1.current_read_set = lastHeaderName st.current_read_set lines := by
  induction lines generalizing st with
  | nil =>
    simp only [loadLines, Option.some.injEq] at h
    rw [← h]; rfl
  | cons l rest ih =>
    unfold loadLines at h
    rcases hc : configLine st l with _ | st2
    · rw [hc] at h; cases h
    · rw [hc] at h
      rw [ih st2 h]
      unfold lastHeaderName
      rw [List.foldl_cons]
      congr 1
      unfold configLine at hc
      unfold headerName
      rcases hd : l.data with _ | ⟨c, cs⟩
      · rw [hd] at hc
        simp only [Option.some.injEq] at hc
        rw [← hc]; rfl
      · rw [hd] at hc
        simp only at hc ⊢
        by_cases hb : c = '['
        · rw [if_pos hb] at hc
          rw [if_pos hb]
          simp only [Option.some.injEq] at hc
          rw [← hc]; rfl
        · rw [if_neg hb] at hc
          rw [if_neg hb]
          simp only [Option.getD_none]
          split at hc
          · split at hc
            · cases hc
            · split at hc
              · simp only [Option.some.injEq] at hc
                rw [← hc]
              · simp only [Option.some.injEq] at hc
                rw [← hc]
          · simp only [Option.some.injEq] at hc
            rw [← hc]

/-- C17, as stated, fails: after the header `[a]` has opened a section, the
header `[]` makes the empty name the current section, and the following
line `k=v` is stored in the global map and in no section map. -/
theorem key_after_empty_header_is_global :
    (LoadConfig ["[a]", "[]", "k=v"]).map
        (fun st => (st.configs "k", (st.read_set_configs "").isSome,
          (st.read_set_configs "a").isSome)) =
      some (some "v", false, false) := by
  decide

/-- C17, amended. For one line read by `LoadConfig` in any state: an empty
line and a line whose first character is neither `'['` nor a lowercase
letter leave the state as it is; the line `[name]` makes `name` the current
section; a line that begins with a lowercase letter and holds `'='` stores
the text after its first `'='` under the text before it, in the global map
and nowhere else when the current section name is empty, and otherwise in
the map of the current section and nowhere else.  A stored value is the one
found under its key afterwards, whatever was there before, and other keys
and other sections keep what they had.  After any lines have been read the
current section name is the one given by the most recent header line, and
empty when there was none. -/
theorem config_routing (st : ConfigState) :
    configLine st "" = some st ∧
    (∀ (l : String) (c : Char) (cs : List Char), l.data = c :: cs → c ≠ '[' →
      ¬ ('a' ≤ c ∧ c ≤ 'z') → configLine st l = some st) ∧
    (∀ name : String,
      configLine st ("[" ++ name ++ "]") = some { st with current_read_set := name }) ∧
    (∀ l : String, beginsLower l = true → '=' ∈ l.data →
      (st.current_read_set = "" →
        configLine st l =
          some { st with configs := setKey st.configs (keyText l) (valueText l) }) ∧
      (st.current_read_set ≠ "" →
        configLine st l =
          some { st with
            read_set_configs :=
              setSectionKey st.read_set_configs st.current_read_set (keyText l)
                (valueText l) })) ∧
    (∀ (cfg : Config) (k v : String),
      setKey cfg k v k = some v ∧ ∀ k2, k2 ≠ k → setKey cfg k v k2 = cfg k2) ∧
    (∀ (sections : String → Option Config) (n k v : String),
      (∃ cfg, setSectionKey sections n k v n = some cfg ∧ cfg k = some v ∧
        ∀ k2, k2 ≠ k → cfg k2 = ((sections n).getD fun _ => none) k2) ∧
      ∀ n2, n2 ≠ n → setSectionKey sections n k v n2 = sections n2) ∧
    (∀ (lines : List String) (st1 : ConfigState), loadLines st lines = some st1 →
      st1.current_read_set = lastHeaderName st.current_read_set lines) := by
  refine ⟨rfl, ?_, configLine_bracketed st, ?_, ?_, ?_, ?_⟩
  · intro l c cs hd hb hl
    unfold configLine
    rw [hd]
    simp only [if_neg hb, if_neg hl]
  · intro l hb he
    rw [configLine_key st l hb he]
    exact ⟨fun h => by rw [if_pos h], fun h => by rw [if_neg h]⟩
  · intro cfg k v
    refine ⟨by simp [setKey], ?_⟩
    intro k2 hk
    simp [setKey, hk]
  · intro sections n k v
    refine ⟨⟨setKey ((sections n).getD fun _ => none) k v, by simp [setSectionKey],
      by simp [setKey], ?_⟩, ?_⟩
    · intro k2 hk
      simp [setKey, hk]
    · intro n2 hn
      simp [setSectionKey, hn]
  · intro lines st1 h
    exact loadLines_current st st1 lines h

/-- Witness for the amended C17: in the state reached after the header `[a]`
the line `k=v` is stored under `k` in the map of section `a`, and the global
map is left as it was. -/
theorem config_routing_witness :
    beginsLower "k=v" = true ∧ '=' ∈ ("k=v" : String).data ∧
    sampleSectionState.current_read_set ≠ "" ∧
    configLine sampleSectionState "k=v" =
      some { sampleSectionState with
        read_set_configs :=
          setSectionKey sampleSectionState.read_set_configs
            sampleSectionState.current_read_set (keyText "k=v") (valueText "k=v") } ∧
    keyText "k=v" = "k" ∧ valueText "k=v" = "v" :=
  ⟨by decide, by decide, by decide,
    ((config_routing sampleSectionState).2.2.2.1 "k=v" (by decide) (by decide)).2 (by decide),
    by decide, by decide⟩

/-! ## Preparation of the read sets -/

theorem prepareSection_eq_append {S : Type} (ops : ScoreOps S) (lib : LibOps S)
    (StringToDouble : String → S) (libs : Libraries S) (e : String × Config) :
    prepareSection ops lib StringToDouble libs e =
      libs.append (sectionLibs ops lib StringToDouble e) := by
  unfold sectionLibs prepareSection Libraries.append Libraries.empty
  simp only
  repeat' split
  all_goals simp

theorem sectionLibs_lengths {S : Type} (ops : ScoreOps S) (lib : LibOps S)
    (StringToDouble : String → S) (e : String × Config) :
    (sectionLibs ops lib StringToDouble e).single_reads.length =
        (if validSingle e.2 = true then 1 else 0) ∧
    (sectionLibs ops lib StringToDouble e).paired_reads.length =
        (if validPaired e.2 = true then 1 else 0) ∧
    (sectionLibs ops lib StringToDouble e).pacbio_reads.length =
        (if validPacbio e.2 = true then 1 else 0) := by
  unfold sectionLibs prepareSection Libraries.empty validSingle validPaired validPacbio
  simp only
  repeat' split
  all_goals simp_all

theorem prepare_eq_append {S : Type} (ops : ScoreOps S) (lib : LibOps S)
    (StringToDouble : String → S) (sections : List (String × Config)) (libs : Libraries S) :
    PrepareReadSetFromConfig ops lib StringToDouble sections libs =
      { single_reads := libs.single_reads ++
          sections.flatMap fun e => (sectionLibs ops lib StringToDouble e).single_reads
        paired_reads := libs.paired_reads ++
          sections.flatMap fun e => (sectionLibs ops lib StringToDouble e).paired_reads
        pacbio_reads := libs.pacbio_reads ++
          sections.flatMap fun e => (sectionLibs ops lib StringToDouble e).pacbio_reads } := by
  unfold PrepareReadSetFromConfig
  induction sections generalizing libs with
  | nil => simp
  | cons e rest ih =>
    rw [List.foldl_cons, ih, prepareSection_eq_append]
    simp [Libraries.append, List.append_assoc]

/-- C19. One section of `read_set_configs` pushes its libraries behind the
ones already in the three vectors: one library onto `single_reads` exactly
when its type is `single` and it has `filename`, one onto `pacbio_reads`
exactly when its type is `pacbio` and it has `filename`, one onto
`paired_reads` exactly when its type is `paired` and it has `filename1`,
`filename2`, `insert_mean` and `insert_std`, and nothing otherwise.  A
section that is valid in none of the three ways leaves the vectors as they
are, and the result of the whole loop is the same as without that
section. -/
theorem readset_validation {S : Type} (ops : ScoreOps S) (lib : LibOps S)
    (StringToDouble : String → S) (e : String × Config) (libs : Libraries S) :
    prepareSection ops lib StringToDouble libs e =
      libs.append (sectionLibs ops lib StringToDouble e) ∧
    (sectionLibs ops lib StringToDouble e).single_reads.length =
      (if validSingle e.2 = true then 1 else 0) ∧
    (sectionLibs ops lib StringToDouble e).paired_reads.length =
      (if validPaired e.2 = true then 1 else 0) ∧
    (sectionLibs ops lib StringToDouble e).pacbio_reads.length =
      (if validPacbio e.2 = true then 1 else 0) ∧
    (validSingle e.2 = false → validPaired e.2 = false → validPacbio e.2 = false →
      prepareSection ops lib StringToDouble libs e = libs ∧
      ∀ before after : List (String × Config),
        PrepareReadSetFromConfig ops lib StringToDouble (before ++ e :: after) libs =
          PrepareReadSetFromConfig ops lib StringToDouble (before ++ after) libs) := by
  obtain ⟨h1, h2, h3⟩ := sectionLibs_lengths ops lib StringToDouble e
  refine ⟨prepareSection_eq_append ops lib StringToDouble libs e, h1, h2, h3, ?_⟩
  intro hs hp hb
  rw [hs] at h1
  rw [hp] at h2
  rw [hb] at h3
  simp only [Bool.false_eq_true, if_false, List.length_eq_zero] at h1 h2 h3
  refine ⟨?_, ?_⟩
  · rw [prepareSection_eq_append]
    simp [Libraries.append, h1, h2, h3]
  · intro before after
    rw [prepare_eq_append, prepare_eq_append]
    simp [h1, h2, h3]

/-- Witness for C19: a section without `type` between a single and a paired
section is skipped. -/
theorem readset_validation_witness :
    (validSingle sampleUntypedSection.2 = false ∧ validPaired sampleUntypedSection.2 = false ∧
      validPacbio sampleUntypedSection.2 = false) ∧
    PrepareReadSetFromConfig sampleOps sampleLibOps sampleStringToDouble
        ([sampleSingleSection] ++ sampleUntypedSection :: [samplePairedSection])
        Libraries.empty =
      PrepareReadSetFromConfig sampleOps sampleLibOps sampleStringToDouble
        ([sampleSingleSection] ++ [samplePairedSection]) Libraries.empty :=
  ⟨by decide,
    ((readset_validation sampleOps sampleLibOps sampleStringToDouble sampleUntypedSection
      Libraries.empty).2.2.2.2 (by decide) (by decide) (by decide)).2
      [sampleSingleSection] [samplePairedSection]⟩

/-! ## Advice libraries -/

theorem getAdvice_foldl {T TT : Type} (advice : T → Bool) (input : List (T × TT))
    (output : List TT) :
    input.foldl (fun output e => if advice e.1 then output ++ [e.2] else output) output =
      output ++ input.filterMap fun e => if advice e.1 then some e.2 else none := by
  induction input generalizing output with
  | nil => simp
  | cons a t ih =>
    rw [List.foldl_cons, ih]
    by_cases h : advice a.1 = true
    · simp [h, List.filterMap_cons]
    · simp [h, List.filterMap_cons]

theorem getAdvice_eq_filterMap {T TT : Type} (advice : T → Bool) (input : List (T × TT)) :
    GetAdvice advice input = input.filterMap fun e => if advice e.1 then some e.2 else none := by
  unfold GetAdvice
  rw [getAdvice_foldl]
  simp

theorem sectionLibs_advice {S : Type} (ops : ScoreOps S) (lib : LibOps S)
    (StringToDouble : String → S) (e : String × Config) :
    (∀ x ∈ (sectionLibs ops lib StringToDouble e).single_reads,
      x.1.advice = (e.2 "advice").isSome) ∧
    (∀ x ∈ (sectionLibs ops lib StringToDouble e).paired_reads,
      x.1.advice = (e.2 "advice").isSome) ∧
    (∀ x ∈ (sectionLibs ops lib StringToDouble e).pacbio_reads,
      x.1.advice = (e.2 "advice").isSome) := by
  unfold sectionLibs prepareSection Libraries.empty
  simp only
  repeat' split
  all_goals simp

theorem getAdvice_flatMap {T TT E : Type} (advice : T → Bool) (flag : E → Bool)
    (f : E → List (T × TT)) (sections : List E)
    (h : ∀ e, ∀ x ∈ f e, advice x.1 = flag e) :
    GetAdvice advice (sections.flatMap f) =
      ((sections.filter flag).flatMap f).map fun x => x.2 := by
  rw [getAdvice_eq_filterMap]
  induction sections with
  | nil => simp
  | cons e rest ih =>
    rw [List.flatMap_cons, List.filterMap_append, ih]
    by_cases hf : flag e = true
    · rw [List.filter_cons_of_pos hf, List.flatMap_cons, List.map_append]
      congr 1
      have : ∀ l : List (T × TT), (∀ x ∈ l, advice x.1 = true) →
          l.filterMap (fun x => if advice x.1 then some x.2 else none) = l.map fun x => x.2 := by
        intro l hl
        induction l with
        | nil => rfl
        | cons a t iht =>
          rw [List.filterMap_cons, List.map_cons]
          simp only [hl a (List.mem_cons_self _ _), if_true]
          rw [iht fun x hx => hl x (List.mem_cons_of_mem _ hx)]
      exact this _ fun x hx => (h e x hx).trans hf
    · rw [List.filter_cons_of_neg hf]
      have : ∀ l : List (T × TT), (∀ x ∈ l, advice x.1 = false) →
          l.filterMap (fun x => if advice x.1 then some x.2 else none) = [] := by
        intro l hl
        induction l with
        | nil => rfl
        | cons a t iht =>
          rw [List.filterMap_cons]
          simp only [hl a (List.mem_cons_self _ _), Bool.false_eq_true, if_false]
          exact iht fun x hx => hl x (List.mem_cons_of_mem _ hx)
      rw [this _ fun x hx => (h e x hx).trans (by simpa using hf)]
      rfl

/-- C16, as stated, fails: a section of type `single` that carries the key
`advice` is loaded with its flag set, but `main` builds the advice vectors
from the paired and the long libraries only, so both vectors handed to
`Optimize` are empty. -/
theorem single_advice_not_exposed :
    (sampleSingleSection.2 "advice").isSome = true ∧
    (PrepareReadSetFromConfig sampleOps sampleLibOps sampleStringToDouble
      [sampleSingleSection] Libraries.empty).single_reads.map (fun e => e.1.advice) = [true] ∧
    (adviceSets (PrepareReadSetFromConfig sampleOps sampleLibOps sampleStringToDouble
      [sampleSingleSection] Libraries.empty)).1.length = 0 ∧
    (adviceSets (PrepareReadSetFromConfig sampleOps sampleLibOps sampleStringToDouble
      [sampleSingleSection] Libraries.empty)).2.length = 0 := by
  decide

/-- C16, amended. For every list of read-set sections, the vector of paired
advice sets handed to `Optimize` consists of the paired libraries loaded
from the sections that carry the key `advice`, in their order, and the
vector of long advice sets of the long libraries loaded from those
sections, in their order; libraries of type `single` are in neither. -/
theorem advice_exposure {S : Type} (ops : ScoreOps S) (lib : LibOps S)
    (StringToDouble : String → S) (sections : List (String × Config)) :
    (adviceSets (PrepareReadSetFromConfig ops lib StringToDouble sections Libraries.empty)).1 =
      (PrepareReadSetFromConfig ops lib StringToDouble
        (sections.filter fun e => (e.2 "advice").isSome) Libraries.empty).paired_reads.map
        (fun x => x.2) ∧
    (adviceSets (PrepareReadSetFromConfig ops lib StringToDouble sections Libraries.empty)).2 =
      (PrepareReadSetFromConfig ops lib StringToDouble
        (sections.filter fun e => (e.2 "advice").isSome) Libraries.empty).pacbio_reads.map
        (fun x => x.2) := by
  unfold adviceSets
  rw [prepare_eq_append, prepare_eq_append]
  simp only [Libraries.empty, List.nil_append]
  refine ⟨?_, ?_⟩
  · exact getAdvice_flatMap (fun c : PairedReadConfig S => c.advice)
      (fun e : String × Config => (e.2 "advice").isSome) _ sections
      (fun e x hx => (sectionLibs_advice ops lib StringToDouble e).2.1 x hx)
  · exact getAdvice_flatMap (fun c : SingleReadConfig S => c.advice)
      (fun e : String × Config => (e.2 "advice").isSome) _ sections
      (fun e x hx => (sectionLibs_advice ops lib StringToDouble e).2.2 x hx)

/-! ## Knobs of the libraries -/

/-- C20, evaluated at a section of type `paired` that holds
`min_prob_per_base` with the value `"-0.5"` (parsed as `-0.500`): the
library is loaded with `min_prob = -0.700`, the default, because the paired
branch reads the key `min_prob_pre_base`; a section of type `single` with
the same key is loaded with `-0.500`. -/
theorem paired_min_prob_ignores_key :
    samplePairedSection.2 "min_prob_per_base" = some "-0.5" ∧
    sampleStringToDouble "-0.5" = -500 ∧
    (PrepareReadSetFromConfig sampleOps sampleLibOps sampleStringToDouble
      [samplePairedSection] Libraries.empty).paired_reads.map (fun e => e.1.min_prob) =
        [-700] ∧
    (PrepareReadSetFromConfig sampleOps sampleLibOps sampleStringToDouble
      [sampleSingleSection] Libraries.empty).single_reads.map (fun e => e.1.min_prob) =
        [-500] := by
  decide

theorem isSettingOf_extractDouble {S : Type} (StringToDouble : String → S) (key : String)
    (cfg : Config) (d : S) :
    IsSettingOf cfg key StringToDouble d (ExtractDouble StringToDouble key cfg d) :=
  ⟨fun v hv => by simp [ExtractDouble, hv], fun hv => by simp [ExtractDouble, hv]⟩

/-- The key each branch reads for `min_prob`: `min_prob_per_base` for the
single and long read sets, `min_prob_pre_base` for the paired libraries,
with the default `-0.7` in both. -/
theorem min_prob_keys {S : Type} (ops : ScoreOps S) (lib : LibOps S)
    (StringToDouble : String → S) (e : String × Config) :
    (∀ x ∈ (sectionLibs ops lib StringToDouble e).single_reads,
      IsSettingOf e.2 "min_prob_per_base" StringToDouble (lib.neg (ops.ofScientific 7 1))
        x.1.min_prob) ∧
    (∀ x ∈ (sectionLibs ops lib StringToDouble e).pacbio_reads,
      IsSettingOf e.2 "min_prob_per_base" StringToDouble (lib.neg (ops.ofScientific 7 1))
        x.1.min_prob) ∧
    (∀ x ∈ (sectionLibs ops lib StringToDouble e).paired_reads,
      IsSettingOf e.2 "min_prob_pre_base" StringToDouble (lib.neg (ops.ofScientific 7 1))
        x.1.min_prob) := by
  unfold sectionLibs prepareSection Libraries.empty
  simp only
  repeat' split
  all_goals
    simp only [List.nil_append, List.mem_singleton, forall_eq, List.not_mem_nil,
      false_implies, implies_true, and_self, and_true, true_and]
  all_goals exact isSettingOf_extractDouble _ _ _ _

/-- C21, evaluated at sections of type `paired` with insert mean 300: without
the key `penalty_step` the library is loaded with `step = 250.000`, not 50,
and with `penalty_step` stored as `"30"` (parsed as `30.000`) it is loaded
with `step = 270.000`, because the paired branch assigns
`insert_mean - ExtractDouble("penalty_step", ..., 50)`; a section of type
`single` with the same key is loaded with `30.000`, and `penalty_constant`
is 0 in all of them. -/
theorem paired_step_is_offset_from_insert_mean :
    samplePairedSection.2 "penalty_step" = none ∧
    (PrepareReadSetFromConfig sampleOps sampleLibOps sampleStringToDouble
      [samplePairedSection] Libraries.empty).paired_reads.map (fun e => e.1.step) =
        [250000] ∧
    samplePairedStepSection.2 "penalty_step" = some "30" ∧
    sampleStringToDouble "30" = 30000 ∧
    (PrepareReadSetFromConfig sampleOps sampleLibOps sampleStringToDouble
      [samplePairedStepSection] Libraries.empty).paired_reads.map (fun e => e.1.step) =
        [270000] ∧
    (PrepareReadSetFromConfig sampleOps sampleLibOps sampleStringToDouble
      [sampleSingleStepSection] Libraries.empty).single_reads.map (fun e => e.1.step) =
        [30000] ∧
    (PrepareReadSetFromConfig sampleOps sampleLibOps sampleStringToDouble
      [samplePairedStepSection] Libraries.empty).paired_reads.map
        (fun e => e.1.penalty_constant) = [0] := by
  decide

/-- The keys each branch reads for the two penalty knobs: `penalty_constant`
with default 0 in every branch; `penalty_step` with default 50 as the value
of `step` for the single and long read sets, and subtracted from the insert
mean for the paired libraries. -/
theorem penalty_keys {S : Type} (ops : ScoreOps S) (lib : LibOps S)
    (StringToDouble : String → S) (e : String × Config) :
    (∀ x ∈ (sectionLibs ops lib StringToDouble e).single_reads,
      IsSettingOf e.2 "penalty_step" StringToDouble (ops.ofInt 50) x.1.step ∧
      IsSettingOf e.2 "penalty_constant" StringToDouble (ops.ofInt 0) x.1.penalty_constant) ∧
    (∀ x ∈ (sectionLibs ops lib StringToDouble e).pacbio_reads,
      IsSettingOf e.2 "penalty_step" StringToDouble (ops.ofInt 50) x.1.step ∧
      IsSettingOf e.2 "penalty_constant" StringToDouble (ops.ofInt 0) x.1.penalty_constant) ∧
    (∀ x ∈ (sectionLibs ops lib StringToDouble e).paired_reads,
      x.1.step =
        ops.sub x.1.insert_mean (ExtractDouble StringToDouble "penalty_step" e.2 (ops.ofInt 50)) ∧
      IsSettingOf e.2 "penalty_constant" StringToDouble (ops.ofInt 0)
        x.1.penalty_constant) := by
  unfold sectionLibs prepareSection Libraries.empty
  simp only
  repeat' split
  all_goals
    simp only [List.nil_append, List.mem_singleton, forall_eq, List.not_mem_nil,
      false_implies, implies_true, and_self, and_true, true_and]
  all_goals
    first
    | exact ⟨isSettingOf_extractDouble _ _ _ _, isSettingOf_extractDouble _ _ _ _⟩
    | exact isSettingOf_extractDouble _ _ _ _

/-! ## Acceptance of a new best, and the score of the current walk set -/

/-- C26. In a state reached from the start of `Optimize` by any passes, a pass
updates the best pair only when it scores its candidate with
`new_prob > best_prob`; in such a pass the candidate is also accepted:
afterwards `best_paths` and `paths` are both the candidate and `best_prob`
and `cur_prob` are both its score. -/
theorem new_best_is_accepted {S : Type} [LinearOrder S] (ops : ScoreOps S) (gr : Graph)
    (settings : AssemblySettings S) (adviceCount : Nat) (paths : Paths) (init_prob : S)
    (as : List (Attempt S)) (a : Attempt S) :
    (isScored settings adviceCount a = true →
      a.new_prob > (optimizeState ops gr settings adviceCount paths init_prob as).best_prob →
      (attempt ops gr settings adviceCount
          (optimizeState ops gr settings adviceCount paths init_prob as) a).best_paths =
        candidate gr settings (optimizeState ops gr settings adviceCount paths init_prob as)
          (wasLocal settings adviceCount a) a ∧
      (attempt ops gr settings adviceCount
          (optimizeState ops gr settings adviceCount paths init_prob as) a).best_prob =
        a.new_prob ∧
      (attempt ops gr settings adviceCount
          (optimizeState ops gr settings adviceCount paths init_prob as) a).paths =
        (attempt ops gr settings adviceCount
          (optimizeState ops gr settings adviceCount paths init_prob as) a).best_paths ∧
      (attempt ops gr settings adviceCount
          (optimizeState ops gr settings adviceCount paths init_prob as) a).cur_prob =
        (attempt ops gr settings adviceCount
          (optimizeState ops gr settings adviceCount paths init_prob as) a).best_prob) ∧
    (¬ (isScored settings adviceCount a = true ∧
        a.new_prob > (optimizeState ops gr settings adviceCount paths init_prob as).best_prob) →
      (attempt ops gr settings adviceCount
          (optimizeState ops gr settings adviceCount paths init_prob as) a).best_paths =
        (optimizeState ops gr settings adviceCount paths init_prob as).best_paths ∧
      (attempt ops gr settings adviceCount
          (optimizeState ops gr settings adviceCount paths init_prob as) a).best_prob =
        (optimizeState ops gr settings adviceCount paths init_prob as).best_prob) := by
  have hinv : (optimizeState ops gr settings adviceCount paths init_prob as).cur_prob ≤
      (optimizeState ops gr settings adviceCount paths init_prob as).best_prob :=
    mainLoop_best_ge_cur ops gr settings adviceCount as _ (le_refl _)
  generalize optimizeState ops gr settings adviceCount paths init_prob as = st at hinv ⊢
  refine ⟨?_, ?_⟩
  · intro hs hn
    have hcur : a.new_prob > st.cur_prob := lt_of_le_of_lt hinv hn
    rw [attempt_eq, if_pos hs]
    unfold finishPass scoreAndAccept acceptFlag
    simp [hn, hcur]
  · intro h
    by_cases hs : isScored settings adviceCount a = true
    · have hn : ¬ a.new_prob > st.best_prob := fun hn => h ⟨hs, hn⟩
      have := attempt_best ops gr settings adviceCount st a hs
      rw [if_neg hn] at this
      exact ⟨congrArg Prod.fst this, congrArg Prod.snd this⟩
    · rw [attempt_unscored ops gr settings adviceCount st a hs]
      exact ⟨rfl, rfl⟩

/-- Witness for C26: from the sample start a `FixSomeBigReps` pass (draw 5)
whose candidate scores `-4.000` becomes the best and the current walk
set. -/
theorem new_best_is_accepted_witness :
    isScored sampleSettings 0 { sampleBreak with rnd := 5, new_prob := -4000 } = true ∧
    ({ sampleBreak with rnd := 5, new_prob := -4000 } : Attempt Int).new_prob >
      (optimizeState sampleOps sampleGraph sampleSettings 0 [[0, 2]] (-5000) []).best_prob ∧
    (attempt sampleOps sampleGraph sampleSettings 0
        (optimizeState sampleOps sampleGraph sampleSettings 0 [[0, 2]] (-5000) [])
        { sampleBreak with rnd := 5, new_prob := -4000 }).paths =
      (attempt sampleOps sampleGraph sampleSettings 0
        (optimizeState sampleOps sampleGraph sampleSettings 0 [[0, 2]] (-5000) [])
        { sampleBreak with rnd := 5, new_prob := -4000 }).best_paths :=
  ⟨by decide, by decide,
    ((new_best_is_accepted sampleOps sampleGraph sampleSettings 0 [[0, 2]] (-5000) []
      { sampleBreak with rnd := 5, new_prob := -4000 }).1 (by decide) (by decide)).2.2.1⟩

/-- C25, evaluated at the initial walk set `[[0], [0, 2]]` with a calculator
that charges `50.000` for every walk beyond the first: `cur_prob` is the
score `-50.000` of the walk set passed in, computed before the initial
cleanup, while the current walk set at the start of the first pass is the
cleaned `[[0, 2]]`, whose score is 0. -/
theorem cur_prob_stale_after_initial_cleanup :
    (optimizeInit sampleOps [[0], [0, 2]] (sampleCalcProb [[0], [0, 2]])).cur_prob = -50000 ∧
    (optimizeInit sampleOps [[0], [0, 2]] (sampleCalcProb [[0], [0, 2]])).paths = [[0, 2]] ∧
    sampleCalcProb
      (optimizeInit sampleOps [[0], [0, 2]] (sampleCalcProb [[0], [0, 2]])).paths = 0 ∧
    ¬ Coherent sampleCalcProb
      (optimizeInit sampleOps [[0], [0, 2]] (sampleCalcProb [[0], [0, 2]])) := by
  refine ⟨by decide, by decide, by decide, ?_⟩
  unfold Coherent
  decide

/-- What holds of the score of the current walk set: it is coherent at the
start when the initial cleanup erases nothing, and one pass keeps it
coherent, or makes it coherent by accepting, when the candidate is scored by
the calculator. -/
theorem coherent_step {S : Type} [LinearOrder S] (ops : ScoreOps S) (gr : Graph)
    (settings : AssemblySettings S) (adviceCount : Nat) (calcProb : Paths → S) :
    (∀ paths : Paths, cleanPaths paths = paths →
      Coherent calcProb (optimizeInit ops paths (calcProb paths))) ∧
    (∀ (st : State S) (a : Attempt S),
      a.new_prob = calcProb (candidate gr settings st (wasLocal settings adviceCount a) a) →
      Coherent calcProb st →
      Coherent calcProb (attempt ops gr settings adviceCount st a)) := by
  refine ⟨?_, ?_⟩
  · intro paths h
    unfold Coherent optimizeInit
    simp only
    rw [h]
  · intro st a hscore hco
    rw [attempt_eq]
    split
    · unfold Coherent finishPass scoreAndAccept
      simp only
      split
      · exact hscore
      · exact hco
    · exact hco

/-! ## What the cleanup keeps -/

theorem filter_eraseIdx_of_false (l : Paths) (c : Nat) (p : List Int → Bool)
    (hc : c < l.length) (h : p (l.getD c []) = false) :
    (l.eraseIdx c).filter p = l.filter p := by
  induction l generalizing c with
  | nil => simp
  | cons a t ih =>
    cases c with
    | zero =>
      simp at h
      simp [List.filter_cons, h]
    | succ c =>
      simp at h hc
      rw [List.eraseIdx_cons_succ, List.filter_cons, List.filter_cons,
        ih c hc (by simpa using h)]

theorem getD_singleton_of_findClean {paths : Paths} {c : Nat}
    (hc : findClean paths = some c) : c < paths.length ∧ ∃ m, paths.getD c [] = [m] := by
  obtain ⟨hcl, hl⟩ := findClean_some hc
  rw [loneRepeated_iff] at hl
  obtain ⟨m, hm, -⟩ := hl
  exact ⟨hcl, m, hm⟩

theorem cleanLoop_filter (fuel : Nat) (paths : Paths) (k : Nat) (r : Paths)
    (h : cleanLoop fuel paths = some (k, r)) :
    r.filter (fun w => decide (2 ≤ w.length)) =
      paths.filter (fun w => decide (2 ≤ w.length)) := by
  induction fuel generalizing paths k with
  | zero => simp [cleanLoop] at h
  | succ f ih =>
    unfold cleanLoop at h
    rcases hc : findClean paths with _ | c
    · simp only [hc, Option.some.injEq, Prod.mk.injEq] at h
      rw [← h.2]
    · simp only [hc] at h
      rcases hr : cleanLoop f (paths.eraseIdx c) with _ | y
      · rw [hr] at h; cases h
      · rw [hr] at h
        simp only [Option.map_some', Option.some.injEq, Prod.mk.injEq] at h
        obtain ⟨k1, r1⟩ := y
        simp only at h
        obtain ⟨-, rfl⟩ := h
        rw [ih _ k1 hr]
        obtain ⟨hcl, m, hm⟩ := getD_singleton_of_findClean hc
        exact filter_eraseIdx_of_false paths c _ hcl (by rw [hm]; rfl)

theorem cleanPaths_filter (paths : Paths) :
    (cleanPaths paths).filter (fun w => decide (2 ≤ w.length)) =
      paths.filter (fun w => decide (2 ≤ w.length)) := by
  obtain ⟨k, r, hr, -, -, -, -⟩ := cleanLoop_spec (paths.length + 1) paths (Nat.lt_succ_self _)
  have := cleanLoop_filter _ _ _ _ hr
  simpa [cleanPaths, hr] using this

/-- C24. For a walk set whose walks are all non-empty, the result of the
cleanup, the same for both copies of the loop, is a sublist of the input
(walks in their original order), contains the walks of length at least 2 of
the input exactly as they were, and still covers, in one orientation or the
other, every node the input covered. -/
theorem cleanup_keeps (paths : Paths) (_hne : ∀ w ∈ paths, w ≠ []) (was_local : Bool)
    (local_p : Int) :
    (cleanPathsLocal was_local local_p paths).2 = cleanPaths paths ∧
    (cleanPaths paths).Sublist paths ∧
    (cleanPaths paths).filter (fun w => decide (2 ≤ w.length)) =
      paths.filter (fun w => decide (2 ≤ w.length)) ∧
    (∀ w ∈ paths, 2 ≤ w.length → w ∈ cleanPaths paths) ∧
    (∀ n : Int, Covers paths n → Covers (cleanPaths paths) n) := by
  refine ⟨cleanPathsLocal_snd was_local local_p paths, cleanPaths_sublist paths,
    cleanPaths_filter paths, ?_, fun n hn => cleanPaths_covers paths n hn⟩
  intro w hw hlen
  have hmem : w ∈ paths.filter (fun w => decide (2 ≤ w.length)) :=
    List.mem_filter.mpr ⟨hw, by simpa using hlen⟩
  rw [← cleanPaths_filter] at hmem
  exact (List.mem_filter.mp hmem).1

/-- Witness for C24: the walk set `[[2], [2, 4], [3]]` loses its two
single-entry walks and keeps the walk `2, 4`, which covers nodes 2 and 3. -/
theorem cleanup_keeps_witness :
    (∀ w ∈ ([[2], [2, 4], [3]] : Paths), w ≠ []) ∧
    cleanPaths [[2], [2, 4], [3]] = [[2, 4]] ∧
    ([2, 4] : Walk) ∈ cleanPaths [[2], [2, 4], [3]] ∧
    Covers (cleanPaths [[2], [2, 4], [3]]) 3 :=
  ⟨by decide, by decide,
    (cleanup_keeps [[2], [2, 4], [3]] (by decide) true 2).2.2.2.1 [2, 4] (by decide)
      (by decide),
    (cleanup_keeps [[2], [2, 4], [3]] (by decide) true 2).2.2.2.2 3
      ⟨[3], by decide, Or.inl (by decide)⟩⟩

/-! ## The tracked index -/

theorem getD_eraseIdx (l : Paths) (c j : Nat) :
    (l.eraseIdx c).getD j [] = if j < c then l.getD j [] else l.getD (j + 1) [] := by
  rw [List.getD_eq_getElem?_getD, List.getElem?_eraseIdx]
  split
  · rw [List.getD_eq_getElem?_getD]
  · rw [List.getD_eq_getElem?_getD]

theorem cleanLoopLocal_tracks (fuel : Nat) (paths : Paths) (local_p : Int) (k : Nat)
    (lp : Int) (r : Paths)
    (h : cleanLoopLocal true fuel local_p paths = some (k, lp, r))
    (h0 : 0 ≤ local_p) (hlt : local_p.toNat < paths.length)
    (hlen : 2 ≤ (paths.getD local_p.toNat []).length) :
    0 ≤ lp ∧ lp.toNat < r.length ∧ r.getD lp.toNat [] = paths.getD local_p.toNat [] := by
  induction fuel generalizing paths local_p k with
  | zero => simp [cleanLoopLocal] at h
  | succ f ih =>
    unfold cleanLoopLocal at h
    rcases hc : findClean paths with _ | c
    · simp only [hc, Option.some.injEq, Prod.mk.injEq] at h
      obtain ⟨-, rfl, rfl⟩ := h
      exact ⟨h0, hlt, rfl⟩
    · simp only [hc] at h
      obtain ⟨hcl, m, hm⟩ := getD_singleton_of_findClean hc
      have hne : c ≠ local_p.toNat := by
        intro heq
        rw [← heq, hm] at hlen
        simp at hlen
      have hlenE : (paths.eraseIdx c).length = paths.length - 1 := by
        rw [List.length_eraseIdx, if_pos hcl]
      generalize hlp1 :
        (if true && decide ((c : Int) < local_p) then local_p - 1 else local_p) = lp1 at h
      rcases hr : cleanLoopLocal true f lp1 (paths.eraseIdx c) with _ | y
      · rw [hr] at h; cases h
      · rw [hr] at h
        obtain ⟨k1, lp2, r1⟩ := y
        simp only [Option.map_some', Option.some.injEq, Prod.mk.injEq] at h
        obtain ⟨-, rfl, rfl⟩ := h
        by_cases hcase : (c : Int) < local_p
        · have hlp1v : lp1 = local_p - 1 := by
            rw [← hlp1]; simp [hcase]
          have h0' : 0 ≤ lp1 := by omega
          have hnat : lp1.toNat = local_p.toNat - 1 := by omega
          have hlt' : lp1.toNat < (paths.eraseIdx c).length := by omega
          have hget : (paths.eraseIdx c).getD lp1.toNat [] = paths.getD local_p.toNat [] := by
            rw [getD_eraseIdx, hnat, if_neg (by omega)]
            congr 1
            omega
          have := ih (paths.eraseIdx c) lp1 k1 hr h0' hlt' (by rw [hget]; exact hlen)
          rw [hget] at this
          exact this
        · have hlp1v : lp1 = local_p := by
            rw [← hlp1]; simp [hcase]
          subst hlp1v
          have hlt' : lp1.toNat < (paths.eraseIdx c).length := by omega
          have hget : (paths.eraseIdx c).getD lp1.toNat [] = paths.getD lp1.toNat [] := by
            rw [getD_eraseIdx, if_pos (by omega)]
          have := ih (paths.eraseIdx c) lp1 k1 hr h0 hlt' (by rw [hget]; exact hlen)
          rw [hget] at this
          exact this

theorem cleanPathsLocal_tracks (paths : Paths) (local_p : Int)
    (h0 : 0 ≤ local_p) (hlt : local_p.toNat < paths.length)
    (hlen : 2 ≤ (paths.getD local_p.toNat []).length) :
    0 ≤ (cleanPathsLocal true local_p paths).1 ∧
    (cleanPathsLocal true local_p paths).2.getD (cleanPathsLocal true local_p paths).1.toNat [] =
      paths.getD local_p.toNat [] := by
  unfold cleanPathsLocal
  rcases hr : cleanLoopLocal true (paths.length + 1) local_p paths with _ | ⟨k, lp, r⟩
  · exact ⟨h0, rfl⟩
  · obtain ⟨a, -, b⟩ := cleanLoopLocal_tracks _ _ _ _ _ _ hr h0 hlt hlen
    exact ⟨a, b⟩

/-- C23. For a walk set of non-empty walks entering the per-iteration cleanup
with `was_local` set and a recorded `local_p` that is the index of a walk
with at least two entries: the adjusted `local_p` is a valid index of the
cleaned walk set and designates the same walk, so the entries read at
`local_s` and `local_t` are the same as before the cleanup.  In a pass of
the main loop this holds for the walk set returned by `LocalChange` and the
candidate that is scored, the walks inserted by the "Rep stats" block being
appended behind the recorded one. -/
theorem local_index_tracked (paths : Paths) (_hne : ∀ w ∈ paths, w ≠ [])
    (local_p local_s local_t : Int)
    (h0 : 0 ≤ local_p) (hlt : local_p.toNat < paths.length)
    (hlen : 2 ≤ (paths.getD local_p.toNat []).length) :
    0 ≤ (cleanPathsLocal true local_p paths).1 ∧
    (cleanPathsLocal true local_p paths).2.getD (cleanPathsLocal true local_p paths).1.toNat [] =
      paths.getD local_p.toNat [] ∧
    entryAt (cleanPathsLocal true local_p paths).2 (cleanPathsLocal true local_p paths).1 local_s =
      entryAt paths local_p local_s ∧
    entryAt (cleanPathsLocal true local_p paths).2 (cleanPathsLocal true local_p paths).1 local_t =
      entryAt paths local_p local_t ∧
    (∀ (S : Type) (gr : Graph) (settings : AssemblySettings S) (adviceCount : Nat)
      (st : State S) (a : Attempt S),
      wasLocal settings adviceCount a = true → a.moved = paths → a.local_p = local_p →
      (candidate gr settings st (wasLocal settings adviceCount a) a).getD
          (adjustedLocalP gr settings adviceCount st a).toNat [] =
        a.moved.getD a.local_p.toNat []) := by
  obtain ⟨ha, hb⟩ := cleanPathsLocal_tracks paths local_p h0 hlt hlen
  refine ⟨ha, hb, ?_, ?_, ?_⟩
  · unfold entryAt
    rw [hb]
  · unfold entryAt
    rw [hb]
  · intro S gr settings adviceCount st a hl hmoved hp
    unfold candidate adjustedLocalP
    rw [hl, hmoved, hp]
    have hrep : (repStats gr settings.threshold st.paths paths).getD local_p.toNat [] =
        paths.getD local_p.toNat [] := by
      unfold repStats
      exact List.getD_append _ _ _ _ hlt
    have hlt2 : local_p.toNat < (repStats gr settings.threshold st.paths paths).length := by
      unfold repStats
      rw [List.length_append]
      omega
    obtain ⟨-, hb2⟩ := cleanPathsLocal_tracks (repStats gr settings.threshold st.paths paths)
      local_p h0 hlt2 (by rw [hrep]; exact hlen)
    rw [hb2, hrep]

/-- Witness for C23: in `[[2], [7, 8], [2, 4]]` with `local_p = 2` the cleanup
erases the walk at index 0; the adjusted index 1 designates the walk
`2, 4`. -/
theorem local_index_tracked_witness :
    (∀ w ∈ ([[2], [7, 8], [2, 4]] : Paths), w ≠ []) ∧
    cleanPathsLocal true 2 [[2], [7, 8], [2, 4]] = (1, [[7, 8], [2, 4]]) ∧
    (cleanPathsLocal true 2 [[2], [7, 8], [2, 4]]).2.getD
        (cleanPathsLocal true 2 [[2], [7, 8], [2, 4]]).1.toNat [] =
      ([[2], [7, 8], [2, 4]] : Paths).getD (2 : Int).toNat [] :=
  ⟨by decide, by decide,
    (local_index_tracked [[2], [7, 8], [2, 4]] (by decide) 2 0 1 (by decide) (by decide)
      (by decide)).2.1⟩

/-! ## Clipping of the starting walks -/

theorem clipStep_eq (gr : Graph) (p : Walk) (be : Int × Int) (i : Nat) :
    clipStep gr p be i =
      if isLong500 gr (p.getD i 0) = true then
        ((if be.1 = -1 then (i : Int) else be.1), (i : Int))
      else be := by
  unfold clipStep isLong500
  generalize p.getD i 0 = x
  by_cases h1 : x < 0
  · have : ¬ 0 ≤ x := by omega
    simp [h1, this]
  · have : 0 ≤ x := by omega
    simp [h1, this]

theorem clipBounds_prefix (gr : Graph) (p : Walk) (k : Nat) :
    ((List.range k).foldl (clipStep gr p) (-1, -1) = (-1, -1) ∧
      ∀ i, i < k → isLong500 gr (p.getD i 0) = false) ∨
    (∃ b e : Nat, (List.range k).foldl (clipStep gr p) (-1, -1) = ((b : Int), (e : Int)) ∧
      b ≤ e ∧ e < k ∧ isLong500 gr (p.getD b 0) = true ∧ isLong500 gr (p.getD e 0) = true ∧
      (∀ i, i < b → isLong500 gr (p.getD i 0) = false) ∧
      (∀ i, e < i → i < k → isLong500 gr (p.getD i 0) = false)) := by
  induction k with
  | zero =>
    left
    exact ⟨rfl, fun i hi => absurd hi (Nat.not_lt_zero i)⟩
  | succ k ih =>
    rw [List.range_succ, List.foldl_append, List.foldl_cons, List.foldl_nil, clipStep_eq]
    by_cases hk : isLong500 gr (p.getD k 0) = true
    · rw [if_pos hk]
      rcases ih with ⟨hbe, hall⟩ | ⟨b, e, hbe, hle, hek, hb, -, hbefore, -⟩
      · right
        refine ⟨k, k, ?_, le_refl _, Nat.lt_succ_self _, hk, hk, hall, ?_⟩
        · rw [hbe]; rfl
        · intro i h1 h2; omega
      · right
        refine ⟨b, k, ?_, by omega, Nat.lt_succ_self _, hb, hk, hbefore, ?_⟩
        · rw [hbe]
          have : ¬ ((b : Int) = -1) := by omega
          simp only [this, if_false]
        · intro i h1 h2; omega
    · rw [if_neg hk]
      have hkf : isLong500 gr (p.getD k 0) = false := by simpa using hk
      rcases ih with ⟨hbe, hall⟩ | ⟨b, e, hbe, hle, hek, hb, he, hbefore, hafter⟩
      · left
        refine ⟨hbe, ?_⟩
        intro i hi
        rcases Nat.lt_succ_iff_lt_or_eq.mp hi with h | h
        · exact hall i h
        · rw [h]; exact hkf
      · right
        refine ⟨b, e, hbe, hle, by omega, hb, he, hbefore, ?_⟩
        intro i h1 h2
        rcases Nat.lt_succ_iff_lt_or_eq.mp h2 with h | h
        · exact hafter i h1 h
        · rw [h]; exact hkf

theorem clipPaths_foldl (gr : Graph) (paths out : Paths) :
    paths.foldl
      (fun out p =>
        match clipWalk gr p with
        | none => out
        | some w => out ++ [w])
      out = out ++ paths.filterMap (clipWalk gr) := by
  induction paths generalizing out with
  | nil => simp
  | cons p rest ih =>
    rw [List.foldl_cons, ih, List.filterMap_cons]
    rcases clipWalk gr p with _ | w
    · rfl
    · simp

theorem getD_mem_or (p : Walk) (i : Nat) (hi : i < p.length) : p.getD i 0 ∈ p := by
  rw [List.getD_eq_getElem?_getD, List.getElem?_eq_getElem hi]
  exact List.getElem_mem hi

theorem slice_head_last (p : Walk) (b e : Nat) (hle : b ≤ e) (he : e < p.length) :
    ((p.drop b).take (e + 1 - b)).head? = some (p.getD b 0) ∧
    ((p.drop b).take (e + 1 - b)).getLast? = some (p.getD e 0) := by
  have hn : e + 1 - b ≠ 0 := by omega
  have hb : b < p.length := by omega
  refine ⟨?_, ?_⟩
  · rw [List.head?_take, if_neg hn, List.head?_drop, List.getD_eq_getElem?_getD,
      List.getElem?_eq_getElem hb]
    rfl
  · rw [List.getLast?_take, if_neg hn, List.getElem?_drop]
    have hidx : b + (e + 1 - b - 1) = e := by omega
    rw [hidx, List.getD_eq_getElem?_getD, List.getElem?_eq_getElem he]
    rfl

/-- C27. `ClipPaths` returns, in input order, what `clipWalk` gives for the
input walks that give something.  A walk without an entry that is a node
longer than 500 gives nothing.  A walk with such an entry gives the
contiguous part of the walk from the index `b` of its first such entry to
the index `e` of its last one: both entries are nodes longer than 500, no
entry before `b` or after `e` is, and the part begins with the entry at `b`
and ends with the entry at `e`, so it is not empty. -/
theorem clipPaths_spec (gr : Graph) (paths : Paths) :
    ClipPaths gr paths = paths.filterMap (clipWalk gr) ∧
    (∀ p : Walk, (∀ x ∈ p, isLong500 gr x = false) → clipWalk gr p = none) ∧
    (∀ p : Walk, (∃ x ∈ p, isLong500 gr x = true) →
      ∃ b e : Nat, b ≤ e ∧ e < p.length ∧
        isLong500 gr (p.getD b 0) = true ∧ isLong500 gr (p.getD e 0) = true ∧
        (∀ i, i < b → isLong500 gr (p.getD i 0) = false) ∧
        (∀ i, e < i → i < p.length → isLong500 gr (p.getD i 0) = false) ∧
        clipWalk gr p = some ((p.drop b).take (e + 1 - b)) ∧
        ((p.drop b).take (e + 1 - b)).head? = some (p.getD b 0) ∧
        ((p.drop b).take (e + 1 - b)).getLast? = some (p.getD e 0)) := by
  refine ⟨?_, ?_, ?_⟩
  · unfold ClipPaths
    rw [clipPaths_foldl]
    rfl
  · intro p hall
    rcases clipBounds_prefix gr p p.length with ⟨hbe, -⟩ | ⟨b, e, -, hle, he, hb, -, -, -⟩
    · unfold clipWalk clipBounds
      rw [hbe]
      rfl
    · have := hall _ (getD_mem_or p b (by omega))
      rw [this] at hb
      cases hb
  · rintro p ⟨x, hx, hlong⟩
    rcases clipBounds_prefix gr p p.length with
      ⟨-, hall⟩ | ⟨b, e, hbe, hle, he, hb, hee, hbefore, hafter⟩
    · obtain ⟨i, hi, rfl⟩ := List.getElem_of_mem hx
      have := hall i hi
      rw [List.getD_eq_getElem?_getD, List.getElem?_eq_getElem hi] at this
      simp only [Option.getD_some] at this
      rw [this] at hlong
      cases hlong
    · refine ⟨b, e, hle, he, hb, hee, hbefore, hafter, ?_, slice_head_last p b e hle he⟩
      unfold clipWalk clipBounds
      rw [hbe]
      have hne : ¬ ((b : Int) = -1) := by omega
      simp only [hne, if_false, Int.toNat_ofNat]

/-- Witness for C27: on `clipGraph` the walk `2, 0, -50, 2, 4, 3` is clipped
to `0, -50, 2, 4`, the walk `2, -7, 3` is dropped and the walk `5` is
kept. -/
theorem clipPaths_spec_witness :
    (∀ x ∈ ([2, -7, 3] : Walk), isLong500 clipGraph x = false) ∧
    clipWalk clipGraph [2, -7, 3] = none ∧
    ClipPaths clipGraph [[2, 0, -50, 2, 4, 3], [2, -7, 3], [5]] = [[0, -50, 2, 4], [5]] :=
  ⟨by decide, (clipPaths_spec clipGraph []).2.1 [2, -7, 3] (by decide), by decide⟩

/-! ## Acceptance at the special values of `double` -/

/-- The acceptance flag over a linear order is the flag with the comparison
of that order. -/
theorem acceptFlag_eq_acceptFlagWith {S : Type} [LinearOrder S] (ops : ScoreOps S)
    (do_postprocess was_break : Bool) (cur_prob new_prob T samp : S) :
    acceptFlag ops do_postprocess was_break cur_prob new_prob T samp =
      acceptFlagWith (fun a b => decide (a < b)) ops do_postprocess was_break cur_prob new_prob
        T samp := rfl

/-- The temperature stored by a scored pass is `temperatureAt` of the
incremented `itnum`. -/
theorem scoreAndAccept_T {S : Type} [LinearOrder S] (ops : ScoreOps S)
    (settings : AssemblySettings S) (st : State S) (was_break : Bool) (new_paths : Paths)
    (new_prob samp : S) :
    (scoreAndAccept ops settings st was_break new_paths new_prob samp).T =
      temperatureAt ops settings.t0 (st.itnum + 1) := rfl

/-- No `double` is below itself. -/
theorem Dbl.lt_irrefl (x : Dbl) : Dbl.lt x x = false := by
  cases x <;> simp [Dbl.lt]

/-- With the negative zero as `t0` the boundary is the opposite one: the
temperature is `-0.0`, a negative difference divided by it is `+inf`, and a
candidate scoring `-6` against `cur_prob = -5` is accepted. -/
theorem negative_zero_t0_accepts_worse :
    temperatureAt (dblOps sampleExpD sampleLogD) Dbl.nzero 1 = Dbl.nzero ∧
    acceptFlagWith Dbl.lt (dblOps sampleExpD sampleLogD) false true (Dbl.fin (-5))
      (Dbl.fin (-6)) Dbl.nzero (Dbl.fin 0) = true := by
  constructor
  · simp [temperatureAt, dblOps, sampleLogD, Dbl.div, Dbl.isNaN, Dbl.isInf, Dbl.isZero,
      Dbl.signBit, Dbl.zero]
    norm_num
  · simp [acceptFlagWith, dblOps, sampleExpD, Dbl.lt, Dbl.sub, Dbl.div, Dbl.isNaN, Dbl.isInf,
      Dbl.isZero, Dbl.signBit, Dbl.inf]
    norm_num

end GAML
